import Mathlib

/-! Dining philosophers (`task3_philosophers.cpp`, namespace `task3`): interleaving model.

The five agent routines of `DiningPhilosophers` are embedded as control-flow
graphs over a common set of program points.  One step of an agent executes the
instruction at its program point; a run is any interleaving of agent steps.

* `forks` is the function-local `static` vector of the running routine:
  for `std::vector<std::mutex>` the flag is "locked", for
  `std::vector<BinarySemaphore>` it is the member `available`, for the
  arbitrator it is `forks_available[i]`.
* `history` is an observation log (newest event first) of the synchronisation
  operations and trace lines performed so far; the program never reads it.
* `std::mutex::lock` completes only on an unlocked mutex; `try_lock` succeeds
  exactly when the mutex is unlocked; sleeps are steps that are always enabled.
* A run starts from `init`: the static vector has just been constructed with
  one entry per philosopher.  `start` is the general form, for a run that finds
  the vector of an earlier run.

The employee analysis (`task2_employees.cpp`, namespace `task2`) is embedded as
pure functions.  A `double` is a value of `Double`: a finite rational, an
infinity or NaN; `+`, `-` and `/` round their exact result to binary64
precision (to nearest, ties to even) and overflow to an infinity, comparisons
with NaN are false.  The threads of `process_multi_thread` write disjoint
slots and are joined before the slots are read, and the random generator is
an argument.

`run_benchmark` is embedded as the sequence of its cells, each of which runs
one simulation under a given interleaving on the static fork vector that the
earlier cells have left, and records its result only when that simulation
has returned.

`CustomBarrier` (`task1_race.cpp`, namespace `task1`) is embedded as a state
machine over its data members, `arrive_and_wait` being atomic under its mutex.

-/

/-! ## Definitions -/

namespace task3

/-- Closed set of strategies: `enum class Strategy` of `task3_philosophers.h`. -/
inductive Strategy
  | MUTEX
  | SEMAPHORE
  | TRY_LOCK
  | ARBITRATOR
  | RESOURCE_HIERARCHY
  deriving DecidableEq, Repr

/-- Class `BinarySemaphore` (lines 18-40): its only data member besides the
internal mutex and condition variable is `available`. -/
structure BinarySemaphore where
  available : Bool
  deriving DecidableEq, Repr

/-- Constructor `BinarySemaphore(bool initial = true)`, default argument. -/
def BinarySemaphore.new : BinarySemaphore := ⟨true⟩

/-- Method `acquire()`: waits until `available`, then sets it to `false`.
`none` means the caller stays blocked in `cv.wait`. -/
def BinarySemaphore.acquire (b : BinarySemaphore) : Option BinarySemaphore :=
  if b.available then some ⟨false⟩ else none

/-- Method `release()`: sets `available = true` whatever it was. -/
def BinarySemaphore.release (_b : BinarySemaphore) : BinarySemaphore := ⟨true⟩

/-- Left fork index: `int left_fork = id;`. -/
def left_fork (id : Nat) : Nat := id

/-- Right fork index: `int right_fork = (id + 1) % num_philosophers_;`. -/
def right_fork (N id : Nat) : Nat := (id + 1) % N

/-- Right fork index on C++ `int` values: `%` truncates toward zero. -/
def right_fork_int (N id : Int) : Int := Int.tmod (id + 1) N

/-- Left fork index on C++ `int` values. -/
def left_fork_int (id : Int) : Int := id

/-- Lines 232-246 of `philosopher_resource_hierarchy`: the pair
`(first_fork, second_fork)` after the special case and the swap. -/
def hierarchy_forks (N id : Nat) : Nat × Nat :=
  let p : Nat × Nat := if id = N - 1 then (0, id) else (id, (id + 1) % N)
  if p.1 > p.2 then (p.2, p.1) else p

/-- Variable `first_fork` of `philosopher_resource_hierarchy`. -/
def first_fork (N id : Nat) : Nat := (hierarchy_forks N id).1

/-- Variable `second_fork` of `philosopher_resource_hierarchy`. -/
def second_fork (N id : Nat) : Nat := (hierarchy_forks N id).2

/-- Program points of an agent routine. -/
inductive PC
  | loopHead      -- `for (...; i < iterations; ...)` test, think sleep, trace line
  | lockFirst     -- first `lock` / `acquire` / `try_lock` of the cycle
  | lockSecond    -- second `lock` / `acquire` / `try_lock` of the cycle
  | retryUnlock   -- TryLock: `forks[left_fork].unlock()` after a failed second try
  | retrySleep    -- TryLock, Arbitrator: back-off sleep before the next attempt
  | guardLock     -- Arbitrator: `std::unique_lock lock(table_mutex)`
  | guardCheck    -- Arbitrator: `if (forks_available[left] && forks_available[right])`
  | takeLeft      -- Arbitrator: `forks_available[left_fork] = false`
  | takeRight     -- Arbitrator: `forks_available[right_fork] = false; has_permission = true`
  | guardExit     -- Arbitrator: end of the loop body, `unique_lock` destructor unlocks
  | guardFail     -- Arbitrator: `lock.unlock()` in the `!has_permission` branch
  | eat           -- eat sleep, trace line
  | unlockFirst   -- first `unlock` / `release` statement
  | unlockSecond  -- second `unlock` / `release` statement
  | returnLock    -- Arbitrator: `std::lock_guard lock(table_mutex)`
  | returnLeft    -- Arbitrator: `forks_available[left_fork] = true`
  | returnRight   -- Arbitrator: `forks_available[right_fork] = true`
  | returnUnlock  -- Arbitrator: `lock_guard` destructor
  | loopIncr      -- `++i`
  | finished      -- the routine has returned
  deriving DecidableEq, Repr

/-- Instructions found at program points. -/
inductive Instr
  | loop (body exit : PC)               -- loop test; on entry think sleep and trace line
  | lock (f : Nat) (next : PC)          -- `forks[f].lock()`
  | try_lock (f : Nat) (ok fail : PC)   -- `if (forks[f].try_lock())`
  | unlock (f : Nat) (next : PC)        -- `forks[f].unlock()`
  | acquire (f : Nat) (next : PC)       -- `forks[f].acquire()`
  | release (f : Nat) (next : PC)       -- `forks[f].release()`
  | table_lock (next : PC)              -- lock of `table_mutex`
  | table_unlock (next : PC)            -- unlock of `table_mutex`
  | check (l r : Nat) (ok fail : PC)    -- `forks_available[l] && forks_available[r]`
  | set_available (f : Nat) (b : Bool) (next : PC)  -- `forks_available[f] = b`
  | eat (next : PC)                     -- eat sleep and trace line
  | sleep (next : PC)                   -- retry sleep
  | incr (next : PC)                    -- `++i`
  | halt
  deriving DecidableEq, Repr

/-- Observable operations recorded in the history. -/
inductive Op
  | lock (f : Nat)
  | try_lock (f : Nat) (ok : Bool)
  | unlock (f : Nat)
  | acquire (f : Nat)
  | release (f : Nat)
  | table_lock
  | table_unlock
  | check (l r : Nat) (ok : Bool)
  | set_available (f : Nat) (b : Bool)
  | print_thinking (iteration : Nat)
  | print_eating (iteration : Nat)
  deriving DecidableEq, Repr

/-- Local state of one agent thread: program point and loop variable `i`. -/
structure Agent where
  pc : PC
  i : Nat
  deriving DecidableEq, Repr

/-- Global state of a run. -/
structure State where
  agents : List Agent
  forks : List Bool
  table_mutex : Bool
  history : List (Nat × Op)
  deriving DecidableEq, Repr

/-- Routine `philosopher_mutex` (lines 45-84). -/
def philosopher_mutex (N id : Nat) : PC → Instr
  | .loopHead => .loop .lockFirst .finished
  | .lockFirst =>
      if id % 2 = 0 then .lock (left_fork id) .lockSecond
      else .lock (right_fork N id) .lockSecond
  | .lockSecond =>
      if id % 2 = 0 then .lock (right_fork N id) .eat
      else .lock (left_fork id) .eat
  | .eat => .eat .unlockFirst
  | .unlockFirst => .unlock (left_fork id) .unlockSecond
  | .unlockSecond => .unlock (right_fork N id) .loopIncr
  | .loopIncr => .incr .loopHead
  | _ => .halt

/-- Routine `philosopher_semaphore` (lines 86-120). -/
def philosopher_semaphore (N id : Nat) : PC → Instr
  | .loopHead => .loop .lockFirst .finished
  | .lockFirst => .acquire (left_fork id) .lockSecond
  | .lockSecond => .acquire (right_fork N id) .eat
  | .eat => .eat .unlockFirst
  | .unlockFirst => .release (left_fork id) .unlockSecond
  | .unlockSecond => .release (right_fork N id) .loopIncr
  | .loopIncr => .incr .loopHead
  | _ => .halt

/-- Routine `philosopher_try_lock` (lines 122-168). -/
def philosopher_try_lock (N id : Nat) : PC → Instr
  | .loopHead => .loop .lockFirst .finished
  | .lockFirst => .try_lock (left_fork id) .lockSecond .retrySleep
  | .lockSecond => .try_lock (right_fork N id) .eat .retryUnlock
  | .retryUnlock => .unlock (left_fork id) .retrySleep
  | .retrySleep => .sleep .lockFirst
  | .eat => .eat .unlockFirst
  | .unlockFirst => .unlock (left_fork id) .unlockSecond
  | .unlockSecond => .unlock (right_fork N id) .loopIncr
  | .loopIncr => .incr .loopHead
  | _ => .halt

/-- Routine `philosopher_arbitrator` (lines 170-221). -/
def philosopher_arbitrator (N id : Nat) : PC → Instr
  | .loopHead => .loop .guardLock .finished
  | .guardLock => .table_lock .guardCheck
  | .guardCheck => .check (left_fork id) (right_fork N id) .takeLeft .guardFail
  | .takeLeft => .set_available (left_fork id) false .takeRight
  | .takeRight => .set_available (right_fork N id) false .guardExit
  | .guardExit => .table_unlock .eat
  | .guardFail => .table_unlock .retrySleep
  | .retrySleep => .sleep .guardLock
  | .eat => .eat .returnLock
  | .returnLock => .table_lock .returnLeft
  | .returnLeft => .set_available (left_fork id) true .returnRight
  | .returnRight => .set_available (right_fork N id) true .returnUnlock
  | .returnUnlock => .table_unlock .loopIncr
  | .loopIncr => .incr .loopHead
  | _ => .halt

/-- Routine `philosopher_resource_hierarchy` (lines 223-271). -/
def philosopher_resource_hierarchy (N id : Nat) : PC → Instr
  | .loopHead => .loop .lockFirst .finished
  | .lockFirst => .lock (first_fork N id) .lockSecond
  | .lockSecond => .lock (second_fork N id) .eat
  | .eat => .eat .unlockFirst
  | .unlockFirst => .unlock (second_fork N id) .unlockSecond
  | .unlockSecond => .unlock (first_fork N id) .loopIncr
  | .loopIncr => .incr .loopHead
  | _ => .halt

/-- The `switch (strategy_)` of `run_simulation` (lines 296-317): the routine
every agent thread of the run executes. -/
def program : Strategy → Nat → Nat → PC → Instr
  | .MUTEX => philosopher_mutex
  | .SEMAPHORE => philosopher_semaphore
  | .TRY_LOCK => philosopher_try_lock
  | .ARBITRATOR => philosopher_arbitrator
  | .RESOURCE_HIERARCHY => philosopher_resource_hierarchy

/-- Trace lines are printed only `if (verbose && i < 10)`. -/
def trace_line (verbose : Bool) (id i : Nat) (op : Op) (h : List (Nat × Op)) :
    List (Nat × Op) :=
  if verbose && decide (i < 10) then (id, op) :: h else h

/-- Agent `id`, at local state `ag`, moves to program point `next`. -/
def State.goto (s : State) (id : Nat) (ag : Agent) (next : PC) : List Agent :=
  s.agents.set id ⟨next, ag.i⟩

/-- Execution of one instruction by agent `id` whose local state is `ag`.
`none`: the instruction cannot complete in this state (the thread is blocked,
has returned, or indexes outside the fork vector). -/
def exec (iterations : Int) (verbose : Bool) (s : State) (id : Nat) (ag : Agent) :
    Instr → Option State
  | .loop body exit =>
      if (ag.i : Int) < iterations then
        some { s with agents := s.goto id ag body,
                      history := trace_line verbose id ag.i (.print_thinking (ag.i + 1)) s.history }
      else
        some { s with agents := s.goto id ag exit }
  | .lock f next =>
      match s.forks[f]? with
      | some false =>
          some { s with agents := s.goto id ag next, forks := s.forks.set f true,
                        history := (id, .lock f) :: s.history }
      | _ => none
  | .try_lock f ok fail =>
      match s.forks[f]? with
      | some false =>
          some { s with agents := s.goto id ag ok, forks := s.forks.set f true,
                        history := (id, .try_lock f true) :: s.history }
      | some true =>
          some { s with agents := s.goto id ag fail,
                        history := (id, .try_lock f false) :: s.history }
      | none => none
  | .unlock f next =>
      match s.forks[f]? with
      | some _ =>
          some { s with agents := s.goto id ag next, forks := s.forks.set f false,
                        history := (id, .unlock f) :: s.history }
      | none => none
  | .acquire f next =>
      match s.forks[f]? with
      | some b =>
          match (BinarySemaphore.mk b).acquire with
          | some sem =>
              some { s with agents := s.goto id ag next,
                            forks := s.forks.set f sem.available,
                            history := (id, .acquire f) :: s.history }
          | none => none
      | none => none
  | .release f next =>
      match s.forks[f]? with
      | some b =>
          some { s with agents := s.goto id ag next,
                        forks := s.forks.set f (BinarySemaphore.mk b).release.available,
                        history := (id, .release f) :: s.history }
      | none => none
  | .table_lock next =>
      if s.table_mutex then none
      else some { s with agents := s.goto id ag next, table_mutex := true,
                         history := (id, .table_lock) :: s.history }
  | .table_unlock next =>
      some { s with agents := s.goto id ag next, table_mutex := false,
                    history := (id, .table_unlock) :: s.history }
  | .check l r ok fail =>
      match s.forks[l]?, s.forks[r]? with
      | some bl, some br =>
          if bl && br then
            some { s with agents := s.goto id ag ok,
                          history := (id, .check l r true) :: s.history }
          else
            some { s with agents := s.goto id ag fail,
                          history := (id, .check l r false) :: s.history }
      | _, _ => none
  | .set_available f b next =>
      match s.forks[f]? with
      | some _ =>
          some { s with agents := s.goto id ag next, forks := s.forks.set f b,
                        history := (id, .set_available f b) :: s.history }
      | none => none
  | .eat next =>
      some { s with agents := s.goto id ag next,
                    history := trace_line verbose id ag.i (.print_eating (ag.i + 1)) s.history }
  | .sleep next => some { s with agents := s.goto id ag next }
  | .incr next => some { s with agents := s.agents.set id ⟨next, ag.i + 1⟩ }
  | .halt => none

/-- One step of agent thread `id`. -/
def step (strat : Strategy) (N : Nat) (iterations : Int) (verbose : Bool)
    (s : State) (id : Nat) : Option State :=
  match s.agents[id]? with
  | some ag => exec iterations verbose s id ag (program strat N id ag.pc)
  | none => none

/-- Value with which the elements of the static fork vector are constructed:
`std::mutex` unlocked, `BinarySemaphore()` available, `forks_available` true. -/
def initial_flag : Strategy → Bool
  | .SEMAPHORE => BinarySemaphore.new.available
  | .ARBITRATOR => true
  | _ => false

/-- Semantics of the function-local
`static std::vector<...> forks(num_philosophers_)`: the vector is constructed
by the first call in the process only; later calls find the existing one. -/
def static_forks (existing : Option (List Bool)) (strat : Strategy) (N : Nat) : List Bool :=
  match existing with
  | some v => v
  | none => List.replicate N (initial_flag strat)

/-- State at the start of `run_simulation` (lines 294-318): `N` threads at the
top of their routine, with the static vector of the routine as found. -/
def start (existing : Option (List Bool)) (strat : Strategy) (N : Nat) : State :=
  { agents := List.replicate N ⟨.loopHead, 0⟩
    forks := static_forks existing strat N
    table_mutex := false
    history := [] }

/-- Start of the first run of a process. -/
def init (strat : Strategy) (N : Nat) : State := start none strat N

/-- States reachable by interleaving steps of the agents `0 .. N-1`. -/
inductive Reachable (strat : Strategy) (N : Nat) (iterations : Int) (verbose : Bool) :
    State → Prop
  | init : Reachable strat N iterations verbose (init strat N)
  | step {s s' : State} {id : Nat} :
      Reachable strat N iterations verbose s → id < N →
      step strat N iterations verbose s id = some s' →
      Reachable strat N iterations verbose s'

/-- Execution of a schedule (list of agent ids, first to run first). -/
def run (strat : Strategy) (N : Nat) (iterations : Int) (verbose : Bool) :
    List Nat → State → Option State
  | [], s => some s
  | id :: rest, s =>
      if id < N then
        match step strat N iterations verbose s id with
        | some s' => run strat N iterations verbose rest s'
        | none => none
      else none

/-- Fork taken by an operation, if any. -/
def Op.takes : Op → Option Nat
  | .lock f => some f
  | .try_lock f true => some f
  | .acquire f => some f
  | .set_available f false => some f
  | _ => none

/-- Fork given back by an operation, if any. -/
def Op.gives : Op → Option Nat
  | .unlock f => some f
  | .release f => some f
  | .set_available f true => some f
  | _ => none

/-- In a history (newest first), agent `a` holds fork `f` when its most recent
take or give of `f` is a take. -/
def holds_in : List (Nat × Op) → Nat → Nat → Bool
  | [], _, _ => false
  | (b, op) :: rest, a, f =>
      if b = a ∧ op.takes = some f then true
      else if b = a ∧ op.gives = some f then false
      else holds_in rest a f

/-- Agent `a` holds fork `f` in state `s`. -/
def State.holds (s : State) (a f : Nat) : Prop := holds_in s.history a f = true

instance (s : State) (a f : Nat) : Decidable (s.holds a f) := by
  unfold State.holds
  infer_instance

/-- Agent `a` exists and its routine has not returned. -/
def State.unfinished (s : State) (a : Nat) : Prop :=
  ∃ ag, s.agents[a]? = some ag ∧ ag.pc ≠ .finished

/-- Agent `a` can take a step. -/
def can_step (strat : Strategy) (N : Nat) (iterations : Int) (verbose : Bool)
    (s : State) (a : Nat) : Prop :=
  (step strat N iterations verbose s a).isSome = true

/-- Some agent has not finished and no agent can take a step. -/
def Deadlock (strat : Strategy) (N : Nat) (iterations : Int) (verbose : Bool)
    (s : State) : Prop :=
  (∃ a, a < N ∧ s.unfinished a) ∧ ∀ a, a < N → ¬ can_step strat N iterations verbose s a

/-- Fork on which agent `a` blocks: its next instruction is a blocking
`lock` / `acquire` of a fork that another agent holds. -/
def blocked_on (strat : Strategy) (N : Nat) (s : State) (a f : Nat) : Prop :=
  ∃ ag next, s.agents[a]? = some ag ∧
    (program strat N a ag.pc = .lock f next ∨ program strat N a ag.pc = .acquire f next) ∧
    ∃ b, b < N ∧ b ≠ a ∧ s.holds b f

/-- Some agent has not finished and every unfinished agent is blocked waiting
for a fork held by another agent. -/
def WaitDeadlock (strat : Strategy) (N : Nat) (s : State) : Prop :=
  (∃ a, a < N ∧ s.unfinished a) ∧
    ∀ a, a < N → s.unfinished a → ∃ f, blocked_on strat N s a f

/-- Forks an agent of the given routine has taken and not yet given back when
it stands at a program point. -/
def held : Strategy → Nat → Nat → PC → List Nat
  | .MUTEX, N, id, .lockSecond => if id % 2 = 0 then [left_fork id] else [right_fork N id]
  | .MUTEX, N, id, .eat => [left_fork id, right_fork N id]
  | .MUTEX, N, id, .unlockFirst => [left_fork id, right_fork N id]
  | .MUTEX, N, id, .unlockSecond => [right_fork N id]
  | .SEMAPHORE, _, id, .lockSecond => [left_fork id]
  | .SEMAPHORE, N, id, .eat => [left_fork id, right_fork N id]
  | .SEMAPHORE, N, id, .unlockFirst => [left_fork id, right_fork N id]
  | .SEMAPHORE, N, id, .unlockSecond => [right_fork N id]
  | .TRY_LOCK, _, id, .lockSecond => [left_fork id]
  | .TRY_LOCK, _, id, .retryUnlock => [left_fork id]
  | .TRY_LOCK, N, id, .eat => [left_fork id, right_fork N id]
  | .TRY_LOCK, N, id, .unlockFirst => [left_fork id, right_fork N id]
  | .TRY_LOCK, N, id, .unlockSecond => [right_fork N id]
  | .ARBITRATOR, _, id, .takeRight => [left_fork id]
  | .ARBITRATOR, N, id, .guardExit => [left_fork id, right_fork N id]
  | .ARBITRATOR, N, id, .eat => [left_fork id, right_fork N id]
  | .ARBITRATOR, N, id, .returnLock => [left_fork id, right_fork N id]
  | .ARBITRATOR, N, id, .returnLeft => [left_fork id, right_fork N id]
  | .ARBITRATOR, N, id, .returnRight => [right_fork N id]
  | .RESOURCE_HIERARCHY, N, id, .lockSecond => [first_fork N id]
  | .RESOURCE_HIERARCHY, N, id, .eat => [first_fork N id, second_fork N id]
  | .RESOURCE_HIERARCHY, N, id, .unlockFirst => [first_fork N id, second_fork N id]
  | .RESOURCE_HIERARCHY, N, id, .unlockSecond => [first_fork N id]
  | _, _, _, _ => []

/-- Agent `a` stands at a program point where fork `f` is in its hands. -/
def HeldAt (strat : Strategy) (N : Nat) (s : State) (a f : Nat) : Prop :=
  ∃ ag, s.agents[a]? = some ag ∧ f ∈ held strat N a ag.pc

/-- Effect of one agent step on the shared state, in terms of `held`. -/
inductive Effect (strat : Strategy) (N : Nat) (s : State) (id : Nat) (pc : PC)
    (s' : State) : Prop
  | keep (pc' : PC) (i' : Nat) :
      s'.agents = s.agents.set id ⟨pc', i'⟩ → s'.forks = s.forks →
      (∀ a f, holds_in s'.history a f = holds_in s.history a f) →
      (∀ g, g ∈ held strat N id pc' ↔ g ∈ held strat N id pc) →
      Effect strat N s id pc s'
  | take (pc' : PC) (i' : Nat) (f : Nat) :
      s'.agents = s.agents.set id ⟨pc', i'⟩ → f < N →
      s'.forks = s.forks.set f (!initial_flag strat) →
      (∃ op, s'.history = (id, op) :: s.history ∧ op.takes = some f) →
      (strat ≠ .ARBITRATOR → s.forks[f]? = some (initial_flag strat)) →
      (strat = .ARBITRATOR →
        (pc = .takeLeft ∧ f = left_fork id) ∨ (pc = .takeRight ∧ f = right_fork N id)) →
      (∀ g, g ∈ held strat N id pc' ↔ g = f ∨ g ∈ held strat N id pc) →
      Effect strat N s id pc s'
  | give (pc' : PC) (i' : Nat) (f : Nat) :
      s'.agents = s.agents.set id ⟨pc', i'⟩ → f < N →
      s'.forks = s.forks.set f (initial_flag strat) →
      (∃ op, s'.history = (id, op) :: s.history ∧ op.gives = some f ∧ op.takes = none) →
      f ∈ held strat N id pc →
      (∀ g, g ∈ held strat N id pc' ↔ g ≠ f ∧ g ∈ held strat N id pc) →
      Effect strat N s id pc s'

/-- Core invariant shared by the five routines. -/
structure CoreInv (strat : Strategy) (N : Nat) (s : State) : Prop where
  len_agents : s.agents.length = N
  len_forks : s.forks.length = N
  hist : ∀ a f, holds_in s.history a f = true ↔ HeldAt strat N s a f
  excl : ∀ a b f, HeldAt strat N s a f → HeldAt strat N s b f → a = b
  flag : ∀ f, f < N → (s.forks[f]? = some (!initial_flag strat) ↔ ∃ a, HeldAt strat N s a f)

/-- Program points of `philosopher_arbitrator` inside a section guarded by
`table_mutex`. -/
def in_guard : PC → Bool
  | .guardCheck => true
  | .takeLeft => true
  | .takeRight => true
  | .guardExit => true
  | .guardFail => true
  | .returnLeft => true
  | .returnRight => true
  | .returnUnlock => true
  | _ => false

/-- Agent `a` is inside a section guarded by `table_mutex`. -/
def InGuard (s : State) (a : Nat) : Prop :=
  ∃ ag, s.agents[a]? = some ag ∧ in_guard ag.pc = true

/-- Invariant of the arbitrator routine: the guard is held by exactly the
agent inside a guarded section, and an agent between its test and its writes
still finds the entries it tested available. -/
structure ArbInv (N : Nat) (s : State) : Prop where
  core : CoreInv .ARBITRATOR N s
  guard_unique : ∀ a b, InGuard s a → InGuard s b → a = b
  guard_mutex : s.table_mutex = true ↔ ∃ a, InGuard s a
  need_left : ∀ a ag, s.agents[a]? = some ag → ag.pc = .takeLeft →
    s.forks[left_fork a]? = some true ∧ s.forks[right_fork N a]? = some true
  need_right : ∀ a ag, s.agents[a]? = some ag → ag.pc = .takeRight →
    s.forks[right_fork N a]? = some true

/-- Fork indices an instruction uses. -/
def Instr.forks : Instr → List Nat
  | .lock f _ => [f]
  | .try_lock f _ _ => [f]
  | .unlock f _ => [f]
  | .acquire f _ => [f]
  | .release f _ => [f]
  | .check l r _ _ => [l, r]
  | .set_available f _ _ => [f]
  | _ => []

/-- Program points an instruction can continue at. -/
def Instr.targets : Instr → List PC
  | .loop b e => [b, e]
  | .lock _ n => [n]
  | .try_lock _ ok fail => [ok, fail]
  | .unlock _ n => [n]
  | .acquire _ n => [n]
  | .release _ n => [n]
  | .table_lock n => [n]
  | .table_unlock n => [n]
  | .check _ _ ok fail => [ok, fail]
  | .set_available _ _ n => [n]
  | .eat n => [n]
  | .sleep n => [n]
  | .incr n => [n]
  | .halt => []

/-- Program point that belongs to the routine of the strategy. -/
def valid_pc (strat : Strategy) (N id : Nat) (pc : PC) : Prop :=
  program strat N id pc ≠ .halt ∨ pc = .finished

/-- Every agent stands at a program point of its routine. -/
def ValidPCs (strat : Strategy) (N : Nat) (s : State) : Prop :=
  ∀ a ag, s.agents[a]? = some ag → valid_pc strat N a ag.pc

/-- Fork an agent takes first in a cycle. -/
def acq_first : Strategy → Nat → Nat → Nat
  | .MUTEX, N, id => if id % 2 = 0 then left_fork id else right_fork N id
  | .RESOURCE_HIERARCHY, N, id => first_fork N id
  | _, _, id => left_fork id

/-- Fork an agent takes second in a cycle. -/
def acq_second : Strategy → Nat → Nat → Nat
  | .MUTEX, N, id => if id % 2 = 0 then right_fork N id else left_fork id
  | .RESOURCE_HIERARCHY, N, id => second_fork N id
  | _, N, id => right_fork N id

/-- Rank of a fork in the order in which the blocking routines lock forks:
the index itself for ResourceHierarchy; for Mutex the last fork of an odd ring
first, then the even forks, then the odd forks. -/
def fork_rank : Strategy → Nat → Nat → Nat
  | .MUTEX, N, f => if N % 2 = 1 ∧ f = N - 1 then 0 else if f % 2 = 0 then 1 else 2
  | _, _, f => f

/-- Agents `0 .. k-1` hold their left semaphore and stand before the acquire of
the right one; the others have not started. -/
def LockStep (N k : Nat) (s : State) : Prop :=
  s.agents.length = N ∧ s.forks.length = N ∧
    (∀ a, a < N → s.agents[a]? = some (if a < k then ⟨.lockSecond, 0⟩ else ⟨.loopHead, 0⟩)) ∧
    (∀ f, f < N → s.forks[f]? = some (decide (k ≤ f)))

/-- Fork most recently taken by agent `a` in a history (newest first). -/
def last_taken : List (Nat × Op) → Nat → Option Nat
  | [], _ => none
  | (b, op) :: rest, a =>
      match op.takes with
      | some f => if b = a then some f else last_taken rest a
      | none => last_taken rest a

/-- Fork taken and program point reached when an instruction takes a fork. -/
def Instr.take_target : Instr → Option (Nat × PC)
  | .lock f n => some (f, n)
  | .try_lock f ok _ => some (f, ok)
  | .acquire f n => some (f, n)
  | .set_available f false n => some (f, n)
  | _ => none

/-- Program points an instruction can continue at without taking a fork. -/
def Instr.keep_targets : Instr → List PC
  | .loop b e => [b, e]
  | .try_lock _ _ fail => [fail]
  | .unlock _ n => [n]
  | .release _ n => [n]
  | .table_lock n => [n]
  | .table_unlock n => [n]
  | .check _ _ ok fail => [ok, fail]
  | .set_available _ true n => [n]
  | .eat n => [n]
  | .sleep n => [n]
  | .incr n => [n]
  | _ => []

/-- While an agent eats or is about to release, the fork it took last is the
second fork of its acquisition order. -/
def LastInv (strat : Strategy) (N : Nat) (s : State) : Prop :=
  ∀ a ag, s.agents[a]? = some ag → (ag.pc = .eat ∨ ag.pc = .unlockFirst) →
    last_taken s.history a = some (acq_second strat N a)

/-- Fork given back by the first release statement of a cycle. -/
def release_first : Strategy → Nat → Nat → Nat
  | .RESOURCE_HIERARCHY, N, id => second_fork N id
  | _, _, id => left_fork id

/-- State of a two-philosopher Mutex run after the schedule `[0, 0, 1]`:
agent 0 has locked fork 0 and requests fork 1, agent 1 requests fork 0. -/
def mutex_contended : State :=
  { agents := [⟨.lockSecond, 0⟩, ⟨.lockFirst, 0⟩]
    forks := [true, false]
    table_mutex := false
    history := [(0, .lock 0)] }

/-- State of a two-philosopher Semaphore run after the schedule `[0, 0, 1, 1]`:
each agent has acquired its left semaphore and waits for its right one. -/
def semaphore_deadlocked : State :=
  { agents := [⟨.lockSecond, 0⟩, ⟨.lockSecond, 0⟩]
    forks := [false, false]
    table_mutex := false
    history := [(1, .acquire 1), (0, .acquire 0)] }

/-- State of a two-philosopher ResourceHierarchy run after the schedule
`[1, 1]`: the ring-closing agent 1 has locked fork 0 and requests fork 1. -/
def hierarchy_closing : State :=
  { agents := [⟨.loopHead, 0⟩, ⟨.lockSecond, 0⟩]
    forks := [true, false]
    table_mutex := false
    history := [(1, .lock 0)] }

/-- State of a two-philosopher Arbitrator run after the schedule
`[0, 0, 1, 0]`: agent 0 is inside the guarded section, agent 1 waits for the
guard. -/
def arbitrator_guarded : State :=
  { agents := [⟨.takeLeft, 0⟩, ⟨.guardLock, 0⟩]
    forks := [true, true]
    table_mutex := true
    history := [(0, .check 0 1 true), (0, .table_lock)] }

/-- State of a two-philosopher Mutex run after the schedule `[0, 0, 0, 0]`:
agent 0 has locked fork 0, then fork 1, has eaten and is about to release. -/
def mutex_releasing : State :=
  { agents := [⟨.unlockFirst, 0⟩, ⟨.loopHead, 0⟩]
    forks := [true, true]
    table_mutex := false
    history := [(0, .lock 1), (0, .lock 0)] }

/-- State of a two-philosopher ResourceHierarchy run after the schedule
`[1, 1, 1, 1]`: the ring-closing agent 1 has locked fork 0, then fork 1, has
eaten and is about to release. -/
def hierarchy_releasing : State :=
  { agents := [⟨.loopHead, 0⟩, ⟨.unlockFirst, 0⟩]
    forks := [true, true]
    table_mutex := false
    history := [(1, .lock 1), (1, .lock 0)] }

/-- Agent `a` gives its forks back in the reverse order of acquisition: when
it stops holding one of two forks it holds, that fork is the one it took last. -/
def ReleasesReverse (strat : Strategy) (N : Nat) (iterations : Int) (verbose : Bool)
    (a : Nat) : Prop :=
  ∀ s s' f g, Reachable strat N iterations verbose s →
    step strat N iterations verbose s a = some s' →
    f ≠ g → s.holds a f → s.holds a g → ¬ s'.holds a f →
    last_taken s.history a = some f

/-- Agent `a` gives its forks back in the order of acquisition: when it stops
holding one of two forks it holds, the fork it took last is the other one. -/
def ReleasesInOrder (strat : Strategy) (N : Nat) (iterations : Int) (verbose : Bool)
    (a : Nat) : Prop :=
  ∀ s s' f g, Reachable strat N iterations verbose s →
    step strat N iterations verbose s a = some s' →
    f ≠ g → s.holds a f → s.holds a g → ¬ s'.holds a f →
    last_taken s.history a = some g

/-- Successor of `mutex_releasing` by a step of agent 0: fork 0 is unlocked
while fork 1 is still locked. -/
def mutex_released_one : State :=
  { agents := [⟨.unlockSecond, 0⟩, ⟨.loopHead, 0⟩]
    forks := [false, true]
    table_mutex := false
    history := [(0, .unlock 0), (0, .lock 1), (0, .lock 0)] }

/-- Every agent thread of the run has returned from its routine (is joinable). -/
def AllFinished (N : Nat) (s : State) : Prop :=
  ∀ a, a < N → ∃ ag, s.agents[a]? = some ag ∧ ag.pc = .finished

/-- Local state of an agent after an instruction that completes on its
successful branch. -/
def Instr.forward (iterations : Int) (ag : Agent) : Instr → Agent
  | .loop b e => if (ag.i : Int) < iterations then ⟨b, ag.i⟩ else ⟨e, ag.i⟩
  | .lock _ n => ⟨n, ag.i⟩
  | .try_lock _ ok _ => ⟨ok, ag.i⟩
  | .unlock _ n => ⟨n, ag.i⟩
  | .acquire _ n => ⟨n, ag.i⟩
  | .release _ n => ⟨n, ag.i⟩
  | .table_lock n => ⟨n, ag.i⟩
  | .table_unlock n => ⟨n, ag.i⟩
  | .check _ _ ok _ => ⟨ok, ag.i⟩
  | .set_available _ _ n => ⟨n, ag.i⟩
  | .eat n => ⟨n, ag.i⟩
  | .sleep n => ⟨n, ag.i⟩
  | .incr n => ⟨n, ag.i + 1⟩
  | .halt => ag

/-- Position of a program point inside one dining cycle. -/
def cycle_pos : PC → Nat
  | .loopHead => 0
  | .retryUnlock => 1
  | .guardFail => 1
  | .retrySleep => 2
  | .lockFirst => 3
  | .guardLock => 3
  | .lockSecond => 4
  | .guardCheck => 4
  | .takeLeft => 5
  | .takeRight => 6
  | .guardExit => 7
  | .eat => 8
  | .unlockFirst => 9
  | .returnLock => 9
  | .unlockSecond => 10
  | .returnLeft => 10
  | .returnRight => 11
  | .returnUnlock => 12
  | .loopIncr => 13
  | .finished => 20

/-- Bound on the number of successful steps an agent still has to take. -/
def remaining (iterations : Int) (ag : Agent) : Nat :=
  match ag.pc with
  | .finished => 0
  | .loopHead => if (ag.i : Int) < iterations then 20 * (iterations - ag.i).toNat + 20 else 1
  | pc => 20 * (iterations - ag.i).toNat + (20 - cycle_pos pc)

/-- Sum of `remaining` over the agents of a state. -/
def total_remaining (iterations : Int) (s : State) : Nat :=
  (s.agents.map (remaining iterations)).sum

/-- The failing branch of a `try_lock` or of the arbitrator test was taken. -/
def FailedStep (s : State) (ag : Agent) (ins : Instr) (ag' : Agent) : Prop :=
  (∃ f ok fail, ins = .try_lock f ok fail ∧ s.forks[f]? = some true ∧ ag' = ⟨fail, ag.i⟩) ∨
  (∃ l r ok fail bl br, ins = .check l r ok fail ∧ s.forks[l]? = some bl ∧
    s.forks[r]? = some br ∧ (bl && br) = false ∧ ag' = ⟨fail, ag.i⟩)

/-- Program point at which an agent has no fork in hand and is outside the
guarded sections. -/
def neutral (strat : Strategy) (N a : Nat) (pc : PC) : Prop :=
  held strat N a pc = [] ∧ in_guard pc = false

/-- Bound on the number of steps an agent needs to reach a neutral program
point (TryLock and Arbitrator). -/
def dist_neutral : PC → Nat
  | .guardCheck => 11
  | .takeLeft => 10
  | .takeRight => 9
  | .guardExit => 8
  | .lockSecond => 8
  | .eat => 7
  | .returnLock => 6
  | .unlockFirst => 6
  | .returnLeft => 5
  | .unlockSecond => 5
  | .returnRight => 4
  | .returnUnlock => 3
  | .retryUnlock => 1
  | .guardFail => 1
  | _ => 0

/-- No agent is inside a guarded section. -/
def NoGuard (s : State) : Prop :=
  ∀ (b : Nat) (ag : Agent), s.agents[b]? = some ag → in_guard ag.pc = false

/-- Every agent stands at a neutral program point. -/
def AllNeutral (strat : Strategy) (N : Nat) (s : State) : Prop :=
  ∀ (b : Nat) (ag : Agent), s.agents[b]? = some ag → neutral strat N b ag.pc

/-- Every agent other than `a` satisfies `Q`. -/
def OthersSatisfy (Q : Nat → Agent → Prop) (a : Nat) (s : State) : Prop :=
  ∀ b ag, b ≠ a → s.agents[b]? = some ag → Q b ag

/-- One call `dp.run_simulation(iterations, verbose)` on an object constructed
as `DiningPhilosophers dp(num_philosophers, strategy)`. -/
structure SimulationCall where
  num_philosophers : Int
  strategy : Strategy
  iterations : Int
  verbose : Bool
  deriving DecidableEq, Repr

/-- One agent thread created by `philosophers.emplace_back(routine, this, i,
iterations, verbose)`. -/
structure Thread where
  routine : Strategy
  id : Int
  iterations : Int
  verbose : Bool
  deriving DecidableEq, Repr

/-- Spawn loop of `run_simulation` (lines 295-318):
`for (int i = 0; i < num_philosophers_; ++i)` with the `switch (strategy_)`
choosing the routine; `i` is the current value of the loop variable. -/
def spawn_threads (num_philosophers_ : Int) (strategy_ : Strategy) (iterations : Int)
    (verbose : Bool) (i : Nat) : List Thread :=
  if (i : Int) < num_philosophers_ then
    ⟨strategy_, i, iterations, verbose⟩ ::
      spawn_threads num_philosophers_ strategy_ iterations verbose (i + 1)
  else []
termination_by (num_philosophers_ - i).toNat
decreasing_by omega

/-- Threads started by one call of `run_simulation`. -/
def run_simulation_threads (c : SimulationCall) : List Thread :=
  spawn_threads c.num_philosophers c.strategy c.iterations c.verbose 0

/-- Coordinator part of `run_simulation` after the spawn loop (lines 320-325):
number of threads already joined and whether the completion line was printed. -/
structure Coordinator where
  joined : Nat
  reported : Bool
  deriving DecidableEq, Repr

/-- One step of the coordinator: `p.join()` on the next thread, which completes
only when that thread has returned, or, after the last join, the line
"Симуляция завершена успешно!". -/
def coordinator_step (N : Nat) (s : State) (c : Coordinator) : Option Coordinator :=
  if c.reported then none
  else if c.joined < N then
    match s.agents[c.joined]? with
    | some ag => if ag.pc = .finished then some { c with joined := c.joined + 1 } else none
    | none => none
  else some { c with reported := true }

/-- States of a whole simulation run: agent threads and coordinator interleaved. -/
inductive SimReachable (strat : Strategy) (N : Nat) (iterations : Int) (verbose : Bool) :
    State → Coordinator → Prop
  | init : SimReachable strat N iterations verbose (init strat N) ⟨0, false⟩
  | agent {s s' : State} {c : Coordinator} {id : Nat} :
      SimReachable strat N iterations verbose s c → id < N →
      step strat N iterations verbose s id = some s' →
      SimReachable strat N iterations verbose s' c
  | coordinator {s : State} {c c' : Coordinator} :
      SimReachable strat N iterations verbose s c →
      coordinator_step N s c = some c' →
      SimReachable strat N iterations verbose s c'

/-- Vector `strategies` of `run_benchmark` (lines 334-340). -/
def strategies : List Strategy :=
  [.MUTEX, .SEMAPHORE, .TRY_LOCK, .ARBITRATOR, .RESOURCE_HIERARCHY]

/-- Vector `strategy_names` of `run_benchmark` (lines 342-348). -/
def strategy_names : List String :=
  ["Мьютексы", "Семафоры", "Попытка захвата", "Арбитр", "Иерархия ресурсов"]

/-- Vector `philosopher_counts` of `run_benchmark` (line 350). -/
def philosopher_counts : List Int := [5, 10, 20]

/-- Label of a benchmark cell:
`std::to_string(count) + "_философов_" + strategy_names[s]`. -/
def test_name (count : Int) (name : String) : String :=
  toString count ++ "_философов_" ++ name

/-- Cells of the sweep of `run_benchmark` (lines 352-370), in execution order:
counts above `max_philosophers` are skipped by `continue`, the inner loop runs
over the indices of `strategies`. -/
def benchmark_cells (max_philosophers : Int) : List (Int × Strategy × String) :=
  (philosopher_counts.filter (fun count => ¬ (count > max_philosophers))).flatMap
    (fun count => (strategies.zip strategy_names).map
      (fun sn => (count, sn.1, test_name count sn.2)))

/-- Simulations run by `run_benchmark(max_philosophers, iterations)`:
`DiningPhilosophers dp(count, strategies[s]); dp.run_simulation(iterations, false)`. -/
def run_benchmark_calls (max_philosophers iterations : Int) : List SimulationCall :=
  (benchmark_cells max_philosophers).map (fun c => ⟨c.1, c.2.1, iterations, false⟩)

/-- The `switch (strategy_choice)` of `run_philosophers` (lines 412-419). -/
def select_strategy (strategy_choice : Int) : Strategy :=
  if strategy_choice = 1 then .MUTEX
  else if strategy_choice = 2 then .SEMAPHORE
  else if strategy_choice = 3 then .TRY_LOCK
  else if strategy_choice = 4 then .ARBITRATOR
  else if strategy_choice = 5 then .RESOURCE_HIERARCHY
  else .MUTEX

/-- Lines 406-407 of `run_philosophers`. -/
def clamp_philosophers (num_philosophers : Int) : Int :=
  let n := if num_philosophers < 2 then 2 else num_philosophers
  if n > 20 then 20 else n

/-- Lines 408-409 of `run_philosophers`. -/
def clamp_iterations (iterations : Int) : Int :=
  let n := if iterations < 1 then 1 else iterations
  if n > 100 then 100 else n

/-- Lines 432-433 and 452-453: the clamp of the benchmark iteration count. -/
def clamp_benchmark_iterations (iterations : Int) : Int :=
  let n := if iterations < 10 then 10 else iterations
  if n > 100 then 100 else n

/-- Case 1 of `run_philosophers` (lines 388-426): the simulation that is run
for the three integers read from the input. -/
def run_philosophers_simulation (num_philosophers iterations strategy_choice : Int) :
    SimulationCall :=
  ⟨clamp_philosophers num_philosophers, select_strategy strategy_choice,
    clamp_iterations iterations, true⟩

/-- Function `run_philosophers_benchmark` (lines 445-459): the simulations run
for the iteration count read from the input. -/
def run_philosophers_benchmark (iterations : Int) : List SimulationCall :=
  run_benchmark_calls 20 (clamp_benchmark_iterations iterations)

/-- Function `run_philosophers` (lines 376-443): the simulations run, for the
mode `choice` and the integers read from the input (`benchmark_iterations` is
the count read inside `run_philosophers_benchmark`). -/
def run_philosophers (choice num_philosophers iterations strategy_choice
    benchmark_iterations : Int) : List SimulationCall :=
  if choice = 1 then [run_philosophers_simulation num_philosophers iterations strategy_choice]
  else if choice = 2 then run_philosophers_benchmark benchmark_iterations
  else [⟨5, .MUTEX, 10, true⟩]

/-- Operations of agent `a` in a history, newest first. -/
def agent_ops (h : List (Nat × Op)) (a : Nat) : List Op :=
  (h.filter (fun e => decide (e.1 = a))).map Prod.snd

/-- Trace line of iteration `i` as a list of logged operations: printed only
`if (verbose && i < 10)`. -/
def trace_ops (verbose : Bool) (i : Nat) (op : Op) : List Op :=
  if verbose && decide (i < 10) then [op] else []

/-- Local view of one instruction: the local states an agent can reach by it,
each with the operations it logs. -/
def Instr.outcomes (iterations : Int) (verbose : Bool) (ag : Agent) :
    Instr → List (Agent × List Op)
  | .loop b e =>
      if (ag.i : Int) < iterations then
        [(⟨b, ag.i⟩, trace_ops verbose ag.i (.print_thinking (ag.i + 1)))]
      else [(⟨e, ag.i⟩, [])]
  | .lock f n => [(⟨n, ag.i⟩, [.lock f])]
  | .try_lock f ok fail =>
      [(⟨ok, ag.i⟩, [.try_lock f true]), (⟨fail, ag.i⟩, [.try_lock f false])]
  | .unlock f n => [(⟨n, ag.i⟩, [.unlock f])]
  | .acquire f n => [(⟨n, ag.i⟩, [.acquire f])]
  | .release f n => [(⟨n, ag.i⟩, [.release f])]
  | .table_lock n => [(⟨n, ag.i⟩, [.table_lock])]
  | .table_unlock n => [(⟨n, ag.i⟩, [.table_unlock])]
  | .check l r ok fail =>
      [(⟨ok, ag.i⟩, [.check l r true]), (⟨fail, ag.i⟩, [.check l r false])]
  | .set_available f b n => [(⟨n, ag.i⟩, [.set_available f b])]
  | .eat n => [(⟨n, ag.i⟩, trace_ops verbose ag.i (.print_eating (ag.i + 1)))]
  | .sleep n => [(⟨n, ag.i⟩, [])]
  | .incr n => [(⟨n, ag.i + 1⟩, [])]
  | .halt => []

/-- Most recent operations of a TryLock agent at the program points of an
acquisition attempt. -/
def TryLockOps (N a : Nat) (ag : Agent) (ops : List Op) : Prop :=
  (ag.pc = .lockSecond → ∃ r, ops = .try_lock (left_fork a) true :: r) ∧
  (ag.pc = .retryUnlock →
    ∃ r, ops = .try_lock (right_fork N a) false :: .try_lock (left_fork a) true :: r) ∧
  (ag.pc = .retrySleep →
    (∃ r, ops = .try_lock (left_fork a) false :: r) ∨
    ∃ r, ops = .unlock (left_fork a) :: .try_lock (right_fork N a) false ::
      .try_lock (left_fork a) true :: r) ∧
  (ag.pc = .eat →
    ∃ r, ops = .try_lock (right_fork N a) true :: .try_lock (left_fork a) true :: r)

/-- State of a two-philosopher TryLock run after the schedule `[0, 0, 1, 1]`:
each agent has locked its left fork and is about to try its right one. -/
def try_lock_contended : State :=
  { agents := [⟨.lockSecond, 0⟩, ⟨.lockSecond, 0⟩]
    forks := [true, true]
    table_mutex := false
    history := [(1, .try_lock 1 true), (0, .try_lock 0 true)] }

/-- Program point of an Arbitrator agent after `j` of its own steps of one pass
through the guarded section, counted from the test. -/
def pass_pc (granted : Bool) : Nat → PC
  | 0 => .guardCheck
  | 1 => if granted then .takeLeft else .guardFail
  | 2 => if granted then .takeRight else .retrySleep
  | 3 => if granted then .guardExit else .retrySleep
  | _ => if granted then .eat else .retrySleep

/-- Availability table after `j` steps of a pass entered with the table `t`. -/
def pass_table (N a : Nat) (granted : Bool) (t : List Bool) : Nat → List Bool
  | 0 => t
  | 1 => t
  | 2 => if granted then t.set (left_fork a) false else t
  | _ => if granted then (t.set (left_fork a) false).set (right_fork N a) false else t

/-- Number of steps of one pass: test, two writes and guard exit when granted;
test and guard exit when not. -/
def pass_length (granted : Bool) : Nat := if granted then 4 else 2

/-- Agent `a`, with loop variable `i`, has taken `j` steps of a pass entered
with the table `t`. -/
def InPass (N a i : Nat) (granted : Bool) (t : List Bool) (j : Nat) (s : State) : Prop :=
  s.agents[a]? = some ⟨pass_pc granted j, i⟩ ∧ s.forks = pass_table N a granted t j

/-- Trace lines among the logged operations. -/
def Op.is_trace : Op → Bool
  | .print_thinking _ => true
  | .print_eating _ => true
  | _ => false

/-- State of a two-philosopher Arbitrator run after the schedule `[0, 0]`:
agent 0 has locked the table guard and is about to test its two entries. -/
def arbitrator_entered : State :=
  { agents := [⟨.guardCheck, 0⟩, ⟨.loopHead, 0⟩]
    forks := [true, true]
    table_mutex := true
    history := [(0, .table_lock)] }

/-- Trace lines of the iterations `1 .. n`, newest first. -/
def trace_lines : Nat → List Op
  | 0 => []
  | n + 1 => .print_eating (n + 1) :: .print_thinking (n + 1) :: trace_lines n

/-- Plain ordering by index: of the two adjacent forks of a philosopher, the
one with the smaller index first. -/
def min_max_forks (N id : Nat) : Nat × Nat :=
  (min (left_fork id) (right_fork N id), max (left_fork id) (right_fork N id))

/-- Lines 238-246 of `philosopher_resource_hierarchy` alone: the general
branch and the swap, without the special case for the last philosopher. -/
def hierarchy_forks_plain (N id : Nat) : Nat × Nat :=
  let p : Nat × Nat := (id, (id + 1) % N)
  if p.1 > p.2 then (p.2, p.1) else p

/-- Agent `a` is in its eating phase: it stands at the eat sleep. -/
def State.eating (s : State) (a : Nat) : Bool :=
  match s.agents[a]? with
  | some ag => decide (ag.pc = .eat)
  | none => false

/-- The state with the trace lines removed from its log. -/
def State.strip (s : State) : State :=
  { s with history := s.history.filter (fun e => !e.2.is_trace) }

/-- State of a two-philosopher Mutex run after the schedule `[0, 0, 0]`:
agent 0 has locked both forks and eats. -/
def mutex_eating : State :=
  { agents := [⟨.eat, 0⟩, ⟨.loopHead, 0⟩]
    forks := [true, true]
    table_mutex := false
    history := [(0, .lock 1), (0, .lock 0)] }

/-- State of a two-philosopher Mutex run with one iteration after agent 0 and
then agent 1 have run their routine to the end. -/
def mutex_completed : State :=
  { agents := [⟨.finished, 1⟩, ⟨.finished, 1⟩]
    forks := [false, false]
    table_mutex := false
    history := [(1, .unlock 0), (1, .unlock 1), (1, .lock 1), (1, .lock 0),
      (0, .unlock 1), (0, .unlock 0), (0, .lock 1), (0, .lock 0)] }

/-- Program point of a TryLock agent at the start of phase `p` of a livelock
round: before the first `try_lock`, before the second, before the `unlock`, in
the retry sleep, and before the first `try_lock` again. -/
def live_pc : Nat → PC
  | 0 => .lockFirst
  | 1 => .lockSecond
  | 2 => .retryUnlock
  | 3 => .retrySleep
  | _ => .lockFirst

/-- Flag of fork `f` when the agents `0 .. k-1` have taken their step of
phase `p`. -/
def live_fork (p k f : Nat) : Bool :=
  match p with
  | 0 => decide (f < k)
  | 1 => true
  | 2 => decide (k ≤ f)
  | _ => false

/-- Events logged, newest first, when the agents `0 .. k-1` have each
performed the operation `op a`. -/
def round_ops (op : Nat → Op) (k : Nat) : List (Nat × Op) :=
  ((List.range k).map (fun a => (a, op a))).reverse

/-- Events logged since the start of a livelock round when the agents
`0 .. k-1` have taken their step of phase `p`. -/
def live_log (N p k : Nat) : List (Nat × Op) :=
  match p with
  | 0 => round_ops (fun a => .try_lock (left_fork a) true) k
  | 1 => round_ops (fun a => .try_lock (right_fork N a) false) k ++
      round_ops (fun a => .try_lock (left_fork a) true) N
  | 2 => round_ops (fun a => .unlock (left_fork a)) k ++
      (round_ops (fun a => .try_lock (right_fork N a) false) N ++
        round_ops (fun a => .try_lock (left_fork a) true) N)
  | _ => round_ops (fun a => .unlock (left_fork a)) N ++
      (round_ops (fun a => .try_lock (right_fork N a) false) N ++
        round_ops (fun a => .try_lock (left_fork a) true) N)

/-- State of a livelock round that started with the log `H`: the agents
`0 .. k-1` have taken their step of phase `p`, the others not yet. -/
def LiveState (N i : Nat) (H : List (Nat × Op)) (p k : Nat) (s : State) : Prop :=
  s.agents.length = N ∧ s.forks.length = N ∧
    (∀ a, a < N → s.agents[a]? = some ⟨if a < k then live_pc (p + 1) else live_pc p, i⟩) ∧
    (∀ f, f < N → s.forks[f]? = some (live_fork p k f)) ∧
    s.table_mutex = false ∧ s.history = live_log N p k ++ H

/-- Start of a TryLock run: the agents `0 .. k-1` have passed the loop test of
their first iteration. -/
def StartState (N k : Nat) (s : State) : Prop :=
  s.agents.length = N ∧ s.forks.length = N ∧
    (∀ a, a < N → s.agents[a]? = some ⟨if a < k then .lockFirst else .loopHead, 0⟩) ∧
    (∀ f, f < N → s.forks[f]? = some false) ∧ s.table_mutex = false

/-- Every agent stands at a program point of a failing acquisition attempt. -/
def LivePCs (N : Nat) (s : State) : Prop :=
  ∀ a, a < N → ∃ ag, s.agents[a]? = some ag ∧
    (ag.pc = .lockFirst ∨ ag.pc = .lockSecond ∨ ag.pc = .retryUnlock ∨ ag.pc = .retrySleep)

/-- The schedule can be run from `s`, and every state it passes, the first
and the last included, satisfies `P`. -/
def run_within (strat : Strategy) (N : Nat) (iterations : Int) (verbose : Bool)
    (P : State → Prop) : List Nat → State → Prop
  | [], s => P s
  | id :: rest, s =>
      P s ∧ id < N ∧ ∃ s', step strat N iterations verbose s id = some s' ∧
        run_within strat N iterations verbose P rest s'

/-- One livelock round: every agent in turn takes its left fork, then every
agent fails on its right fork, then every agent releases, then every agent
sleeps. -/
def livelock_round (N : Nat) : List Nat :=
  List.range N ++ (List.range N ++ (List.range N ++ List.range N))

end task3

namespace task2

/-- Value of the C++ type `double` (IEEE-754 binary64): a finite number, an
infinity or NaN.  The two zeros are one value, the code does not tell them
apart.  The arithmetic operations below return binary64 numbers only; a
finite value that is an input (a salary, an average age) may be any
rational, of which the binary64 numbers are a part. -/
inductive Double where
  | finite (q : Rat)
  | inf (negative : Bool)
  | nan
  deriving DecidableEq

/-- Largest finite binary64 number, `(2^53 - 1) * 2^971`. -/
def max_double : Rat := (2 ^ 53 - 1) * 2 ^ 971

/-- Operator `<` of `double`: false when an operand is NaN. -/
def Double.lt : Double → Double → Bool
  | .finite a, .finite b => decide (a < b)
  | .finite _, .inf negative => !negative
  | .inf negative, .finite _ => negative
  | .inf n1, .inf n2 => n1 && !n2
  | _, _ => false

/-- Operator `<=` of `double`: false when an operand is NaN. -/
def Double.le : Double → Double → Bool
  | .finite a, .finite b => decide (a ≤ b)
  | .finite _, .inf negative => !negative
  | .inf negative, .finite _ => negative
  | .inf n1, .inf n2 => n1 || !n2
  | _, _ => false

/-- Record `struct Employee` of `task2_employees.h`. -/
structure Employee where
  name : String
  position : String
  age : Int
  salary : Double
  deriving DecidableEq

/-- Statement `if (x > max_salary) max_salary = x;` (lines 94-96, 160-162,
194-196 and 208-210): the new value of `max_salary`. -/
def update_max (max_salary x : Double) : Double :=
  if Double.lt max_salary x then x else max_salary

/-- Vector `first_names` of `generate_employees`. -/
def first_names : List String :=
  ["Иван", "Петр", "Сергей", "Алексей", "Дмитрий", "Мария", "Ольга", "Елена", "Анна", "Наталья"]

/-- Vector `last_names` of `generate_employees`. -/
def last_names : List String :=
  ["Иванов", "Петров", "Сидоров", "Смирнов", "Кузнецов", "Попов", "Васильев", "Павлов",
    "Семенов", "Федоров"]

/-- Vector `middle_names` of `generate_employees`. -/
def middle_names : List String :=
  ["Иванович", "Петрович", "Сергеевич", "Алексеевич", "Дмитриевич", "Ивановна", "Петровна",
    "Сергеевна", "Алексеевна", "Дмитриевна"]

/-- Vector `positions` of `generate_employees`: seven fixed positions and the
target position. -/
def positions (target_position : String) : List String :=
  ["Менеджер", "Разработчик", "Аналитик", "Тестировщик", "Дизайнер", "Администратор",
    "Бухгалтер", target_position]

/-- Outcome of the random generator for one employee: the three values of
`gen()` used for the name, the raw values behind `position_dist(gen)` and
`age_dist(gen)`, and the value of `salary_dist(gen)`. -/
structure Draw where
  last : Nat
  first : Nat
  middle : Nat
  position : Nat
  age : Nat
  salary : Double

/-- Result of `std::uniform_int_distribution<>(a, b)`: an `int` in `[a, b]`
whatever the generator yields. -/
def uniform_int (a b : Int) (raw : Nat) : Int := a + (raw : Int) % (b - a + 1)

/-- Loop body of `generate_employees` (lines 38-56) for the `i`-th employee. -/
def generate_employee (target_position : String) (d : Draw) : Employee :=
  { name := last_names.getD (d.last % last_names.length) "" ++ " " ++
      first_names.getD (d.first % first_names.length) "" ++ " " ++
      middle_names.getD (d.middle % middle_names.length) ""
    position := (positions target_position).getD
      (uniform_int 0 ((positions target_position).length - 1) d.position).toNat ""
    age := uniform_int 20 65 d.age
    salary := d.salary }

/-- Function `generate_employees` (lines 15-69); `draws i` is the outcome of
the random generator in the `i`-th pass of the loop. -/
def generate_employees (count : Int) (target_position : String) (draws : Nat → Draw) :
    List Employee :=
  let employees := (List.range count.toNat).map
    (fun i => generate_employee target_position (draws i))
  let has_target_position :=
    employees.any (fun emp => decide (emp.position = target_position))
  if !has_target_position && !employees.isEmpty then
    match employees with
    | [] => []
    | emp :: rest => { emp with position := target_position } :: rest
  else employees

end task2

namespace task1

/-- Class `CustomBarrier` (lines 94-118): the data members `count`, `total`
and `generation`; `waiting` lists, newest first, the value `gen` captured by
each thread that is blocked in `cv.wait`. -/
structure CustomBarrier where
  count : Int
  total : Int
  generation : Int
  waiting : List Int
  deriving DecidableEq, Repr

/-- Constructor `CustomBarrier(int n) : count(n), total(n)`, with
`generation = 0`. -/
def CustomBarrier.new (n : Int) : CustomBarrier :=
  { count := n, total := n, generation := 0, waiting := [] }

/-- Method `arrive_and_wait()`, executed under `mtx`.  When `--count == 0` the
generation is incremented, the counter reset and `notify_all` lets every
blocked thread re-evaluate `gen != generation`: those for which it holds
return, the others stay blocked.  Otherwise the caller blocks in `cv.wait`
with the generation it has read. -/
def CustomBarrier.arrive_and_wait (b : CustomBarrier) : CustomBarrier :=
  let gen := b.generation
  let count := b.count - 1
  if count = 0 then
    let generation := b.generation + 1
    { count := b.total, total := b.total, generation := generation,
      waiting := b.waiting.filter (fun g => decide (¬ g ≠ generation)) }
  else
    { count := count, total := b.total, generation := b.generation,
      waiting := gen :: b.waiting }

/-- The barrier after `j` calls of `arrive_and_wait` on a barrier constructed
with `total = n`. -/
def arrivals (n : Int) (j : Nat) : CustomBarrier :=
  Nat.iterate CustomBarrier.arrive_and_wait j (CustomBarrier.new n)

end task1

/-! ## Lemmas -/

namespace task3

theorem right_fork_lt {N : Nat} (hN : 0 < N) (id : Nat) : right_fork N id < N :=
  Nat.mod_lt _ hN

/-- On non-negative operands the `int` computation of the right fork index is
the one used for the agents of the model. -/
theorem right_fork_int_cast (N id : Nat) :
    right_fork_int (N : Int) (id : Int) = ((right_fork N id : Nat) : Int) := by
  unfold right_fork_int right_fork
  exact (Int.ofNat_tmod (id + 1) N).symm

theorem right_fork_ne_left {N id : Nat} (hN : 2 ≤ N) (hid : id < N) :
    right_fork N id ≠ left_fork id := by
  unfold right_fork left_fork
  by_cases h : id + 1 < N
  · rw [Nat.mod_eq_of_lt h]; omega
  · have h1 : id + 1 = N := by omega
    rw [h1, Nat.mod_self]; omega

theorem hierarchy_forks_eq {N id : Nat} (hN : 2 ≤ N) (hid : id < N) :
    hierarchy_forks N id = if id = N - 1 then (0, N - 1) else (id, id + 1) := by
  unfold hierarchy_forks
  by_cases h : id = N - 1
  · subst h
    simp
  · have h1 : id + 1 < N := by omega
    simp [h, Nat.mod_eq_of_lt h1]

theorem first_fork_lt_second {N id : Nat} (hN : 2 ≤ N) (hid : id < N) :
    first_fork N id < second_fork N id := by
  unfold first_fork second_fork
  rw [hierarchy_forks_eq hN hid]
  split <;> simp only <;> omega

theorem second_fork_lt {N id : Nat} (hN : 2 ≤ N) (hid : id < N) :
    second_fork N id < N := by
  unfold second_fork
  rw [hierarchy_forks_eq hN hid]
  split <;> simp only <;> omega

theorem holds_in_cons_neutral (id : Nat) (op : Op) (h : List (Nat × Op))
    (h1 : op.takes = none) (h2 : op.gives = none) (a f : Nat) :
    holds_in ((id, op) :: h) a f = holds_in h a f := by
  simp [holds_in, h1, h2]

theorem holds_in_trace_line (verbose : Bool) (id i : Nat) (op : Op) (h : List (Nat × Op))
    (h1 : op.takes = none) (h2 : op.gives = none) (a f : Nat) :
    holds_in (trace_line verbose id i op h) a f = holds_in h a f := by
  unfold trace_line
  split
  · exact holds_in_cons_neutral id op h h1 h2 a f
  · rfl

section effects
variable {strat : Strategy} {N : Nat} {it : Int} {v : Bool} {s s' : State} {id : Nat}
  {pc : PC} {i : Nat}

theorem eff_loop {b e : PC} (hexec : exec it v s id ⟨pc, i⟩ (.loop b e) = some s')
    (hb : ∀ g, g ∈ held strat N id b ↔ g ∈ held strat N id pc)
    (he : ∀ g, g ∈ held strat N id e ↔ g ∈ held strat N id pc) :
    Effect strat N s id pc s' := by
  simp only [exec] at hexec
  split at hexec
  · cases hexec
    exact Effect.keep b i rfl rfl
      (by intro a f; apply holds_in_trace_line <;> rfl) hb
  · cases hexec
    exact Effect.keep e i rfl rfl (fun _ _ => rfl) he

theorem eff_eat {nx : PC} (hexec : exec it v s id ⟨pc, i⟩ (.eat nx) = some s')
    (hb : ∀ g, g ∈ held strat N id nx ↔ g ∈ held strat N id pc) :
    Effect strat N s id pc s' := by
  simp only [exec] at hexec
  cases hexec
  exact Effect.keep nx i rfl rfl
      (by intro a f; apply holds_in_trace_line <;> rfl) hb

theorem eff_sleep {nx : PC} (hexec : exec it v s id ⟨pc, i⟩ (.sleep nx) = some s')
    (hb : ∀ g, g ∈ held strat N id nx ↔ g ∈ held strat N id pc) :
    Effect strat N s id pc s' := by
  simp only [exec] at hexec
  cases hexec
  exact Effect.keep nx i rfl rfl (fun _ _ => rfl) hb

theorem eff_incr {nx : PC} (hexec : exec it v s id ⟨pc, i⟩ (.incr nx) = some s')
    (hb : ∀ g, g ∈ held strat N id nx ↔ g ∈ held strat N id pc) :
    Effect strat N s id pc s' := by
  simp only [exec] at hexec
  cases hexec
  exact Effect.keep nx (i + 1) rfl rfl (fun _ _ => rfl) hb

theorem eff_table_lock {nx : PC} (hexec : exec it v s id ⟨pc, i⟩ (.table_lock nx) = some s')
    (hb : ∀ g, g ∈ held strat N id nx ↔ g ∈ held strat N id pc) :
    Effect strat N s id pc s' := by
  simp only [exec] at hexec
  split at hexec
  · cases hexec
  · cases hexec
    exact Effect.keep nx i rfl rfl
      (by intro a f; apply holds_in_cons_neutral <;> rfl) hb

theorem eff_table_unlock {nx : PC}
    (hexec : exec it v s id ⟨pc, i⟩ (.table_unlock nx) = some s')
    (hb : ∀ g, g ∈ held strat N id nx ↔ g ∈ held strat N id pc) :
    Effect strat N s id pc s' := by
  simp only [exec] at hexec
  cases hexec
  exact Effect.keep nx i rfl rfl
      (by intro a f; apply holds_in_cons_neutral <;> rfl) hb

theorem eff_check {l r : Nat} {ok fail : PC}
    (hexec : exec it v s id ⟨pc, i⟩ (.check l r ok fail) = some s')
    (hb : ∀ g, g ∈ held strat N id ok ↔ g ∈ held strat N id pc)
    (he : ∀ g, g ∈ held strat N id fail ↔ g ∈ held strat N id pc) :
    Effect strat N s id pc s' := by
  simp only [exec] at hexec
  split at hexec
  · split at hexec
    · cases hexec
      exact Effect.keep ok i rfl rfl
        (by intro a f; apply holds_in_cons_neutral <;> rfl) hb
    · cases hexec
      exact Effect.keep fail i rfl rfl
        (by intro a f; apply holds_in_cons_neutral <;> rfl) he
  · cases hexec

theorem eff_lock {f : Nat} {nx : PC} (hexec : exec it v s id ⟨pc, i⟩ (.lock f nx) = some s')
    (hf : f < N) (hflag : initial_flag strat = false)
    (hb : ∀ g, g ∈ held strat N id nx ↔ g = f ∨ g ∈ held strat N id pc) :
    Effect strat N s id pc s' := by
  simp only [exec] at hexec
  split at hexec
  · rename_i hfree
    cases hexec
    exact Effect.take nx i f rfl hf (by simp [hflag]) ⟨_, rfl, rfl⟩
      (fun _ => by rw [hflag]; exact hfree)
      (fun h => by rw [h] at hflag; simp [initial_flag] at hflag) hb
  · cases hexec

theorem eff_try_lock {f : Nat} {ok fail : PC}
    (hexec : exec it v s id ⟨pc, i⟩ (.try_lock f ok fail) = some s')
    (hf : f < N) (hflag : initial_flag strat = false)
    (hb : ∀ g, g ∈ held strat N id ok ↔ g = f ∨ g ∈ held strat N id pc)
    (he : ∀ g, g ∈ held strat N id fail ↔ g ∈ held strat N id pc) :
    Effect strat N s id pc s' := by
  simp only [exec] at hexec
  split at hexec
  · rename_i hfree
    cases hexec
    exact Effect.take ok i f rfl hf (by simp [hflag]) ⟨_, rfl, rfl⟩
      (fun _ => by rw [hflag]; exact hfree)
      (fun h => by rw [h] at hflag; simp [initial_flag] at hflag) hb
  · cases hexec
    exact Effect.keep fail i rfl rfl
        (by intro a f; apply holds_in_cons_neutral <;> rfl) he
  · cases hexec

theorem eff_unlock {f : Nat} {nx : PC}
    (hexec : exec it v s id ⟨pc, i⟩ (.unlock f nx) = some s')
    (hf : f < N) (hflag : initial_flag strat = false)
    (hin : f ∈ held strat N id pc)
    (hb : ∀ g, g ∈ held strat N id nx ↔ g ≠ f ∧ g ∈ held strat N id pc) :
    Effect strat N s id pc s' := by
  simp only [exec] at hexec
  split at hexec
  · cases hexec
    exact Effect.give nx i f rfl hf (by simp [hflag]) ⟨_, rfl, rfl, rfl⟩ hin hb
  · cases hexec

theorem eff_acquire {f : Nat} {nx : PC}
    (hexec : exec it v s id ⟨pc, i⟩ (.acquire f nx) = some s')
    (hf : f < N) (hs : strat = .SEMAPHORE)
    (hb : ∀ g, g ∈ held strat N id nx ↔ g = f ∨ g ∈ held strat N id pc) :
    Effect strat N s id pc s' := by
  simp only [exec] at hexec
  split at hexec
  · rename_i b hb0
    cases b
    · simp [BinarySemaphore.acquire] at hexec
    · simp only [BinarySemaphore.acquire, if_true] at hexec
      cases hexec
      exact Effect.take nx i f rfl hf (by simp [hs, initial_flag, BinarySemaphore.new])
        ⟨_, rfl, rfl⟩
        (fun _ => by rw [hs]; exact hb0)
        (fun h => by rw [h] at hs; cases hs) hb
  · cases hexec

theorem eff_release {f : Nat} {nx : PC}
    (hexec : exec it v s id ⟨pc, i⟩ (.release f nx) = some s')
    (hf : f < N) (hs : strat = .SEMAPHORE)
    (hin : f ∈ held strat N id pc)
    (hb : ∀ g, g ∈ held strat N id nx ↔ g ≠ f ∧ g ∈ held strat N id pc) :
    Effect strat N s id pc s' := by
  simp only [exec] at hexec
  split at hexec
  · cases hexec
    exact Effect.give nx i f rfl hf
      (by simp [hs, initial_flag, BinarySemaphore.new, BinarySemaphore.release])
      ⟨_, rfl, rfl, rfl⟩ hin hb
  · cases hexec

theorem eff_set_false {f : Nat} {nx : PC}
    (hexec : exec it v s id ⟨pc, i⟩ (.set_available f false nx) = some s')
    (hf : f < N) (hs : strat = .ARBITRATOR)
    (hpc : (pc = .takeLeft ∧ f = left_fork id) ∨ (pc = .takeRight ∧ f = right_fork N id))
    (hb : ∀ g, g ∈ held strat N id nx ↔ g = f ∨ g ∈ held strat N id pc) :
    Effect strat N s id pc s' := by
  simp only [exec] at hexec
  split at hexec
  · cases hexec
    exact Effect.take nx i f rfl hf (by simp [hs, initial_flag]) ⟨_, rfl, rfl⟩
      (fun h => absurd hs h) (fun _ => hpc) hb
  · cases hexec

theorem eff_set_true {f : Nat} {nx : PC}
    (hexec : exec it v s id ⟨pc, i⟩ (.set_available f true nx) = some s')
    (hf : f < N) (hs : strat = .ARBITRATOR)
    (hin : f ∈ held strat N id pc)
    (hb : ∀ g, g ∈ held strat N id nx ↔ g ≠ f ∧ g ∈ held strat N id pc) :
    Effect strat N s id pc s' := by
  simp only [exec] at hexec
  split at hexec
  · cases hexec
    exact Effect.give nx i f rfl hf (by simp [hs, initial_flag]) ⟨_, rfl, rfl, rfl⟩ hin hb
  · cases hexec

end effects

theorem step_effect_mutex {N : Nat} {it : Int} {v : Bool} {s s' : State}
    {id : Nat} {pc : PC} {i : Nat} (hN : 2 ≤ N) (hid : id < N)
    (hstep : exec it v s id ⟨pc, i⟩ (philosopher_mutex N id pc) = some s') :
    Effect .MUTEX N s id pc s' := by
  have hr : right_fork N id < N := right_fork_lt (by omega) id
  have hl : left_fork id < N := hid
  have hlr := right_fork_ne_left hN hid
  cases pc <;> simp only [philosopher_mutex] at hstep
  case loopHead => exact eff_loop hstep (by simp [held]) (by simp [held])
  case lockFirst =>
    split at hstep
    · rename_i he
      exact eff_lock hstep hl rfl (by simp [held, he])
    · rename_i he
      exact eff_lock hstep hr rfl (by simp [held, he])
  case lockSecond =>
    split at hstep
    · rename_i he
      exact eff_lock hstep hr rfl (by simp [held, he, or_comm])
    · rename_i he
      exact eff_lock hstep hl rfl (by simp [held, he])
  case eat => exact eff_eat hstep (by simp [held])
  case unlockFirst =>
    exact eff_unlock hstep hl rfl (by simp [held]) (by
      intro g; simp only [held, List.mem_cons, List.mem_singleton, List.not_mem_nil, or_false]
      constructor
      · rintro rfl; exact ⟨hlr, Or.inr rfl⟩
      · rintro ⟨h1, h2 | h2⟩
        · exact absurd h2 h1
        · exact h2)
  case unlockSecond =>
    exact eff_unlock hstep hr rfl (by simp [held]) (by simp [held])
  case loopIncr => exact eff_incr hstep (by simp [held])
  all_goals (simp only [exec] at hstep; cases hstep)

theorem step_effect_semaphore {N : Nat} {it : Int} {v : Bool} {s s' : State}
    {id : Nat} {pc : PC} {i : Nat} (hN : 2 ≤ N) (hid : id < N)
    (hstep : exec it v s id ⟨pc, i⟩ (philosopher_semaphore N id pc) = some s') :
    Effect .SEMAPHORE N s id pc s' := by
  have hr : right_fork N id < N := right_fork_lt (by omega) id
  have hl : left_fork id < N := hid
  have hlr := right_fork_ne_left hN hid
  cases pc <;> simp only [philosopher_semaphore] at hstep
  case loopHead => exact eff_loop hstep (by simp [held]) (by simp [held])
  case lockFirst => exact eff_acquire hstep hl rfl (by simp [held])
  case lockSecond => exact eff_acquire hstep hr rfl (by simp [held, or_comm])
  case eat => exact eff_eat hstep (by simp [held])
  case unlockFirst =>
    exact eff_release hstep hl rfl (by simp [held]) (by
      intro g; simp only [held, List.mem_cons, List.mem_singleton, List.not_mem_nil, or_false]
      constructor
      · rintro rfl; exact ⟨hlr, Or.inr rfl⟩
      · rintro ⟨h1, h2 | h2⟩
        · exact absurd h2 h1
        · exact h2)
  case unlockSecond =>
    exact eff_release hstep hr rfl (by simp [held]) (by simp [held])
  case loopIncr => exact eff_incr hstep (by simp [held])
  all_goals (simp only [exec] at hstep; cases hstep)

theorem step_effect_try_lock {N : Nat} {it : Int} {v : Bool} {s s' : State}
    {id : Nat} {pc : PC} {i : Nat} (hN : 2 ≤ N) (hid : id < N)
    (hstep : exec it v s id ⟨pc, i⟩ (philosopher_try_lock N id pc) = some s') :
    Effect .TRY_LOCK N s id pc s' := by
  have hr : right_fork N id < N := right_fork_lt (by omega) id
  have hl : left_fork id < N := hid
  have hlr := right_fork_ne_left hN hid
  cases pc <;> simp only [philosopher_try_lock] at hstep
  case loopHead => exact eff_loop hstep (by simp [held]) (by simp [held])
  case lockFirst => exact eff_try_lock hstep hl rfl (by simp [held]) (by simp [held])
  case lockSecond =>
    exact eff_try_lock hstep hr rfl (by simp [held, or_comm]) (by simp [held])
  case retryUnlock => exact eff_unlock hstep hl rfl (by simp [held]) (by simp [held])
  case retrySleep => exact eff_sleep hstep (by simp [held])
  case eat => exact eff_eat hstep (by simp [held])
  case unlockFirst =>
    exact eff_unlock hstep hl rfl (by simp [held]) (by
      intro g; simp only [held, List.mem_cons, List.mem_singleton, List.not_mem_nil, or_false]
      constructor
      · rintro rfl; exact ⟨hlr, Or.inr rfl⟩
      · rintro ⟨h1, h2 | h2⟩
        · exact absurd h2 h1
        · exact h2)
  case unlockSecond =>
    exact eff_unlock hstep hr rfl (by simp [held]) (by simp [held])
  case loopIncr => exact eff_incr hstep (by simp [held])
  all_goals (simp only [exec] at hstep; cases hstep)

theorem step_effect_arbitrator {N : Nat} {it : Int} {v : Bool} {s s' : State}
    {id : Nat} {pc : PC} {i : Nat} (hN : 2 ≤ N) (hid : id < N)
    (hstep : exec it v s id ⟨pc, i⟩ (philosopher_arbitrator N id pc) = some s') :
    Effect .ARBITRATOR N s id pc s' := by
  have hr : right_fork N id < N := right_fork_lt (by omega) id
  have hl : left_fork id < N := hid
  have hlr := right_fork_ne_left hN hid
  cases pc <;> simp only [philosopher_arbitrator] at hstep
  case loopHead => exact eff_loop hstep (by simp [held]) (by simp [held])
  case guardLock => exact eff_table_lock hstep (by simp [held])
  case guardCheck => exact eff_check hstep (by simp [held]) (by simp [held])
  case takeLeft => exact eff_set_false hstep hl rfl (Or.inl ⟨rfl, rfl⟩) (by simp [held])
  case takeRight => exact eff_set_false hstep hr rfl (Or.inr ⟨rfl, rfl⟩) (by simp [held, or_comm])
  case guardExit => exact eff_table_unlock hstep (by simp [held])
  case guardFail => exact eff_table_unlock hstep (by simp [held])
  case retrySleep => exact eff_sleep hstep (by simp [held])
  case eat => exact eff_eat hstep (by simp [held])
  case returnLock => exact eff_table_lock hstep (by simp [held])
  case returnLeft =>
    exact eff_set_true hstep hl rfl (by simp [held]) (by
      intro g; simp only [held, List.mem_cons, List.mem_singleton, List.not_mem_nil, or_false]
      constructor
      · rintro rfl; exact ⟨hlr, Or.inr rfl⟩
      · rintro ⟨h1, h2 | h2⟩
        · exact absurd h2 h1
        · exact h2)
  case returnRight =>
    exact eff_set_true hstep hr rfl (by simp [held]) (by simp [held])
  case returnUnlock => exact eff_table_unlock hstep (by simp [held])
  case loopIncr => exact eff_incr hstep (by simp [held])
  all_goals (simp only [exec] at hstep; cases hstep)

theorem step_effect_hierarchy {N : Nat} {it : Int} {v : Bool} {s s' : State}
    {id : Nat} {pc : PC} {i : Nat} (hN : 2 ≤ N) (hid : id < N)
    (hstep : exec it v s id ⟨pc, i⟩ (philosopher_resource_hierarchy N id pc) = some s') :
    Effect .RESOURCE_HIERARCHY N s id pc s' := by
  have h12 := first_fork_lt_second hN hid
  have h2 : second_fork N id < N := second_fork_lt hN hid
  have h1 : first_fork N id < N := lt_trans h12 h2
  cases pc <;> simp only [philosopher_resource_hierarchy] at hstep
  case loopHead => exact eff_loop hstep (by simp [held]) (by simp [held])
  case lockFirst => exact eff_lock hstep h1 rfl (by simp [held])
  case lockSecond => exact eff_lock hstep h2 rfl (by simp [held, or_comm])
  case eat => exact eff_eat hstep (by simp [held])
  case unlockFirst =>
    exact eff_unlock hstep h2 rfl (by simp [held]) (by
      intro g; simp only [held, List.mem_cons, List.mem_singleton, List.not_mem_nil, or_false]
      constructor
      · rintro rfl; exact ⟨by omega, Or.inl rfl⟩
      · rintro ⟨h1, h2 | h2⟩
        · exact h2
        · exact absurd h2 h1)
  case unlockSecond =>
    exact eff_unlock hstep h1 rfl (by simp [held]) (by simp [held])
  case loopIncr => exact eff_incr hstep (by simp [held])
  all_goals (simp only [exec] at hstep; cases hstep)

theorem step_effect {strat : Strategy} {N : Nat} {it : Int} {v : Bool} {s s' : State}
    {id : Nat} {ag : Agent} (hN : 2 ≤ N) (hid : id < N)
    (hag : s.agents[id]? = some ag)
    (hstep : step strat N it v s id = some s') : Effect strat N s id ag.pc s' := by
  obtain ⟨pc, i⟩ := ag
  unfold step at hstep
  rw [hag] at hstep
  simp only at hstep
  cases strat
  · exact step_effect_mutex hN hid hstep
  · exact step_effect_semaphore hN hid hstep
  · exact step_effect_try_lock hN hid hstep
  · exact step_effect_arbitrator hN hid hstep
  · exact step_effect_hierarchy hN hid hstep

theorem heldAt_self {strat : Strategy} {N : Nat} {s : State} {id : Nat} {ag : Agent}
    (hag : s.agents[id]? = some ag) (f : Nat) :
    HeldAt strat N s id f ↔ f ∈ held strat N id ag.pc := by
  unfold HeldAt
  rw [hag]
  constructor
  · rintro ⟨ag', h1, h2⟩
    cases h1
    exact h2
  · intro h
    exact ⟨ag, rfl, h⟩

theorem heldAt_after {strat : Strategy} {N : Nat} {s s' : State} {id : Nat} {ag' : Agent}
    (hid : id < s.agents.length) (hs : s'.agents = s.agents.set id ag') (a f : Nat) :
    HeldAt strat N s' a f ↔
      (a = id ∧ f ∈ held strat N id ag'.pc) ∨ (a ≠ id ∧ HeldAt strat N s a f) := by
  unfold HeldAt
  rw [hs]
  by_cases h : a = id
  · subst h
    rw [List.getElem?_set_self hid]
    simp
  · rw [List.getElem?_set_ne (Ne.symm h)]
    simp [h]

theorem takes_gives_none {op : Op} {f : Nat} (h : op.takes = some f) : op.gives = none := by
  cases op <;> simp [Op.takes] at h <;> try rfl
  rename_i g b
  cases b <;> simp [Op.takes] at h
  rfl

theorem holds_in_take (id : Nat) (op : Op) (h : List (Nat × Op)) (f : Nat)
    (h1 : op.takes = some f) (a g : Nat) :
    holds_in ((id, op) :: h) a g = true ↔ (a = id ∧ g = f) ∨ holds_in h a g = true := by
  have h2 := takes_gives_none h1
  by_cases hc : id = a ∧ f = g
  · obtain ⟨rfl, rfl⟩ := hc
    simp [holds_in, h1]
  · have hc' : ¬ (a = id ∧ g = f) := fun hh => hc ⟨hh.1.symm, hh.2.symm⟩
    simp [holds_in, h1, h2, hc, hc']

theorem holds_in_give (id : Nat) (op : Op) (h : List (Nat × Op)) (f : Nat)
    (h1 : op.gives = some f) (h2 : op.takes = none) (a g : Nat) :
    holds_in ((id, op) :: h) a g = true ↔ ¬ (a = id ∧ g = f) ∧ holds_in h a g = true := by
  by_cases hc : id = a ∧ f = g
  · obtain ⟨rfl, rfl⟩ := hc
    simp [holds_in, h1, h2]
  · have hc' : ¬ (a = id ∧ g = f) := fun hh => hc ⟨hh.1.symm, hh.2.symm⟩
    simp [holds_in, h1, h2, hc, hc']

theorem core_keep {strat : Strategy} {N : Nat} {s s' : State} {id : Nat} {ag : Agent}
    (hinv : CoreInv strat N s) (hag : s.agents[id]? = some ag) (pc' : PC) (i' : Nat)
    (hs : s'.agents = s.agents.set id ⟨pc', i'⟩) (hf : s'.forks = s.forks)
    (hh : ∀ a f, holds_in s'.history a f = holds_in s.history a f)
    (hheld : ∀ g, g ∈ held strat N id pc' ↔ g ∈ held strat N id ag.pc) :
    CoreInv strat N s' := by
  have hidlen : id < s.agents.length := by
    by_contra hc
    rw [List.getElem?_eq_none (by omega)] at hag
    cases hag
  have key : ∀ a f, HeldAt strat N s' a f ↔ HeldAt strat N s a f := by
    intro a f
    rw [heldAt_after hidlen hs]
    by_cases h : a = id
    · subst h
      rw [heldAt_self hag]
      simp [hheld]
    · simp [h]
  refine ⟨?_, ?_, ?_, ?_, ?_⟩
  · rw [hs, List.length_set]; exact hinv.len_agents
  · rw [hf]; exact hinv.len_forks
  · intro a f; rw [hh, key]; exact hinv.hist a f
  · intro a b f h1 h2
    exact hinv.excl a b f ((key a f).1 h1) ((key b f).1 h2)
  · intro f hfN
    rw [hf, hinv.flag f hfN]
    exact exists_congr (fun a => (key a f).symm)

theorem core_take {strat : Strategy} {N : Nat} {s s' : State} {id : Nat} {ag : Agent}
    (hinv : CoreInv strat N s) (hag : s.agents[id]? = some ag) (pc' : PC) (i' : Nat)
    (f : Nat) (hs : s'.agents = s.agents.set id ⟨pc', i'⟩) (hfN : f < N)
    (hf : s'.forks = s.forks.set f (!initial_flag strat))
    (hh : ∃ op, s'.history = (id, op) :: s.history ∧ op.takes = some f)
    (hfree : s.forks[f]? = some (initial_flag strat))
    (hheld : ∀ g, g ∈ held strat N id pc' ↔ g = f ∨ g ∈ held strat N id ag.pc) :
    CoreInv strat N s' := by
  have hidlen : id < s.agents.length := by
    by_contra hc
    rw [List.getElem?_eq_none (by omega)] at hag
    cases hag
  have hnone : ∀ a, ¬ HeldAt strat N s a f := by
    intro a ha
    have := (hinv.flag f hfN).2 ⟨a, ha⟩
    rw [hfree] at this
    cases hb : initial_flag strat <;> simp [hb] at this
  have key : ∀ a g, HeldAt strat N s' a g ↔ (a = id ∧ g = f) ∨ HeldAt strat N s a g := by
    intro a g
    rw [heldAt_after hidlen hs]
    by_cases h : a = id
    · subst h
      rw [heldAt_self hag]
      simp [hheld]
    · simp [h]
  obtain ⟨op, hop, htk⟩ := hh
  refine ⟨?_, ?_, ?_, ?_, ?_⟩
  · rw [hs, List.length_set]; exact hinv.len_agents
  · rw [hf, List.length_set]; exact hinv.len_forks
  · intro a g
    rw [hop, holds_in_take id op _ f htk, key, hinv.hist a g]
  · intro a b g h1 h2
    rw [key] at h1 h2
    rcases h1 with ⟨rfl, rfl⟩ | h1 <;> rcases h2 with ⟨rfl, hg⟩ | h2
    · rfl
    · exact absurd h2 (hnone b)
    · subst hg; exact absurd h1 (hnone a)
    · exact hinv.excl a b g h1 h2
  · intro g hgN
    rw [hf]
    by_cases hg : g = f
    · subst hg
      rw [List.getElem?_set_self (by rw [hinv.len_forks]; exact hfN)]
      simp only [true_iff]
      exact ⟨id, (key id g).2 (Or.inl ⟨rfl, rfl⟩)⟩
    · rw [List.getElem?_set_ne (Ne.symm hg), hinv.flag g hgN]
      refine exists_congr (fun a => ?_)
      rw [key]
      simp [hg]

theorem core_give {strat : Strategy} {N : Nat} {s s' : State} {id : Nat} {ag : Agent}
    (hinv : CoreInv strat N s) (hag : s.agents[id]? = some ag) (pc' : PC) (i' : Nat)
    (f : Nat) (hs : s'.agents = s.agents.set id ⟨pc', i'⟩) (hfN : f < N)
    (hf : s'.forks = s.forks.set f (initial_flag strat))
    (hh : ∃ op, s'.history = (id, op) :: s.history ∧ op.gives = some f ∧ op.takes = none)
    (hin : f ∈ held strat N id ag.pc)
    (hheld : ∀ g, g ∈ held strat N id pc' ↔ g ≠ f ∧ g ∈ held strat N id ag.pc) :
    CoreInv strat N s' := by
  have hidlen : id < s.agents.length := by
    by_contra hc
    rw [List.getElem?_eq_none (by omega)] at hag
    cases hag
  have hmine : HeldAt strat N s id f := (heldAt_self hag f).2 hin
  have key : ∀ a g, HeldAt strat N s' a g ↔ ¬ (a = id ∧ g = f) ∧ HeldAt strat N s a g := by
    intro a g
    rw [heldAt_after hidlen hs]
    by_cases h : a = id
    · subst h
      rw [heldAt_self hag]
      simp [hheld]
    · simp [h]
  obtain ⟨op, hop, hgv, htk⟩ := hh
  refine ⟨?_, ?_, ?_, ?_, ?_⟩
  · rw [hs, List.length_set]; exact hinv.len_agents
  · rw [hf, List.length_set]; exact hinv.len_forks
  · intro a g
    rw [hop, holds_in_give id op _ f hgv htk, key, hinv.hist a g]
  · intro a b g h1 h2
    exact hinv.excl a b g ((key a g).1 h1).2 ((key b g).1 h2).2
  · intro g hgN
    rw [hf]
    by_cases hg : g = f
    · subst hg
      rw [List.getElem?_set_self (by rw [hinv.len_forks]; exact hfN)]
      constructor
      · intro h
        cases hb : initial_flag strat <;> simp [hb] at h
      · rintro ⟨a, ha⟩
        rw [key] at ha
        have := hinv.excl a id g ha.2 hmine
        exact absurd ⟨this, rfl⟩ ha.1
    · rw [List.getElem?_set_ne (Ne.symm hg), hinv.flag g hgN]
      refine exists_congr (fun a => ?_)
      rw [key]
      simp [hg]

theorem agent_of_lt {s : State} {N id : Nat} (hlen : s.agents.length = N) (hid : id < N) :
    ∃ ag, s.agents[id]? = some ag :=
  ⟨s.agents[id], List.getElem?_eq_getElem (by omega)⟩

theorem init_agent {strat : Strategy} {N a : Nat} {ag : Agent}
    (h : (init strat N).agents[a]? = some ag) : ag = ⟨.loopHead, 0⟩ := by
  simp only [init, start] at h
  rw [List.getElem?_replicate] at h
  split at h
  · cases h; rfl
  · cases h

theorem init_not_held (strat : Strategy) (N a f : Nat) : ¬ HeldAt strat N (init strat N) a f := by
  rintro ⟨ag, h1, h2⟩
  rw [init_agent h1] at h2
  cases strat <;> simp [held] at h2

theorem init_core (strat : Strategy) (N : Nat) : CoreInv strat N (init strat N) := by
  refine ⟨?_, ?_, ?_, ?_, ?_⟩
  · simp [init, start]
  · simp [init, start, static_forks]
  · intro a f
    constructor
    · intro h; simp [init, start, holds_in] at h
    · intro h; exact absurd h (init_not_held strat N a f)
  · intro a b f h; exact absurd h (init_not_held strat N a f)
  · intro f hf
    constructor
    · intro h
      simp only [init, start, static_forks] at h
      rw [List.getElem?_replicate] at h
      simp only [hf, if_true] at h
      cases hb : initial_flag strat <;> simp [hb] at h
    · rintro ⟨a, h⟩; exact absurd h (init_not_held strat N a f)

theorem core_step {strat : Strategy} {N : Nat} {it : Int} {v : Bool} {s s' : State}
    {id : Nat} (hN : 2 ≤ N) (hid : id < N) (hs : strat ≠ .ARBITRATOR)
    (hinv : CoreInv strat N s) (hstep : step strat N it v s id = some s') :
    CoreInv strat N s' := by
  obtain ⟨ag, hag⟩ := agent_of_lt hinv.len_agents hid
  cases step_effect hN hid hag hstep with
  | keep pc' i' h1 h2 h3 h4 => exact core_keep hinv hag pc' i' h1 h2 h3 h4
  | take pc' i' f h1 h2 h3 h4 h5 _ h6 => exact core_take hinv hag pc' i' f h1 h2 h3 h4 (h5 hs) h6
  | give pc' i' f h1 h2 h3 h4 h5 h6 => exact core_give hinv hag pc' i' f h1 h2 h3 h4 h5 h6

theorem inGuard_self {s : State} {id : Nat} {ag : Agent}
    (hag : s.agents[id]? = some ag) : InGuard s id ↔ in_guard ag.pc = true := by
  unfold InGuard
  rw [hag]
  constructor
  · rintro ⟨ag', h1, h2⟩
    cases h1
    exact h2
  · intro h
    exact ⟨ag, rfl, h⟩

theorem inGuard_after {s s' : State} {id : Nat} {ag' : Agent}
    (hid : id < s.agents.length) (hs : s'.agents = s.agents.set id ag') (a : Nat) :
    InGuard s' a ↔ (a = id ∧ in_guard ag'.pc = true) ∨ (a ≠ id ∧ InGuard s a) := by
  unfold InGuard
  rw [hs]
  by_cases h : a = id
  · subst h
    rw [List.getElem?_set_self hid]
    simp
  · rw [List.getElem?_set_ne (Ne.symm h)]
    simp [h]

/-- Shape of one step of the arbitrator routine with respect to the guard. -/
theorem arb_step_shape {N : Nat} {it : Int} {v : Bool} {s s' : State}
    {id : Nat} {pc : PC} {i : Nat} (hN : 2 ≤ N) (hid : id < N)
    (hstep : exec it v s id ⟨pc, i⟩ (philosopher_arbitrator N id pc) = some s') :
    ∃ pc' i', s'.agents = s.agents.set id ⟨pc', i'⟩ ∧
      (in_guard pc = false → s'.forks = s.forks) ∧
      (in_guard pc = in_guard pc' → s'.table_mutex = s.table_mutex) ∧
      (in_guard pc = false → in_guard pc' = true → s.table_mutex = false ∧ s'.table_mutex = true) ∧
      (in_guard pc = true → in_guard pc' = false → s'.table_mutex = false) ∧
      (pc' = .takeLeft →
        s'.forks[left_fork id]? = some true ∧ s'.forks[right_fork N id]? = some true) ∧
      (pc' = .takeRight → pc = .takeLeft ∧
        (s.forks[right_fork N id]? = some true → s'.forks[right_fork N id]? = some true)) := by
  have hlr := right_fork_ne_left hN hid
  cases pc <;> simp only [philosopher_arbitrator, exec] at hstep
  case loopHead =>
    split at hstep <;> cases hstep <;> exact ⟨_, _, rfl, by simp [in_guard]⟩
  case guardLock =>
    split at hstep
    · cases hstep
    · rename_i h
      cases hstep
      exact ⟨_, _, rfl, by simpa [in_guard] using h⟩
  case guardCheck =>
    split at hstep
    · rename_i bl br hl hr
      split at hstep
      · rename_i hb
        cases hstep
        simp only [Bool.and_eq_true] at hb
        refine ⟨_, _, rfl, by simp [in_guard], fun _ => rfl, by simp [in_guard],
          by simp [in_guard], fun _ => ?_, by simp⟩
        simp [hl, hr, hb.1, hb.2]
      · cases hstep
        exact ⟨_, _, rfl, by simp [in_guard]⟩
    · cases hstep
  case takeLeft =>
    split at hstep
    · cases hstep
      refine ⟨_, _, rfl, by simp [in_guard], fun _ => rfl, by simp [in_guard],
          by simp [in_guard], by simp, fun _ => ⟨rfl, fun h => ?_⟩⟩
      simp only
      rw [List.getElem?_set_ne (Ne.symm hlr)]
      exact h
    · cases hstep
  case takeRight =>
    split at hstep
    · cases hstep
      exact ⟨_, _, rfl, by simp [in_guard]⟩
    · cases hstep
  case guardExit => cases hstep; exact ⟨_, _, rfl, by simp [in_guard]⟩
  case guardFail => cases hstep; exact ⟨_, _, rfl, by simp [in_guard]⟩
  case retrySleep => cases hstep; exact ⟨_, _, rfl, by simp [in_guard]⟩
  case eat => cases hstep; exact ⟨_, _, rfl, by simp [in_guard]⟩
  case returnLock =>
    split at hstep
    · cases hstep
    · rename_i h
      cases hstep
      exact ⟨_, _, rfl, by simpa [in_guard] using h⟩
  case returnLeft =>
    split at hstep
    · cases hstep
      exact ⟨_, _, rfl, by simp [in_guard]⟩
    · cases hstep
  case returnRight =>
    split at hstep
    · cases hstep
      exact ⟨_, _, rfl, by simp [in_guard]⟩
    · cases hstep
  case returnUnlock => cases hstep; exact ⟨_, _, rfl, by simp [in_guard]⟩
  case loopIncr => cases hstep; exact ⟨_, _, rfl, by simp [in_guard]⟩
  all_goals cases hstep

theorem arb_step {N : Nat} {it : Int} {v : Bool} {s s' : State} {id : Nat}
    (hN : 2 ≤ N) (hid : id < N) (hinv : ArbInv N s)
    (hstep : step .ARBITRATOR N it v s id = some s') : ArbInv N s' := by
  obtain ⟨ag, hag⟩ := agent_of_lt hinv.core.len_agents hid
  have hidlen : id < s.agents.length := by rw [hinv.core.len_agents]; exact hid
  have hexec : exec it v s id ⟨ag.pc, ag.i⟩ (philosopher_arbitrator N id ag.pc) = some s' := by
    unfold step at hstep
    rw [hag] at hstep
    exact hstep
  obtain ⟨pc', i', hs, hforks, htm_same, htm_in, htm_out, hnl, hnr⟩ :=
    arb_step_shape hN hid hexec
  have hcore : CoreInv .ARBITRATOR N s' := by
    cases step_effect hN hid hag hstep with
    | keep pc1 i1 h1 h2 h3 h4 => exact core_keep hinv.core hag pc1 i1 h1 h2 h3 h4
    | take pc1 i1 f h1 h2 h3 h4 h5 h6 h7 =>
        refine core_take hinv.core hag pc1 i1 f h1 h2 h3 h4 ?_ h7
        rcases h6 rfl with ⟨hp, hf⟩ | ⟨hp, hf⟩
        · rw [hf]; exact (hinv.need_left id ag hag hp).1
        · rw [hf]; exact hinv.need_right id ag hag hp
    | give pc1 i1 f h1 h2 h3 h4 h5 h6 => exact core_give hinv.core hag pc1 i1 f h1 h2 h3 h4 h5 h6
  have hguard : ∀ a, InGuard s' a ↔
      (a = id ∧ in_guard pc' = true) ∨ (a ≠ id ∧ InGuard s a) :=
    fun a => inGuard_after hidlen hs a
  have hself := inGuard_self hag
  have hother : ∀ a, a ≠ id → InGuard s a → in_guard ag.pc = false := by
    intro a hne ha
    cases hg : in_guard ag.pc
    · rfl
    · exact absurd (hinv.guard_unique a id ha (hself.2 hg)) hne
  have hclash : ∀ a, a ≠ id → InGuard s a → in_guard pc' = true → False := by
    intro a hne ha hp
    have h1 := hother a hne ha
    have h2 := (htm_in h1 hp).1
    have h3 := hinv.guard_mutex.2 ⟨a, ha⟩
    rw [h2] at h3
    cases h3
  refine ⟨hcore, ?_, ?_, ?_, ?_⟩
  · intro a b ha hb
    rw [hguard] at ha hb
    rcases ha with ⟨rfl, ha⟩ | ⟨hne, ha⟩ <;> rcases hb with ⟨hb1, hb⟩ | ⟨hne', hb⟩
    · exact hb1.symm
    · exact absurd ha (fun h => hclash b hne' hb h)
    · exact absurd hb (fun h => hclash a hne ha h)
    · exact hinv.guard_unique a b ha hb
  · cases hg : in_guard ag.pc <;> cases hg' : in_guard pc'
    · rw [htm_same (by rw [hg, hg']), hinv.guard_mutex]
      refine exists_congr (fun a => ?_)
      rw [hguard, hg']
      constructor
      · intro ha
        refine Or.inr ⟨?_, ha⟩
        rintro rfl
        rw [hself, hg] at ha
        cases ha
      · rintro (⟨_, h⟩ | ⟨_, h⟩)
        · cases h
        · exact h
    · rw [(htm_in hg hg').2]
      simp only [true_iff]
      exact ⟨id, (hguard id).2 (Or.inl ⟨rfl, hg'⟩)⟩
    · rw [htm_out hg hg']
      constructor
      · intro h; cases h
      · rintro ⟨a, ha⟩
        rw [hguard, hg'] at ha
        rcases ha with ⟨_, h⟩ | ⟨hne, h⟩
        · cases h
        · have := hother a hne h
          rw [hg] at this
          cases this
    · rw [htm_same (by rw [hg, hg']), hinv.guard_mutex]
      constructor
      · intro _
        exact ⟨id, (hguard id).2 (Or.inl ⟨rfl, hg'⟩)⟩
      · intro _
        exact ⟨id, hself.2 hg⟩
  · intro a ag' ha hp
    by_cases hne : a = id
    · subst hne
      rw [hs, List.getElem?_set_self hidlen] at ha
      cases ha
      exact hnl hp
    · rw [hs, List.getElem?_set_ne (Ne.symm hne)] at ha
      have hin : InGuard s a := ⟨ag', ha, by rw [hp]; rfl⟩
      rw [hforks (hother a hne hin)]
      exact hinv.need_left a ag' ha hp
  · intro a ag' ha hp
    by_cases hne : a = id
    · subst hne
      rw [hs, List.getElem?_set_self hidlen] at ha
      cases ha
      obtain ⟨h1, h2⟩ := hnr hp
      exact h2 (hinv.need_left a ag hag h1).2
    · rw [hs, List.getElem?_set_ne (Ne.symm hne)] at ha
      have hin : InGuard s a := ⟨ag', ha, by rw [hp]; rfl⟩
      rw [hforks (hother a hne hin)]
      exact hinv.need_right a ag' ha hp

theorem init_arb (N : Nat) : ArbInv N (init .ARBITRATOR N) := by
  have hno : ∀ a, ¬ InGuard (init .ARBITRATOR N) a := by
    rintro a ⟨ag, h1, h2⟩
    rw [init_agent h1] at h2
    cases h2
  refine ⟨init_core _ N, ?_, ?_, ?_, ?_⟩
  · intro a b ha; exact absurd ha (hno a)
  · constructor
    · intro h; cases h
    · rintro ⟨a, ha⟩; exact absurd ha (hno a)
  · intro a ag h hp
    rw [init_agent h] at hp
    cases hp
  · intro a ag h hp
    rw [init_agent h] at hp
    cases hp

theorem reachable_arb {N : Nat} {it : Int} {v : Bool} {s : State} (hN : 2 ≤ N)
    (h : Reachable .ARBITRATOR N it v s) : ArbInv N s := by
  induction h with
  | init => exact init_arb N
  | step _ hid hstep ih => exact arb_step hN hid ih hstep

theorem reachable_core {strat : Strategy} {N : Nat} {it : Int} {v : Bool} {s : State}
    (hN : 2 ≤ N) (h : Reachable strat N it v s) : CoreInv strat N s := by
  by_cases hs : strat = .ARBITRATOR
  · subst hs
    exact (reachable_arb hN h).core
  · induction h with
    | init => exact init_core strat N
    | step _ hid hstep ih => exact core_step hN hid hs ih hstep

theorem exec_targets {it : Int} {v : Bool} {s s' : State} {id : Nat} {ag : Agent}
    {ins : Instr} (h : exec it v s id ag ins = some s') :
    ∃ pc' i', s'.agents = s.agents.set id ⟨pc', i'⟩ ∧ pc' ∈ ins.targets := by
  cases ins <;> simp only [exec] at h
  case loop b e =>
    split at h <;> cases h
    · exact ⟨b, _, rfl, by simp [Instr.targets]⟩
    · exact ⟨e, _, rfl, by simp [Instr.targets]⟩
  case lock f n =>
    split at h <;> cases h
    exact ⟨n, _, rfl, by simp [Instr.targets]⟩
  case try_lock f ok fail =>
    split at h <;> cases h
    · exact ⟨ok, _, rfl, by simp [Instr.targets]⟩
    · exact ⟨fail, _, rfl, by simp [Instr.targets]⟩
  case unlock f n =>
    split at h <;> cases h
    exact ⟨n, _, rfl, by simp [Instr.targets]⟩
  case acquire f n =>
    split at h
    · split at h <;> cases h
      exact ⟨n, _, rfl, by simp [Instr.targets]⟩
    · cases h
  case release f n =>
    split at h <;> cases h
    exact ⟨n, _, rfl, by simp [Instr.targets]⟩
  case table_lock n =>
    split at h <;> cases h
    exact ⟨n, _, rfl, by simp [Instr.targets]⟩
  case table_unlock n =>
    cases h
    exact ⟨n, _, rfl, by simp [Instr.targets]⟩
  case check l r ok fail =>
    split at h
    · split at h <;> cases h
      · exact ⟨ok, _, rfl, by simp [Instr.targets]⟩
      · exact ⟨fail, _, rfl, by simp [Instr.targets]⟩
    · cases h
  case set_available f b n =>
    split at h <;> cases h
    exact ⟨n, _, rfl, by simp [Instr.targets]⟩
  case eat n =>
    cases h
    exact ⟨n, _, rfl, by simp [Instr.targets]⟩
  case sleep n =>
    cases h
    exact ⟨n, _, rfl, by simp [Instr.targets]⟩
  case incr n =>
    cases h
    exact ⟨n, _, rfl, by simp [Instr.targets]⟩
  case halt => cases h

theorem targets_valid (strat : Strategy) (N id : Nat) (pc pc' : PC)
    (h : pc' ∈ (program strat N id pc).targets) : valid_pc strat N id pc' := by
  unfold valid_pc
  by_cases hpar : id % 2 = 0 <;> cases strat <;> cases pc <;>
    simp only [program, philosopher_mutex, philosopher_semaphore, philosopher_try_lock,
      philosopher_arbitrator, philosopher_resource_hierarchy, Instr.targets, hpar,
      if_true, if_false,
      List.mem_cons, List.mem_singleton, List.not_mem_nil, or_false] at h
  all_goals first
    | exact absurd h id
    | (rcases h with rfl | rfl <;>
        simp [program, philosopher_mutex, philosopher_semaphore, philosopher_try_lock,
          philosopher_arbitrator, philosopher_resource_hierarchy, hpar])

theorem init_valid (strat : Strategy) (N : Nat) : ValidPCs strat N (init strat N) := by
  intro a ag h
  rw [init_agent h]
  left
  cases strat <;>
    simp [program, philosopher_mutex, philosopher_semaphore, philosopher_try_lock,
          philosopher_arbitrator, philosopher_resource_hierarchy]

theorem step_valid {strat : Strategy} {N : Nat} {it : Int} {v : Bool} {s s' : State}
    {id : Nat} (hv : ValidPCs strat N s) (hstep : step strat N it v s id = some s') :
    ValidPCs strat N s' := by
  unfold step at hstep
  split at hstep
  · rename_i ag hag
    obtain ⟨pc', i', hs, ht⟩ := exec_targets hstep
    have hidlen : id < s.agents.length := by
      by_contra hc
      rw [List.getElem?_eq_none (by omega)] at hag
      cases hag
    intro a ag' ha
    rw [hs] at ha
    by_cases hne : a = id
    · subst hne
      rw [List.getElem?_set_self hidlen] at ha
      cases ha
      exact targets_valid strat N a ag.pc pc' ht
    · rw [List.getElem?_set_ne (Ne.symm hne)] at ha
      exact hv a ag' ha
  · cases hstep

theorem reachable_valid {strat : Strategy} {N : Nat} {it : Int} {v : Bool} {s : State}
    (h : Reachable strat N it v s) : ValidPCs strat N s := by
  induction h with
  | init => exact init_valid strat N
  | step _ _ hstep ih => exact step_valid ih hstep

theorem exec_none {it : Int} {v : Bool} {s : State} {id : Nat} {ag : Agent}
    {ins : Instr} (h : exec it v s id ag ins = none)
    (hr : ∀ f, f ∈ ins.forks → f < s.forks.length) :
    ins = .halt ∨ (∃ f nx, ins = .lock f nx ∧ s.forks[f]? = some true) ∨
      (∃ f nx, ins = .acquire f nx ∧ s.forks[f]? = some false) ∨
      (∃ nx, ins = .table_lock nx ∧ s.table_mutex = true) := by
  cases ins <;> simp only [exec] at h
  case loop b e => split at h <;> cases h
  case lock f n =>
    have hf : f < s.forks.length := hr f (by simp [Instr.forks])
    right; left
    refine ⟨f, n, rfl, ?_⟩
    rw [List.getElem?_eq_getElem hf] at h ⊢
    cases hb : s.forks[f]
    · rw [hb] at h; simp at h
    · rfl
  case try_lock f ok fail =>
    have hf : f < s.forks.length := hr f (by simp [Instr.forks])
    rw [List.getElem?_eq_getElem hf] at h
    cases hb : s.forks[f] <;> rw [hb] at h <;> simp at h
  case unlock f n =>
    have hf : f < s.forks.length := hr f (by simp [Instr.forks])
    rw [List.getElem?_eq_getElem hf] at h
    simp at h
  case acquire f n =>
    have hf : f < s.forks.length := hr f (by simp [Instr.forks])
    right; right; left
    refine ⟨f, n, rfl, ?_⟩
    rw [List.getElem?_eq_getElem hf] at h ⊢
    cases hb : s.forks[f]
    · rfl
    · rw [hb] at h; simp [BinarySemaphore.acquire] at h
  case release f n =>
    have hf : f < s.forks.length := hr f (by simp [Instr.forks])
    rw [List.getElem?_eq_getElem hf] at h
    simp at h
  case table_lock n =>
    right; right; right
    refine ⟨n, rfl, ?_⟩
    split at h
    · assumption
    · cases h
  case table_unlock n => cases h
  case check l r ok fail =>
    have hl : l < s.forks.length := hr l (by simp [Instr.forks])
    have hr' : r < s.forks.length := hr r (by simp [Instr.forks])
    rw [List.getElem?_eq_getElem hl, List.getElem?_eq_getElem hr'] at h
    simp only at h
    split at h <;> cases h
  case set_available f b n =>
    have hf : f < s.forks.length := hr f (by simp [Instr.forks])
    rw [List.getElem?_eq_getElem hf] at h
    simp at h
  case eat n => cases h
  case sleep n => cases h
  case incr n => cases h
  case halt => left; rfl

theorem program_forks_lt {strat : Strategy} {N id : Nat} (hN : 2 ≤ N) (hid : id < N)
    (pc : PC) (f : Nat) (h : f ∈ (program strat N id pc).forks) : f < N := by
  have hr : right_fork N id < N := right_fork_lt (by omega) id
  have hl : left_fork id < N := hid
  have h2 : second_fork N id < N := second_fork_lt hN hid
  have h1 : first_fork N id < N := lt_trans (first_fork_lt_second hN hid) h2
  by_cases hpar : id % 2 = 0 <;> cases strat <;> cases pc <;>
    simp only [program, philosopher_mutex, philosopher_semaphore, philosopher_try_lock,
      philosopher_arbitrator, philosopher_resource_hierarchy, Instr.forks, hpar,
      if_true, if_false,
      List.mem_cons, List.mem_singleton, List.not_mem_nil, or_false] at h
  all_goals first
    | exact absurd h id
    | (rcases h with rfl | rfl <;> assumption)

/-- An agent that cannot step has returned, or waits for a fork that is taken,
or waits for the table guard. -/
theorem step_none_cases {strat : Strategy} {N : Nat} {it : Int} {v : Bool} {s : State}
    {id : Nat} {ag : Agent} (hN : 2 ≤ N) (hid : id < N) (hlen : s.forks.length = N)
    (hv : ValidPCs strat N s) (hag : s.agents[id]? = some ag)
    (h : step strat N it v s id = none) :
    ag.pc = .finished ∨
      (∃ f nx, program strat N id ag.pc = .lock f nx ∧ s.forks[f]? = some true) ∨
      (∃ f nx, program strat N id ag.pc = .acquire f nx ∧ s.forks[f]? = some false) ∨
      (∃ nx, program strat N id ag.pc = .table_lock nx ∧ s.table_mutex = true) := by
  unfold step at h
  rw [hag] at h
  simp only at h
  rcases exec_none h (fun f hf => by rw [hlen]; exact program_forks_lt hN hid _ f hf) with
    h1 | h1 | h1 | h1
  · rcases hv id ag hag with h2 | h2
    · exact absurd h1 h2
    · exact Or.inl h2
  · exact Or.inr (Or.inl h1)
  · exact Or.inr (Or.inr (Or.inl h1))
  · exact Or.inr (Or.inr (Or.inr h1))

theorem right_fork_eq (N id : Nat) (hid : id < N) :
    right_fork N id = if id + 1 = N then 0 else id + 1 := by
  unfold right_fork
  split
  · rename_i h; rw [h, Nat.mod_self]
  · exact Nat.mod_eq_of_lt (by omega)

theorem rank_lt {strat : Strategy} {N id : Nat}
    (hs : strat = .MUTEX ∨ strat = .RESOURCE_HIERARCHY) (hN : 2 ≤ N) (hid : id < N) :
    fork_rank strat N (acq_first strat N id) < fork_rank strat N (acq_second strat N id) := by
  rcases hs with rfl | rfl
  · simp only [fork_rank, acq_first, acq_second, left_fork, right_fork_eq N id hid]
    split_ifs <;> omega
  · simp only [fork_rank, acq_first, acq_second]
    exact first_fork_lt_second hN hid

theorem rank_le {strat : Strategy} {N id : Nat}
    (hs : strat = .MUTEX ∨ strat = .RESOURCE_HIERARCHY) (hN : 2 ≤ N) (hid : id < N) :
    fork_rank strat N (acq_second strat N id) ≤ N := by
  rcases hs with rfl | rfl
  · simp only [fork_rank]
    split_ifs <;> omega
  · simp only [fork_rank, acq_second]
    exact le_of_lt (second_fork_lt hN hid)

theorem acq_second_lt {strat : Strategy} {N id : Nat} (hN : 2 ≤ N) (hid : id < N) :
    acq_second strat N id < N := by
  have hr : right_fork N id < N := right_fork_lt (by omega) id
  have hl : left_fork id < N := hid
  have h2 : second_fork N id < N := second_fork_lt hN hid
  cases strat <;> simp only [acq_second] <;> try assumption
  split <;> assumption

/-- No infinite strictly increasing chain below a bound. -/
theorem chain_absurd {P : Nat → Prop} {r : Nat → Nat} {B : Nat} (hne : ∃ c, P c)
    (hB : ∀ c, P c → r c ≤ B) (hnext : ∀ c, P c → ∃ c', P c' ∧ r c < r c') : False := by
  have key : ∀ n, ∃ c, P c ∧ n ≤ r c := by
    intro n
    induction n with
    | zero =>
      obtain ⟨c, hc⟩ := hne
      exact ⟨c, hc, Nat.zero_le _⟩
    | succ n ih =>
      obtain ⟨c, hc, hn⟩ := ih
      obtain ⟨c', hc', hlt⟩ := hnext c hc
      exact ⟨c', hc', by omega⟩
  obtain ⟨c, hc, hn⟩ := key (B + 1)
  have := hB c hc
  omega

/-- Lock instructions of the two ordered routines. -/
theorem ordered_lock_shape {strat : Strategy} {N id : Nat} {pc : PC} {f : Nat} {nx : PC}
    (hs : strat = .MUTEX ∨ strat = .RESOURCE_HIERARCHY)
    (h : program strat N id pc = .lock f nx) :
    (pc = .lockFirst ∧ f = acq_first strat N id) ∨
      (pc = .lockSecond ∧ f = acq_second strat N id) := by
  rcases hs with rfl | rfl
  · by_cases hpar : id % 2 = 0 <;> cases pc <;>
      simp [program, philosopher_mutex, hpar, acq_first, acq_second] at h ⊢
    all_goals exact h.1.symm
  · cases pc <;>
      simp [program, philosopher_resource_hierarchy, acq_first, acq_second] at h ⊢
    all_goals exact h.1.symm

theorem ordered_no_other {strat : Strategy} {N id : Nat} {pc : PC}
    (hs : strat = .MUTEX ∨ strat = .RESOURCE_HIERARCHY) :
    (∀ f nx, program strat N id pc ≠ .acquire f nx) ∧
      (∀ nx, program strat N id pc ≠ .table_lock nx) := by
  rcases hs with rfl | rfl
  · by_cases hpar : id % 2 = 0 <;> cases pc <;>
      simp [program, philosopher_mutex, hpar]
  · cases pc <;> simp [program, philosopher_resource_hierarchy]

theorem ordered_held_shape {strat : Strategy} {N id : Nat} {pc : PC} {f : Nat}
    (hs : strat = .MUTEX ∨ strat = .RESOURCE_HIERARCHY)
    (hpc : pc = .finished ∨ pc = .lockFirst ∨ pc = .lockSecond)
    (h : f ∈ held strat N id pc) : pc = .lockSecond ∧ f = acq_first strat N id := by
  rcases hs with rfl | rfl
  · rcases hpc with rfl | rfl | rfl
    · simp [held] at h
    · simp [held] at h
    · refine ⟨rfl, ?_⟩
      simp only [held, acq_first] at h ⊢
      split at h <;> rename_i hp <;> simp only [hp, if_true, if_false] <;> simpa using h
  · rcases hpc with rfl | rfl | rfl
    · simp [held] at h
    · simp [held] at h
    · refine ⟨rfl, ?_⟩
      simpa [held, acq_first] using h

/-- Progress of the two ordered routines: while an agent is unfinished, some
agent can step. -/
theorem ordered_progress {strat : Strategy} {N : Nat} {it : Int} {v : Bool} {s : State}
    (hs : strat = .MUTEX ∨ strat = .RESOURCE_HIERARCHY) (hN : 2 ≤ N)
    (hinv : CoreInv strat N s) (hv : ValidPCs strat N s)
    (hun : ∃ a, a < N ∧ s.unfinished a) : ∃ b, b < N ∧ can_step strat N it v s b := by
  by_contra hcon
  have hall : ∀ b, b < N → step strat N it v s b = none := by
    intro b hb
    cases hst : step strat N it v s b
    · rfl
    · exact absurd ⟨b, hb, by simp [can_step, hst]⟩ hcon
  have hflag : initial_flag strat = false := by
    rcases hs with rfl | rfl <;> rfl
  -- every agent has returned or waits at one of its two lock statements
  have hstuck : ∀ b ag, b < N → s.agents[b]? = some ag →
      ag.pc = .finished ∨
      (ag.pc = .lockFirst ∧ s.forks[acq_first strat N b]? = some true) ∨
      (ag.pc = .lockSecond ∧ s.forks[acq_second strat N b]? = some true) := by
    intro b ag hb hag
    rcases step_none_cases hN hb hinv.len_forks hv hag (hall b hb) with
      h | ⟨f, nx, h1, h2⟩ | ⟨f, nx, h1, _⟩ | ⟨nx, h1⟩
    · exact Or.inl h
    · rcases ordered_lock_shape hs h1 with ⟨hp, hf⟩ | ⟨hp, hf⟩
      · exact Or.inr (Or.inl ⟨hp, hf ▸ h2⟩)
      · exact Or.inr (Or.inr ⟨hp, hf ▸ h2⟩)
    · exact absurd h1 ((ordered_no_other hs).1 f nx)
    · exact absurd h1.1 ((ordered_no_other hs).2 nx)
  -- a locked fork is the first fork of an agent waiting at its second lock
  have hholder : ∀ f, f < N → s.forks[f]? = some true →
      ∃ c ag, c < N ∧ s.agents[c]? = some ag ∧ ag.pc = .lockSecond ∧
        acq_first strat N c = f := by
    intro f hf hlocked
    have h1 : s.forks[f]? = some (!initial_flag strat) := by rw [hflag]; exact hlocked
    obtain ⟨c, ag, hag, hheld⟩ := (hinv.flag f hf).1 h1
    have hc : c < N := by
      rw [← hinv.len_agents]
      by_contra hcc
      rw [List.getElem?_eq_none (by omega)] at hag
      cases hag
    have hpc : ag.pc = .finished ∨ ag.pc = .lockFirst ∨ ag.pc = .lockSecond := by
      rcases hstuck c ag hc hag with h | h | h
      · exact Or.inl h
      · exact Or.inr (Or.inl h.1)
      · exact Or.inr (Or.inr h.1)
    obtain ⟨h2, h3⟩ := ordered_held_shape hs hpc hheld
    exact ⟨c, ag, hc, hag, h2, h3.symm⟩
  refine chain_absurd (P := fun c => c < N ∧ ∃ ag, s.agents[c]? = some ag ∧ ag.pc = .lockSecond)
    (r := fun c => fork_rank strat N (acq_second strat N c)) (B := N) ?_ ?_ ?_
  · obtain ⟨a, ha, ag, hag, hne⟩ := hun
    rcases hstuck a ag ha hag with h | ⟨_, h⟩ | ⟨h, _⟩
    · exact absurd h hne
    · have hlt : acq_first strat N a < N := by
        by_contra hcc
        rw [List.getElem?_eq_none (by rw [hinv.len_forks]; omega)] at h
        cases h
      obtain ⟨c, cg, hc, hcg, hpc, _⟩ := hholder _ hlt h
      exact ⟨c, hc, cg, hcg, hpc⟩
    · exact ⟨a, ha, ag, hag, h⟩
  · rintro c ⟨hc, _⟩
    exact rank_le hs hN hc
  · rintro c ⟨hc, ag, hag, hpc⟩
    rcases hstuck c ag hc hag with h | ⟨h, _⟩ | ⟨_, h⟩
    · rw [hpc] at h; cases h
    · rw [hpc] at h; cases h
    · obtain ⟨c', cg, hc', hcg, hpc', hf⟩ := hholder _ (acq_second_lt hN hc) h
      refine ⟨c', ⟨hc', cg, hcg, hpc'⟩, ?_⟩
      show fork_rank strat N (acq_second strat N c) < fork_rank strat N (acq_second strat N c')
      rw [← hf]
      exact rank_lt hs hN hc'

theorem try_lock_progress {N : Nat} {it : Int} {v : Bool} {s : State} {a : Nat}
    (hN : 2 ≤ N) (hinv : CoreInv .TRY_LOCK N s) (hv : ValidPCs .TRY_LOCK N s)
    (ha : a < N) (hun : s.unfinished a) : can_step .TRY_LOCK N it v s a := by
  obtain ⟨ag, hag, hne⟩ := hun
  unfold can_step
  cases hst : step .TRY_LOCK N it v s a
  · exfalso
    rcases step_none_cases hN ha hinv.len_forks hv hag hst with
      h | ⟨f, nx, h1, _⟩ | ⟨f, nx, h1, _⟩ | ⟨nx, h1, _⟩
    · exact hne h
    all_goals
      revert h1
      cases ag.pc <;> simp [program, philosopher_try_lock]
  · rfl

theorem arbitrator_progress {N : Nat} {it : Int} {v : Bool} {s : State}
    (hN : 2 ≤ N) (hinv : ArbInv N s) (hv : ValidPCs .ARBITRATOR N s)
    (hun : ∃ a, a < N ∧ s.unfinished a) :
    ∃ b, b < N ∧ can_step .ARBITRATOR N it v s b := by
  obtain ⟨a, ha, ag, hag, hne⟩ := hun
  cases hst : step .ARBITRATOR N it v s a
  · rcases step_none_cases hN ha hinv.core.len_forks hv hag hst with
      h | ⟨f, nx, h1, _⟩ | ⟨f, nx, h1, _⟩ | ⟨nx, _, htm⟩
    · exact absurd h hne
    · exfalso
      revert h1
      cases ag.pc <;> simp [program, philosopher_arbitrator]
    · exfalso
      revert h1
      cases ag.pc <;> simp [program, philosopher_arbitrator]
    · obtain ⟨b, bg, hbg, hin⟩ := hinv.guard_mutex.1 htm
      have hb : b < N := by
        rw [← hinv.core.len_agents]
        by_contra hcc
        rw [List.getElem?_eq_none (by omega)] at hbg
        cases hbg
      refine ⟨b, hb, ?_⟩
      unfold can_step
      cases hsb : step .ARBITRATOR N it v s b
      · exfalso
        rcases step_none_cases hN hb hinv.core.len_forks hv hbg hsb with
          h | ⟨f, nx, h1, _⟩ | ⟨f, nx, h1, _⟩ | ⟨nx, h1, _⟩
        · rw [h] at hin; cases hin
        all_goals
          revert h1 hin
          cases bg.pc <;> simp [program, philosopher_arbitrator, in_guard]
      · rfl
  · exact ⟨a, ha, by simp [can_step, hst]⟩

theorem run_reachable {strat : Strategy} {N : Nat} {it : Int} {v : Bool}
    (sched : List Nat) {s s' : State} (hs : Reachable strat N it v s)
    (h : run strat N it v sched s = some s') : Reachable strat N it v s' := by
  induction sched generalizing s with
  | nil =>
    simp only [run] at h
    cases h
    exact hs
  | cons id rest ih =>
    simp only [run] at h
    split at h
    · rename_i hid
      split at h
      · rename_i s1 hstep
        exact ih (Reachable.step hs hid hstep) h
      · cases h
    · cases h

theorem lockStep_init (N : Nat) : LockStep N 0 (init .SEMAPHORE N) := by
  refine ⟨by simp [init, start], by simp [init, start, static_forks], ?_, ?_⟩
  · intro a ha
    simp [init, start, List.getElem?_replicate, ha]
  · intro f hf
    simp [init, start, static_forks, List.getElem?_replicate, hf, initial_flag,
      BinarySemaphore.new]

theorem lockStep_next {N k : Nat} {it : Int} {v : Bool} {s : State} (hit : 1 ≤ it)
    (hk : k < N) (h : LockStep N k s) :
    ∃ s', run .SEMAPHORE N it v [k, k] s = some s' ∧ LockStep N (k + 1) s' := by
  obtain ⟨hla, hlf, hag, hfk⟩ := h
  have hagk := hag k hk
  simp only [lt_irrefl, if_false] at hagk
  have hfkk := hfk k hk
  simp only [le_refl, decide_True] at hfkk
  have hklen : k < s.agents.length := by omega
  have hlt : ((0 : Nat) : Int) < it := by omega
  have hrun : run .SEMAPHORE N it v [k, k] s = some
      ⟨(s.agents.set k ⟨.lockFirst, 0⟩).set k ⟨.lockSecond, 0⟩, s.forks.set k false,
        s.table_mutex,
        (k, .acquire k) :: trace_line v k 0 (.print_thinking (0 + 1)) s.history⟩ := by
    simp only [run, hk, if_true, step, hagk, program, philosopher_semaphore, exec, hlt,
      State.goto, List.getElem?_set_self hklen, left_fork, hfkk, BinarySemaphore.acquire]
  refine ⟨_, hrun, ?_⟩
  · refine ⟨by simp [hla], by simp [hlf], ?_, ?_⟩
    · intro a ha
      by_cases hak : a = k
      · subst hak
        simp [List.getElem?_set_self hklen]
      · simp only [List.set_set]
        rw [List.getElem?_set_ne (Ne.symm hak), hag a ha]
        have h1 : (a < k + 1) = (a < k) := by
          apply propext
          constructor <;> intro h <;> omega
        simp only [h1]
    · intro f hf
      by_cases hfk' : f = k
      · subst hfk'
        simp [List.getElem?_set_self (by omega : f < s.forks.length)]
      · simp only
        rw [List.getElem?_set_ne (Ne.symm hfk'), hfk f hf]
        congr 1
        simp only [decide_eq_decide]
        omega

theorem lockStep_reach {N : Nat} {it : Int} {v : Bool} (hit : 1 ≤ it) (k : Nat) (hk : k ≤ N) :
    ∃ s, Reachable .SEMAPHORE N it v s ∧ LockStep N k s := by
  induction k with
  | zero => exact ⟨_, Reachable.init, lockStep_init N⟩
  | succ k ih =>
    obtain ⟨s, hr, hl⟩ := ih (by omega)
    obtain ⟨s', hrun, hl'⟩ := lockStep_next (v := v) hit (by omega : k < N) hl
    exact ⟨s', run_reachable _ hr hrun, hl'⟩

/-- Circular wait of the semaphore routine: a reachable state where each agent
holds its left fork, waits for its right fork, and no agent can step. -/
theorem semaphore_circular_wait {N : Nat} {it : Int} {v : Bool} (hN : 2 ≤ N) (hit : 1 ≤ it) :
    ∃ s, Reachable .SEMAPHORE N it v s ∧
      (∀ a, a < N → s.holds a (left_fork a) ∧
        (∃ ag, s.agents[a]? = some ag ∧
          program .SEMAPHORE N a ag.pc = .acquire (right_fork N a) .eat) ∧
        s.forks[right_fork N a]? = some false ∧
        step .SEMAPHORE N it v s a = none) := by
  obtain ⟨s, hr, hla, hlf, hag, hfk⟩ := @lockStep_reach N it v hit N le_rfl
  refine ⟨s, hr, ?_⟩
  intro a ha
  have hinv := reachable_core hN hr
  have haa := hag a ha
  simp only [ha, if_true] at haa
  have hr' : right_fork N a < N := right_fork_lt (by omega) a
  have hfr := hfk _ hr'
  have hnot : ¬ N ≤ right_fork N a := by omega
  simp only [hnot, decide_False] at hfr
  refine ⟨?_, ⟨_, haa, rfl⟩, hfr, ?_⟩
  · exact (hinv.hist a _).2 ⟨_, haa, by simp [held]⟩
  · simp [step, haa, program, philosopher_semaphore, exec, hfr, BinarySemaphore.acquire]

theorem last_taken_cons_none (id : Nat) (op : Op) (h : List (Nat × Op)) (a : Nat)
    (h1 : op.takes = none) : last_taken ((id, op) :: h) a = last_taken h a := by
  simp [last_taken, h1]

theorem last_taken_cons_other (id : Nat) (op : Op) (h : List (Nat × Op)) (a : Nat)
    (h1 : a ≠ id) : last_taken ((id, op) :: h) a = last_taken h a := by
  simp only [last_taken]
  split
  · rw [if_neg (Ne.symm h1)]
  · rfl

theorem last_taken_cons_take (id : Nat) (op : Op) (h : List (Nat × Op)) (f : Nat)
    (h1 : op.takes = some f) : last_taken ((id, op) :: h) id = some f := by
  simp [last_taken, h1]

theorem last_taken_trace_line (verbose : Bool) (id i : Nat) (op : Op) (h : List (Nat × Op))
    (a : Nat) (h1 : op.takes = none) :
    last_taken (trace_line verbose id i op h) a = last_taken h a := by
  unfold trace_line
  split
  · exact last_taken_cons_none id op h a h1
  · rfl

theorem exec_last {it : Int} {v : Bool} {s s' : State} {id : Nat} {ag : Agent}
    {ins : Instr} (h : exec it v s id ag ins = some s') :
    ∃ pc' i', s'.agents = s.agents.set id ⟨pc', i'⟩ ∧
      (∀ a, a ≠ id → last_taken s'.history a = last_taken s.history a) ∧
      ((last_taken s'.history id = last_taken s.history id ∧ pc' ∈ ins.keep_targets) ∨
        (∃ f, ins.take_target = some (f, pc') ∧ last_taken s'.history id = some f)) := by
  cases ins <;> simp only [exec] at h
  case loop b e =>
    split at h <;> cases h
    · exact ⟨b, _, rfl, fun a _ => last_taken_trace_line _ _ _ _ _ _ rfl,
        Or.inl ⟨last_taken_trace_line _ _ _ _ _ _ rfl, by simp [Instr.keep_targets]⟩⟩
    · exact ⟨e, _, rfl, fun a _ => rfl, Or.inl ⟨rfl, by simp [Instr.keep_targets]⟩⟩
  case lock f n =>
    split at h <;> cases h
    exact ⟨n, _, rfl, fun a ha => last_taken_cons_other _ _ _ _ ha,
      Or.inr ⟨f, rfl, last_taken_cons_take _ _ _ f rfl⟩⟩
  case try_lock f ok fail =>
    split at h <;> cases h
    · exact ⟨ok, _, rfl, fun a ha => last_taken_cons_other _ _ _ _ ha,
        Or.inr ⟨f, rfl, last_taken_cons_take _ _ _ f rfl⟩⟩
    · exact ⟨fail, _, rfl, fun a ha => last_taken_cons_other _ _ _ _ ha,
        Or.inl ⟨last_taken_cons_none _ _ _ _ rfl, by simp [Instr.keep_targets]⟩⟩
  case unlock f n =>
    split at h <;> cases h
    exact ⟨n, _, rfl, fun a ha => last_taken_cons_other _ _ _ _ ha,
        Or.inl ⟨last_taken_cons_none _ _ _ _ rfl, by simp [Instr.keep_targets]⟩⟩
  case acquire f n =>
    split at h
    · split at h <;> cases h
      exact ⟨n, _, rfl, fun a ha => last_taken_cons_other _ _ _ _ ha,
        Or.inr ⟨f, rfl, last_taken_cons_take _ _ _ f rfl⟩⟩
    · cases h
  case release f n =>
    split at h <;> cases h
    exact ⟨n, _, rfl, fun a ha => last_taken_cons_other _ _ _ _ ha,
        Or.inl ⟨last_taken_cons_none _ _ _ _ rfl, by simp [Instr.keep_targets]⟩⟩
  case table_lock n =>
    split at h <;> cases h
    exact ⟨n, _, rfl, fun a ha => last_taken_cons_other _ _ _ _ ha,
        Or.inl ⟨last_taken_cons_none _ _ _ _ rfl, by simp [Instr.keep_targets]⟩⟩
  case table_unlock n =>
    cases h
    exact ⟨n, _, rfl, fun a ha => last_taken_cons_other _ _ _ _ ha,
        Or.inl ⟨last_taken_cons_none _ _ _ _ rfl, by simp [Instr.keep_targets]⟩⟩
  case check l r ok fail =>
    split at h
    · split at h <;> cases h
      · exact ⟨ok, _, rfl, fun a ha => last_taken_cons_other _ _ _ _ ha,
          Or.inl ⟨last_taken_cons_none _ _ _ _ rfl, by simp [Instr.keep_targets]⟩⟩
      · exact ⟨fail, _, rfl, fun a ha => last_taken_cons_other _ _ _ _ ha,
          Or.inl ⟨last_taken_cons_none _ _ _ _ rfl, by simp [Instr.keep_targets]⟩⟩
    · cases h
  case set_available f b n =>
    split at h <;> cases h
    cases b
    · exact ⟨n, _, rfl, fun a ha => last_taken_cons_other _ _ _ _ ha,
        Or.inr ⟨f, rfl, last_taken_cons_take _ _ _ f rfl⟩⟩
    · exact ⟨n, _, rfl, fun a ha => last_taken_cons_other _ _ _ _ ha,
        Or.inl ⟨last_taken_cons_none _ _ _ _ rfl, by simp [Instr.keep_targets]⟩⟩
  case eat n =>
    cases h
    exact ⟨n, _, rfl, fun a _ => last_taken_trace_line _ _ _ _ _ _ rfl,
        Or.inl ⟨last_taken_trace_line _ _ _ _ _ _ rfl, by simp [Instr.keep_targets]⟩⟩
  case sleep n =>
    cases h
    exact ⟨n, _, rfl, fun a _ => rfl, Or.inl ⟨rfl, by simp [Instr.keep_targets]⟩⟩
  case incr n =>
    cases h
    exact ⟨n, _, rfl, fun a _ => rfl, Or.inl ⟨rfl, by simp [Instr.keep_targets]⟩⟩
  case halt => cases h

theorem keep_into_eating {strat : Strategy} {N id : Nat} {pc pc' : PC}
    (hs : strat ≠ .ARBITRATOR) (h : pc' ∈ (program strat N id pc).keep_targets)
    (hp : pc' = .eat ∨ pc' = .unlockFirst) : pc = .eat ∨ pc = .unlockFirst := by
  by_cases hpar : id % 2 = 0 <;> cases strat <;> cases pc <;>
    simp only [program, philosopher_mutex, philosopher_semaphore, philosopher_try_lock,
      philosopher_arbitrator, philosopher_resource_hierarchy, Instr.keep_targets, hpar,
      if_true, if_false,
      List.mem_cons, List.mem_singleton, List.not_mem_nil, or_false] at h
  all_goals first
    | exact absurd rfl hs
    | exact absurd h id
    | exact Or.inl rfl
    | (rcases h with rfl | rfl <;> rcases hp with hp | hp <;> cases hp)

theorem take_into_eating {strat : Strategy} {N id : Nat} {pc pc' : PC} {f : Nat}
    (hs : strat ≠ .ARBITRATOR) (h : (program strat N id pc).take_target = some (f, pc'))
    (hp : pc' = .eat ∨ pc' = .unlockFirst) : f = acq_second strat N id := by
  by_cases hpar : id % 2 = 0 <;> cases strat <;> cases pc <;>
    simp only [program, philosopher_mutex, philosopher_semaphore, philosopher_try_lock,
      philosopher_arbitrator, philosopher_resource_hierarchy, Instr.take_target, hpar,
      if_true, if_false, Option.some.injEq, Prod.mk.injEq] at h
  all_goals first
    | exact absurd rfl hs
    | (obtain ⟨h1, h2⟩ := h
       subst h1
       subst h2
       rcases hp with hp | hp <;> cases hp <;> simp [acq_second, hpar])
    | cases h

theorem init_last (strat : Strategy) (N : Nat) : LastInv strat N (init strat N) := by
  intro a ag h hp
  rw [init_agent h] at hp
  rcases hp with hp | hp <;> cases hp

theorem last_step {strat : Strategy} {N : Nat} {it : Int} {v : Bool} {s s' : State}
    {id : Nat} (hs : strat ≠ .ARBITRATOR) (hl : LastInv strat N s)
    (hstep : step strat N it v s id = some s') : LastInv strat N s' := by
  unfold step at hstep
  split at hstep
  · rename_i ag hag
    obtain ⟨pc', i', hag', hoth, hme⟩ := exec_last hstep
    have hidlen : id < s.agents.length := by
      by_contra hc
      rw [List.getElem?_eq_none (by omega)] at hag
      cases hag
    intro a ag' ha hp
    rw [hag'] at ha
    by_cases hne : a = id
    · subst hne
      rw [List.getElem?_set_self hidlen] at ha
      cases ha
      rcases hme with ⟨h1, h2⟩ | ⟨f, h1, h2⟩
      · rw [h1]
        exact hl a ag hag (keep_into_eating hs h2 hp)
      · rw [h2, take_into_eating hs h1 hp]
    · rw [List.getElem?_set_ne (Ne.symm hne)] at ha
      rw [hoth a hne]
      exact hl a ag' ha hp
  · cases hstep

theorem reachable_last {strat : Strategy} {N : Nat} {it : Int} {v : Bool} {s : State}
    (hs : strat ≠ .ARBITRATOR) (h : Reachable strat N it v s) : LastInv strat N s := by
  induction h with
  | init => exact init_last strat N
  | step _ _ hstep ih => exact last_step hs ih hstep

/-- An agent with two distinct forks in its hands eats or is about to release. -/
theorem held_two {strat : Strategy} {N id : Nat} {pc : PC} {f g : Nat}
    (hs : strat ≠ .ARBITRATOR) (hfg : f ≠ g)
    (hf : f ∈ held strat N id pc) (hg : g ∈ held strat N id pc) :
    (pc = .eat ∨ pc = .unlockFirst) ∧
      ((f = acq_first strat N id ∧ g = acq_second strat N id) ∨
        (f = acq_second strat N id ∧ g = acq_first strat N id)) := by
  by_cases hpar : id % 2 = 0 <;> cases strat <;> cases pc <;>
    simp only [held, hpar, if_true, if_false, List.mem_cons, List.mem_singleton,
      List.not_mem_nil, or_false] at hf hg
  all_goals first
    | exact absurd rfl hs
    | exact absurd hf id
    | exact absurd (hf.trans hg.symm) hfg
    | (refine ⟨by simp, ?_⟩
       simp only [acq_first, acq_second, hpar, if_true, if_false]
       rcases hf with hf | hf <;> rcases hg with hg | hg
       · exact absurd (hf.trans hg.symm) hfg
       · first
          | exact Or.inl ⟨hf, hg⟩
          | exact Or.inr ⟨hf, hg⟩
       · first
          | exact Or.inl ⟨hf, hg⟩
          | exact Or.inr ⟨hf, hg⟩
       · exact absurd (hf.trans hg.symm) hfg)

/-- The step by which an agent that holds a fork stops holding it while it
eats or is about to release is the first release statement. -/
theorem first_release_shape {strat : Strategy} {N : Nat} {it : Int} {v : Bool}
    {s s' : State} {a : Nat} {ag : Agent} {f : Nat}
    (hs : strat ≠ .ARBITRATOR) (hag : s.agents[a]? = some ag)
    (hp : ag.pc = .eat ∨ ag.pc = .unlockFirst)
    (hstep : step strat N it v s a = some s')
    (h1 : s.holds a f) (h2 : ¬ s'.holds a f) : f = release_first strat N a := by
  obtain ⟨pc, i⟩ := ag
  unfold step at hstep
  rw [hag] at hstep
  simp only at hstep hp
  unfold State.holds at h1 h2
  rcases hp with rfl | rfl
  · exfalso
    apply h2
    cases strat <;>
      simp only [program, philosopher_mutex, philosopher_semaphore, philosopher_try_lock,
        philosopher_arbitrator, philosopher_resource_hierarchy, exec] at hstep <;>
      cases hstep <;>
      exact (holds_in_trace_line v a i (Op.print_eating (i + 1)) s.history rfl rfl a f).trans h1
  · cases strat <;>
      simp only [program, philosopher_mutex, philosopher_semaphore, philosopher_try_lock,
        philosopher_arbitrator, philosopher_resource_hierarchy, exec] at hstep
    case ARBITRATOR => exact absurd rfl hs
    all_goals
      split at hstep <;> cases hstep
      simp only [release_first]
      by_contra hne
      apply h2
      have hne' := Ne.symm hne
      simp [holds_in, Op.takes, Op.gives, h1, hne']

theorem mutex_contended_reachable : Reachable .MUTEX 2 1 false mutex_contended :=
  run_reachable [0, 0, 1] Reachable.init (by decide)

theorem lock_polarity {strat : Strategy} {N id : Nat} {pc : PC} {f : Nat} {nx : PC}
    (h : program strat N id pc = .lock f nx) : initial_flag strat = false := by
  cases strat
  · rfl
  · cases pc <;> simp [program, philosopher_semaphore] at h
  · rfl
  · cases pc <;> simp [program, philosopher_arbitrator] at h
  · rfl

theorem acquire_polarity {strat : Strategy} {N id : Nat} {pc : PC} {f : Nat} {nx : PC}
    (h : program strat N id pc = .acquire f nx) : initial_flag strat = true := by
  by_cases hpar : id % 2 = 0 <;> cases strat <;> cases pc <;>
    simp [program, philosopher_mutex, philosopher_try_lock, philosopher_arbitrator,
      philosopher_resource_hierarchy, hpar] at h <;> rfl

/-- An agent blocked on a fork that another agent holds cannot step. -/
theorem blocked_cannot_step {strat : Strategy} {N : Nat} {it : Int} {v : Bool} {s : State}
    {a f : Nat} (hN : 2 ≤ N) (ha : a < N) (hinv : CoreInv strat N s)
    (hb : blocked_on strat N s a f) : step strat N it v s a = none := by
  obtain ⟨ag, nx, hag, hprog, b, _, _, hhold⟩ := hb
  have hf : f < N := by
    rcases hprog with h | h
    · exact program_forks_lt hN ha ag.pc f (by rw [h]; simp [Instr.forks])
    · exact program_forks_lt hN ha ag.pc f (by rw [h]; simp [Instr.forks])
  have hflag := (hinv.flag f hf).2 ⟨b, (hinv.hist b f).1 hhold⟩
  unfold step
  rw [hag]
  rcases hprog with h | h
  · simp only [h, exec, hflag, lock_polarity h, Bool.not_false]
  · simp only [h, exec, hflag, acquire_polarity h, Bool.not_true, BinarySemaphore.acquire]
    rfl

theorem can_step_unfinished {strat : Strategy} {N : Nat} {it : Int} {v : Bool} {s : State}
    {a : Nat} (h : can_step strat N it v s a) : s.unfinished a := by
  unfold can_step step at h
  split at h
  · rename_i ag hag
    refine ⟨ag, hag, ?_⟩
    intro hp
    rw [hp] at h
    cases strat <;>
      simp [program, philosopher_mutex, philosopher_semaphore, philosopher_try_lock,
        philosopher_arbitrator, philosopher_resource_hierarchy, exec] at h
  · simp at h

theorem progress_no_wait_deadlock {strat : Strategy} {N : Nat} {it : Int} {v : Bool}
    {s : State} (hN : 2 ≤ N) (hinv : CoreInv strat N s)
    (hp : ∃ b, b < N ∧ can_step strat N it v s b) : ¬ WaitDeadlock strat N s := by
  rintro ⟨_, hall⟩
  obtain ⟨b, hb, hcan⟩ := hp
  obtain ⟨f, hf⟩ := hall b hb (can_step_unfinished hcan)
  have : step strat N it v s b = none := blocked_cannot_step hN hb hinv hf
  unfold can_step at hcan
  rw [this] at hcan
  cases hcan

theorem progress_no_deadlock {strat : Strategy} {N : Nat} {it : Int} {v : Bool}
    {s : State} (hp : ∃ b, b < N ∧ can_step strat N it v s b) :
    ¬ Deadlock strat N it v s := by
  rintro ⟨_, hall⟩
  obtain ⟨b, hb, hcan⟩ := hp
  exact hall b hb hcan

theorem not_deadlock_of_all_finished {strat : Strategy} {N : Nat} {it : Int} {v : Bool}
    {s : State} (h : ¬ ∃ a, a < N ∧ s.unfinished a) :
    ¬ WaitDeadlock strat N s ∧ ¬ Deadlock strat N it v s :=
  ⟨fun hw => h hw.1, fun hd => h hd.1⟩

/-- Mutex and ResourceHierarchy: no reachable state is a deadlock. -/
theorem ordered_deadlock_free {strat : Strategy} {N : Nat} {it : Int} {v : Bool} {s : State}
    (hs : strat = .MUTEX ∨ strat = .RESOURCE_HIERARCHY) (hN : 2 ≤ N)
    (hr : Reachable strat N it v s) :
    ¬ WaitDeadlock strat N s ∧ ¬ Deadlock strat N it v s := by
  have hinv := reachable_core hN hr
  by_cases hun : ∃ a, a < N ∧ s.unfinished a
  · have hp : ∃ b, b < N ∧ can_step strat N it v s b :=
      ordered_progress hs hN hinv (reachable_valid hr) hun
    exact ⟨progress_no_wait_deadlock hN hinv hp, progress_no_deadlock hp⟩
  · exact not_deadlock_of_all_finished hun

theorem semaphore_deadlocked_reachable :
    Reachable .SEMAPHORE 2 1 false semaphore_deadlocked :=
  run_reachable [0, 0, 1, 1] Reachable.init (by decide)

theorem hierarchy_closing_reachable :
    Reachable .RESOURCE_HIERARCHY 2 1 false hierarchy_closing :=
  run_reachable [1, 1] Reachable.init (by decide)

theorem arbitrator_guarded_reachable :
    Reachable .ARBITRATOR 2 1 false arbitrator_guarded :=
  run_reachable [0, 0, 1, 0] Reachable.init (by decide)

/-- From a state in which no agent can step, every non-empty schedule fails. -/
theorem run_stuck {strat : Strategy} {N : Nat} {it : Int} {v : Bool} {s : State}
    (h : ∀ a, a < N → step strat N it v s a = none) (id : Nat) (rest : List Nat) :
    run strat N it v (id :: rest) s = none := by
  simp only [run]
  split
  · rename_i hid
    rw [h id hid]
  · rfl

/-- Every strategy but Semaphore: while an agent is unfinished, some agent can
step. -/
theorem progress_except_semaphore {strat : Strategy} {N : Nat} {it : Int} {v : Bool}
    {s : State} (hs : strat ≠ .SEMAPHORE) (hN : 2 ≤ N) (hr : Reachable strat N it v s)
    (hun : ∃ a, a < N ∧ s.unfinished a) : ∃ b, b < N ∧ can_step strat N it v s b := by
  cases strat
  · exact ordered_progress (Or.inl rfl) hN (reachable_core hN hr) (reachable_valid hr) hun
  · exact absurd rfl hs
  · obtain ⟨a, ha, hu⟩ := hun
    exact ⟨a, ha, try_lock_progress hN (reachable_core hN hr) (reachable_valid hr) ha hu⟩
  · exact arbitrator_progress hN (reachable_arb hN hr) (reachable_valid hr) hun
  · exact ordered_progress (Or.inr rfl) hN (reachable_core hN hr) (reachable_valid hr) hun

/-- Fork indices stay inside the vector of any run that finds it with the size
it was constructed with. -/
theorem reachable_forks_length {strat : Strategy} {N : Nat} {it : Int} {v : Bool}
    {s : State} (hN : 2 ≤ N) (h : Reachable strat N it v s) : s.forks.length = N :=
  (reachable_core hN h).len_forks

/-- First release of a cycle: the fork released and the fork taken last. -/
theorem release_order {strat : Strategy} {N : Nat} {it : Int} {v : Bool}
    {s s' : State} {a f g : Nat} (hs : strat ≠ .ARBITRATOR) (hN : 2 ≤ N)
    (hr : Reachable strat N it v s) (hstep : step strat N it v s a = some s')
    (hfg : f ≠ g) (hf : s.holds a f) (hg : s.holds a g) (hf' : ¬ s'.holds a f) :
    f = release_first strat N a ∧
      last_taken s.history a = some (acq_second strat N a) ∧
      ((f = acq_first strat N a ∧ g = acq_second strat N a) ∨
        (f = acq_second strat N a ∧ g = acq_first strat N a)) := by
  have hinv := reachable_core hN hr
  obtain ⟨ag, hag, hfh⟩ := (hinv.hist a f).1 hf
  obtain ⟨ag', hag', hgh⟩ := (hinv.hist a g).1 hg
  rw [hag] at hag'
  cases hag'
  obtain ⟨hp, hsh⟩ := held_two hs hfg hfh hgh
  exact ⟨first_release_shape hs hag hp hstep hf hf', reachable_last hs hr a ag hag hp, hsh⟩

theorem mutex_releasing_reachable : Reachable .MUTEX 2 1 false mutex_releasing :=
  run_reachable [0, 0, 0, 0] Reachable.init (by decide)

theorem hierarchy_releasing_reachable :
    Reachable .RESOURCE_HIERARCHY 2 1 false hierarchy_releasing :=
  run_reachable [1, 1, 1, 1] Reachable.init (by decide)

theorem acq_first_ne_second {strat : Strategy} {N id : Nat}
    (hs : strat = .MUTEX ∨ strat = .RESOURCE_HIERARCHY) (hN : 2 ≤ N) (hid : id < N) :
    acq_first strat N id ≠ acq_second strat N id := by
  intro h
  have := rank_lt hs hN hid
  rw [h] at this
  exact lt_irrefl _ this

/-- Lock requests of the two ordered routines: the first fork is requested
with empty hands, the second while holding the first. -/
theorem request_order {strat : Strategy} {N : Nat} {it : Int} {v : Bool} {s : State}
    {a : Nat} {ag : Agent} {f : Nat} {nx : PC}
    (hs : strat = .MUTEX ∨ strat = .RESOURCE_HIERARCHY) (hN : 2 ≤ N)
    (hr : Reachable strat N it v s) (ha : a < N) (hag : s.agents[a]? = some ag)
    (hreq : program strat N a ag.pc = .lock f nx) :
    (f = acq_first strat N a ∧ ∀ g, ¬ s.holds a g) ∨
      (f = acq_second strat N a ∧ s.holds a (acq_first strat N a) ∧
        ¬ s.holds a (acq_second strat N a)) := by
  have hinv := reachable_core hN hr
  have hh : ∀ g, s.holds a g ↔ g ∈ held strat N a ag.pc := fun g =>
    (hinv.hist a g).trans (heldAt_self hag g)
  have hne := acq_first_ne_second hs hN ha
  rcases ordered_lock_shape hs hreq with ⟨hp, hf⟩ | ⟨hp, hf⟩
  · left
    refine ⟨hf, fun g hg => ?_⟩
    rw [hh, hp] at hg
    rcases hs with rfl | rfl <;> simp [held] at hg
  · right
    have hl : held strat N a .lockSecond = [acq_first strat N a] := by
      rcases hs with rfl | rfl
      · simp only [held, acq_first]
        split <;> rfl
      · rfl
    refine ⟨hf, ?_, ?_⟩
    · rw [hh, hp, hl]; simp
    · rw [hh, hp, hl]; simp [Ne.symm hne]

theorem exec_succ {it : Int} {v : Bool} {s s' : State} {id : Nat} {ag : Agent}
    {ins : Instr} (h : exec it v s id ag ins = some s') :
    ∃ ag', s'.agents = s.agents.set id ag' ∧
      (ag' = ins.forward it ag ∨ FailedStep s ag ins ag') := by
  cases ins <;> simp only [exec] at h
  case loop b e =>
    split at h <;> rename_i hlt <;> cases h
    · exact ⟨_, rfl, Or.inl (by simp [Instr.forward, hlt])⟩
    · exact ⟨_, rfl, Or.inl (by simp [Instr.forward, hlt])⟩
  case lock f n =>
    split at h <;> cases h
    exact ⟨_, rfl, Or.inl rfl⟩
  case try_lock f ok fail =>
    split at h
    · cases h
      exact ⟨_, rfl, Or.inl rfl⟩
    · rename_i hb
      cases h
      exact ⟨_, rfl, Or.inr (Or.inl ⟨f, ok, fail, rfl, hb, rfl⟩)⟩
    · cases h
  case unlock f n =>
    split at h <;> cases h
    exact ⟨_, rfl, Or.inl rfl⟩
  case acquire f n =>
    split at h
    · split at h <;> cases h
      exact ⟨_, rfl, Or.inl rfl⟩
    · cases h
  case release f n =>
    split at h <;> cases h
    exact ⟨_, rfl, Or.inl rfl⟩
  case table_lock n =>
    split at h <;> cases h
    exact ⟨_, rfl, Or.inl rfl⟩
  case table_unlock n =>
    cases h
    exact ⟨_, rfl, Or.inl rfl⟩
  case check l r ok fail =>
    split at h
    · rename_i bl br hl hr
      split at h
      · cases h
        exact ⟨_, rfl, Or.inl rfl⟩
      · rename_i hb
        cases h
        exact ⟨_, rfl, Or.inr (Or.inr ⟨l, r, ok, fail, bl, br, rfl, hl, hr, by simpa using hb, rfl⟩)⟩
    · cases h
  case set_available f b n =>
    split at h <;> cases h
    exact ⟨_, rfl, Or.inl rfl⟩
  case eat n =>
    cases h
    exact ⟨_, rfl, Or.inl rfl⟩
  case sleep n =>
    cases h
    exact ⟨_, rfl, Or.inl rfl⟩
  case incr n =>
    cases h
    exact ⟨_, rfl, Or.inl rfl⟩
  case halt => cases h

theorem forward_remaining (strat : Strategy) (N id : Nat) (it : Int) (pc : PC) (i : Nat)
    (hv : program strat N id pc ≠ .halt) :
    remaining it ((program strat N id pc).forward it ⟨pc, i⟩) < remaining it ⟨pc, i⟩ := by
  by_cases hpar : id % 2 = 0 <;> cases strat <;> cases pc <;>
    simp only [program, philosopher_mutex, philosopher_semaphore, philosopher_try_lock,
      philosopher_arbitrator, philosopher_resource_hierarchy, hpar, if_true, if_false,
      ne_eq, not_true_eq_false, Instr.forward, remaining, cycle_pos] at hv ⊢
  all_goals first
    | omega
    | exact absurd rfl hv
    | (split_ifs <;> (try simp only [remaining, cycle_pos]) <;> omega)

theorem sum_set_lt {α : Type} (f : α → Nat) (l : List α) (id : Nat) (x y : α)
    (hx : l[id]? = some x) (hlt : f y < f x) :
    ((l.set id y).map f).sum < (l.map f).sum := by
  induction l generalizing id with
  | nil => simp at hx
  | cons h t ih =>
    cases id with
    | zero =>
      simp only [List.getElem?_cons_zero, Option.some.injEq] at hx
      subst hx
      simp only [List.set_cons_zero, List.map_cons, List.sum_cons]
      omega
    | succ n =>
      simp only [List.getElem?_cons_succ] at hx
      simp only [List.set_cons_succ, List.map_cons, List.sum_cons]
      have := ih n hx
      omega

/-- A step that does not take a failing branch lowers the total. -/
theorem step_forward_decreases {strat : Strategy} {N : Nat} {it : Int} {v : Bool}
    {s s' : State} {id : Nat} {ag : Agent} (hag : s.agents[id]? = some ag)
    (hstep : step strat N it v s id = some s')
    (hnf : ∀ ag', ¬ FailedStep s ag (program strat N id ag.pc) ag') :
    s'.agents = s.agents.set id ((program strat N id ag.pc).forward it ag) ∧
      remaining it ((program strat N id ag.pc).forward it ag) < remaining it ag ∧
      total_remaining it s' < total_remaining it s := by
  unfold step at hstep
  rw [hag] at hstep
  simp only at hstep
  have hv : program strat N id ag.pc ≠ .halt := by
    intro h
    rw [h] at hstep
    simp [exec] at hstep
  obtain ⟨ag', hs', hfw | hfail⟩ := exec_succ hstep
  · subst hfw
    have hlt := forward_remaining strat N id it ag.pc ag.i hv
    refine ⟨hs', hlt, ?_⟩
    unfold total_remaining
    rw [hs']
    exact sum_set_lt _ _ _ _ _ hag hlt
  · exact absurd hfail (hnf ag')

theorem ordered_never_fails {strat : Strategy} {N id : Nat} {pc : PC} (s : State)
    (ag ag' : Agent) (hs : strat = .MUTEX ∨ strat = .RESOURCE_HIERARCHY) :
    ¬ FailedStep s ag (program strat N id pc) ag' := by
  rintro (⟨f, ok, fail, h, _⟩ | ⟨l, r, ok, fail, bl, br, h, _⟩) <;>
    rcases hs with rfl | rfl <;> revert h <;>
    by_cases hpar : id % 2 = 0 <;> cases pc <;>
    simp [program, philosopher_mutex, philosopher_resource_hierarchy, hpar]

theorem all_finished_of_none_unfinished {N : Nat} {s : State} (hlen : s.agents.length = N)
    (h : ¬ ∃ a, a < N ∧ s.unfinished a) : AllFinished N s := by
  intro a ha
  obtain ⟨ag, hag⟩ := agent_of_lt hlen ha
  refine ⟨ag, hag, ?_⟩
  by_contra hne
  exact h ⟨a, ha, ag, hag, hne⟩

/-- Mutex and ResourceHierarchy: from every reachable state some schedule
leads to a state in which every agent has returned. -/
theorem ordered_can_finish {strat : Strategy} {N : Nat} {it : Int} {v : Bool}
    (hs : strat = .MUTEX ∨ strat = .RESOURCE_HIERARCHY) (hN : 2 ≤ N) :
    ∀ n s, Reachable strat N it v s → total_remaining it s ≤ n →
      ∃ sched s', run strat N it v sched s = some s' ∧ AllFinished N s' := by
  intro n
  induction n with
  | zero =>
    intro s hr hn
    by_cases hun : ∃ a, a < N ∧ s.unfinished a
    · exfalso
      have hprog : ∃ b, b < N ∧ can_step strat N it v s b :=
        ordered_progress hs hN (reachable_core hN hr) (reachable_valid hr) hun
      obtain ⟨b, hb, hcan⟩ := hprog
      obtain ⟨ag, hag⟩ := agent_of_lt (reachable_core hN hr).len_agents hb
      unfold can_step at hcan
      cases hst : step strat N it v s b with
      | none => rw [hst] at hcan; cases hcan
      | some s1 =>
        have := (step_forward_decreases hag hst (fun ag' => ordered_never_fails s ag ag' hs)).2.2
        omega
    · exact ⟨[], s, rfl, all_finished_of_none_unfinished (reachable_core hN hr).len_agents hun⟩
  | succ n ih =>
    intro s hr hn
    by_cases hun : ∃ a, a < N ∧ s.unfinished a
    · have hprog : ∃ b, b < N ∧ can_step strat N it v s b :=
        ordered_progress hs hN (reachable_core hN hr) (reachable_valid hr) hun
      obtain ⟨b, hb, hcan⟩ := hprog
      obtain ⟨ag, hag⟩ := agent_of_lt (reachable_core hN hr).len_agents hb
      unfold can_step at hcan
      cases hst : step strat N it v s b with
      | none => rw [hst] at hcan; cases hcan
      | some s1 =>
        have hdec :=
          (step_forward_decreases hag hst (fun ag' => ordered_never_fails s ag ag' hs)).2.2
        obtain ⟨sched, s', hrun, hfin⟩ := ih s1 (Reachable.step hr hb hst) (by omega)
        refine ⟨b :: sched, s', ?_, hfin⟩
        simp only [run, hb, if_true, hst]
        exact hrun
    · exact ⟨[], s, rfl, all_finished_of_none_unfinished (reachable_core hN hr).len_agents hun⟩

theorem others_after {Q : Nat → Agent → Prop} {a : Nat} {s s' : State}
    (h : OthersSatisfy Q a s) (hs : ∀ b, b ≠ a → s'.agents[b]? = s.agents[b]?) :
    OthersSatisfy Q a s' := by
  intro b ag hb hag
  rw [hs b hb] at hag
  exact h b ag hb hag

/-- Running one agent alone until its local state satisfies `T`, given that
while it does not, the agent can step and a local bound decreases. -/
theorem drive {strat : Strategy} {N : Nat} {it : Int} {v : Bool} (a : Nat) (ha : a < N)
    (T : Agent → Prop) (d : Agent → Nat) (Q : Nat → Agent → Prop)
    (hstep : ∀ s ag, Reachable strat N it v s → OthersSatisfy Q a s →
      s.agents[a]? = some ag → ¬ T ag →
      ∃ s' ag', step strat N it v s a = some s' ∧ s'.agents = s.agents.set a ag' ∧
        d ag' < d ag) :
    ∀ n s ag, Reachable strat N it v s → OthersSatisfy Q a s →
      s.agents[a]? = some ag → d ag ≤ n →
      ∃ sched s' ag', run strat N it v sched s = some s' ∧ s'.agents[a]? = some ag' ∧
        T ag' ∧ ∀ b, b ≠ a → s'.agents[b]? = s.agents[b]? := by
  intro n
  induction n with
  | zero =>
    intro s ag hr hq hag hn
    by_cases hT : T ag
    · exact ⟨[], s, ag, rfl, hag, hT, fun _ _ => rfl⟩
    · obtain ⟨s', ag', _, _, hlt⟩ := hstep s ag hr hq hag hT
      omega
  | succ n ih =>
    intro s ag hr hq hag hn
    by_cases hT : T ag
    · exact ⟨[], s, ag, rfl, hag, hT, fun _ _ => rfl⟩
    · obtain ⟨s1, ag1, hst, hs1, hlt⟩ := hstep s ag hr hq hag hT
      have hidlen : a < s.agents.length := by
        by_contra hc
        rw [List.getElem?_eq_none (by omega)] at hag
        cases hag
      have hoth : ∀ b, b ≠ a → s1.agents[b]? = s.agents[b]? := by
        intro b hb
        rw [hs1, List.getElem?_set_ne (Ne.symm hb)]
      have hag1 : s1.agents[a]? = some ag1 := by
        rw [hs1, List.getElem?_set_self hidlen]
      obtain ⟨sched, s', ag', hrun, hag', hT', hoth'⟩ :=
        ih s1 ag1 (Reachable.step hr ha hst) (others_after hq hoth) hag1 (by omega)
      refine ⟨a :: sched, s', ag', ?_, hag', hT', ?_⟩
      · simp only [run, ha, if_true, hst]
        exact hrun
      · intro b hb
        rw [hoth' b hb, hoth b hb]

theorem run_append {strat : Strategy} {N : Nat} {it : Int} {v : Bool}
    (l1 l2 : List Nat) {s s1 s2 : State} (h1 : run strat N it v l1 s = some s1)
    (h2 : run strat N it v l2 s1 = some s2) : run strat N it v (l1 ++ l2) s = some s2 := by
  induction l1 generalizing s with
  | nil =>
    simp only [run] at h1
    cases h1
    exact h2
  | cons id rest ih =>
    simp only [run, List.cons_append] at h1 ⊢
    split at h1
    · rename_i hid
      split at h1
      · rename_i sx hst
        rw [if_pos hid]
        exact ih h1
      · cases h1
    · cases h1

theorem retry_no_block {strat : Strategy} {N id : Nat} {pc : PC}
    (hs : strat = .TRY_LOCK ∨ strat = .ARBITRATOR) :
    (∀ f nx, program strat N id pc ≠ .lock f nx) ∧
      (∀ f nx, program strat N id pc ≠ .acquire f nx) := by
  rcases hs with rfl | rfl <;> cases pc <;>
    simp [program, philosopher_try_lock, philosopher_arbitrator]

theorem table_lock_outside {strat : Strategy} {N id : Nat} {pc : PC} {nx : PC}
    (h : program strat N id pc = .table_lock nx) :
    strat = .ARBITRATOR ∧ in_guard pc = false := by
  by_cases hpar : id % 2 = 0 <;> cases strat <;> cases pc <;>
    simp [program, philosopher_mutex, philosopher_semaphore, philosopher_try_lock,
      philosopher_arbitrator, philosopher_resource_hierarchy, hpar, in_guard] at h ⊢

/-- TryLock and Arbitrator: an unfinished agent can step whenever no other
agent is inside a guarded section. -/
theorem retry_enabled {strat : Strategy} {N : Nat} {it : Int} {v : Bool} {s : State}
    {a : Nat} {ag : Agent} (hs : strat = .TRY_LOCK ∨ strat = .ARBITRATOR) (hN : 2 ≤ N)
    (ha : a < N) (hr : Reachable strat N it v s)
    (hq : OthersSatisfy (fun _ bg => in_guard bg.pc = false) a s)
    (hag : s.agents[a]? = some ag) (hne : ag.pc ≠ .finished) :
    ∃ s', step strat N it v s a = some s' := by
  cases hst : step strat N it v s a with
  | some s' => exact ⟨s', rfl⟩
  | none =>
    exfalso
    rcases step_none_cases hN ha (reachable_core hN hr).len_forks (reachable_valid hr) hag hst
      with h | ⟨f, nx, h1, _⟩ | ⟨f, nx, h1, _⟩ | ⟨nx, h1, htm⟩
    · exact hne h
    · exact (retry_no_block hs).1 f nx h1
    · exact (retry_no_block hs).2 f nx h1
    · obtain ⟨hsa, hout⟩ := table_lock_outside h1
      subst hsa
      obtain ⟨c, cg, hcg, hin⟩ := (reachable_arb hN hr).guard_mutex.1 htm
      by_cases hca : c = a
      · subst hca
        rw [hag] at hcg
        cases hcg
        rw [hout] at hin
        cases hin
      · have := hq c cg hca hcg
        simp only at this
        rw [this] at hin
        cases hin

theorem dist_decreases {strat : Strategy} {N a : Nat} {pc : PC} {i : Nat} {it : Int}
    {s : State} {ag' : Agent} (hs : strat = .TRY_LOCK ∨ strat = .ARBITRATOR)
    (hn : ¬ neutral strat N a pc) (hv : program strat N a pc ≠ .halt)
    (h : ag' = (program strat N a pc).forward it ⟨pc, i⟩ ∨
      FailedStep s ⟨pc, i⟩ (program strat N a pc) ag') :
    dist_neutral ag'.pc < dist_neutral pc := by
  rcases hs with rfl | rfl <;> cases pc <;>
    (try (exfalso; apply hn; constructor <;> rfl)) <;>
    (try (exact absurd rfl hv))
  all_goals
    simp only [program, philosopher_try_lock, philosopher_arbitrator, Instr.forward,
      FailedStep] at h
    rcases h with rfl | ⟨f, ok, fail, he, -, rfl⟩ | ⟨l, r, ok, fail, bl, br, he, -, -, -, rfl⟩
    · simp [dist_neutral]
    · cases he
      try simp [dist_neutral]
    · cases he
      try simp [dist_neutral]

theorem step_exec {strat : Strategy} {N : Nat} {it : Int} {v : Bool} {s s' : State}
    {a : Nat} {ag : Agent} (hag : s.agents[a]? = some ag)
    (hst : step strat N it v s a = some s') :
    exec it v s a ag (program strat N a ag.pc) = some s' ∧ program strat N a ag.pc ≠ .halt := by
  unfold step at hst
  rw [hag] at hst
  simp only at hst
  refine ⟨hst, ?_⟩
  intro h
  rw [h] at hst
  simp [exec] at hst

theorem quiesce_step {strat : Strategy} {N : Nat} {it : Int} {v : Bool} {s : State}
    {a : Nat} {ag : Agent} (hs : strat = .TRY_LOCK ∨ strat = .ARBITRATOR) (hN : 2 ≤ N)
    (ha : a < N) (hr : Reachable strat N it v s)
    (hq : OthersSatisfy (fun _ bg => in_guard bg.pc = false) a s)
    (hag : s.agents[a]? = some ag) (hn : ¬ neutral strat N a ag.pc) :
    ∃ s' ag', step strat N it v s a = some s' ∧ s'.agents = s.agents.set a ag' ∧
      dist_neutral ag'.pc < dist_neutral ag.pc := by
  have hne : ag.pc ≠ .finished := by
    intro h
    apply hn
    rw [h]
    rcases hs with rfl | rfl <;> exact ⟨rfl, rfl⟩
  obtain ⟨s', hst⟩ := retry_enabled hs hN ha hr hq hag hne
  obtain ⟨hex, hv⟩ := step_exec hag hst
  obtain ⟨ag', hs', hsucc⟩ := exec_succ hex
  exact ⟨s', ag', hst, hs', dist_decreases hs hn hv hsucc⟩

theorem solo_no_failure {strat : Strategy} {N : Nat} {it : Int} {v : Bool} {s : State}
    {a : Nat} {ag : Agent} (hs : strat = .TRY_LOCK ∨ strat = .ARBITRATOR) (hN : 2 ≤ N)
    (ha : a < N) (hr : Reachable strat N it v s)
    (hq : OthersSatisfy (fun b bg => neutral strat N b bg.pc) a s)
    (hag : s.agents[a]? = some ag) (ag' : Agent) :
    ¬ FailedStep s ag (program strat N a ag.pc) ag' := by
  have hinv := reachable_core hN hr
  have hlr := right_fork_ne_left hN ha
  -- a fork used by the failing test cannot be in anybody's hands
  have hfree : ∀ f, f ∈ (program strat N a ag.pc).forks → f ∉ held strat N a ag.pc →
      s.forks[f]? ≠ some (!initial_flag strat) := by
    intro f hf hnot htaken
    have hfN : f < N := program_forks_lt hN ha ag.pc f hf
    obtain ⟨c, cg, hcg, hheld⟩ := (hinv.flag f hfN).1 htaken
    by_cases hca : c = a
    · subst hca
      rw [hag] at hcg
      cases hcg
      exact hnot hheld
    · have := (hq c cg hca hcg).1
      rw [this] at hheld
      cases hheld
  rintro (⟨f, ok, fail, he, hb, _⟩ | ⟨l, r, ok, fail, bl, br, he, hl, hr', hb, _⟩)
  · have hst : strat = .TRY_LOCK := by
      rcases hs with rfl | rfl
      · rfl
      · exfalso
        revert he
        cases ag.pc <;> simp [program, philosopher_arbitrator]
    subst hst
    refine hfree f (by rw [he]; simp [Instr.forks]) ?_ hb
    revert he
    cases ag.pc <;> simp [program, philosopher_try_lock, held]
    · rintro rfl _ _
      exact fun h => hlr h
  · have hst : strat = .ARBITRATOR := by
      rcases hs with rfl | rfl
      · exfalso
        revert he
        cases ag.pc <;> simp [program, philosopher_try_lock]
      · rfl
    subst hst
    have hnl : l ∉ held .ARBITRATOR N a ag.pc ∧ r ∉ held .ARBITRATOR N a ag.pc := by
      revert he
      cases ag.pc <;> simp [program, philosopher_arbitrator, held]
    cases bl
    · exact hfree l (by rw [he]; simp [Instr.forks]) hnl.1 hl
    · cases br
      · exact hfree r (by rw [he]; simp [Instr.forks]) hnl.2 hr'
      · simp at hb

theorem solo_step {strat : Strategy} {N : Nat} {it : Int} {v : Bool} {s : State}
    {a : Nat} {ag : Agent} (hs : strat = .TRY_LOCK ∨ strat = .ARBITRATOR) (hN : 2 ≤ N)
    (ha : a < N) (hr : Reachable strat N it v s)
    (hq : OthersSatisfy (fun b bg => neutral strat N b bg.pc) a s)
    (hag : s.agents[a]? = some ag) (hne : ¬ ag.pc = .finished) :
    ∃ s' ag', step strat N it v s a = some s' ∧ s'.agents = s.agents.set a ag' ∧
      remaining it ag' < remaining it ag := by
  have hq' : OthersSatisfy (fun _ bg => in_guard bg.pc = false) a s :=
    fun b bg hb hbg => (hq b bg hb hbg).2
  obtain ⟨s', hst⟩ := retry_enabled hs hN ha hr hq' hag hne
  obtain ⟨h1, h2, _⟩ :=
    step_forward_decreases hag hst (fun ag' => solo_no_failure hs hN ha hr hq hag ag')
  exact ⟨s', _, hst, h1, h2⟩

theorem retry_guard_unique {strat : Strategy} {N : Nat} {it : Int} {v : Bool} {s : State}
    (hs : strat = .TRY_LOCK ∨ strat = .ARBITRATOR) (hN : 2 ≤ N)
    (hr : Reachable strat N it v s) (a b : Nat) (ha : InGuard s a) (hb : InGuard s b) :
    a = b := by
  rcases hs with rfl | rfl
  · exfalso
    obtain ⟨ag, hag, hin⟩ := ha
    rcases reachable_valid hr a ag hag with h | h
    · revert h hin
      cases ag.pc <;> simp [program, philosopher_try_lock, in_guard]
    · rw [h] at hin
      cases hin
  · exact (reachable_arb hN hr).guard_unique a b ha hb

/-- One agent is brought to a neutral program point; the others do not move. -/
theorem quiesce_one {strat : Strategy} {N : Nat} {it : Int} {v : Bool} {s : State}
    {a : Nat} (hs : strat = .TRY_LOCK ∨ strat = .ARBITRATOR) (hN : 2 ≤ N) (ha : a < N)
    (hr : Reachable strat N it v s)
    (hq : OthersSatisfy (fun _ bg => in_guard bg.pc = false) a s) :
    ∃ sched s' ag', run strat N it v sched s = some s' ∧ s'.agents[a]? = some ag' ∧
      neutral strat N a ag'.pc ∧ ∀ b, b ≠ a → s'.agents[b]? = s.agents[b]? := by
  obtain ⟨ag, hag⟩ := agent_of_lt (reachable_core hN hr).len_agents ha
  exact drive a ha (fun ag => neutral strat N a ag.pc) (fun ag => dist_neutral ag.pc)
    (fun _ bg => in_guard bg.pc = false)
    (fun s ag hr hq hag hn => quiesce_step hs hN ha hr hq hag hn)
    (dist_neutral ag.pc) s ag hr hq hag le_rfl

/-- One agent runs alone until it returns; the others, all neutral, do not
move. -/
theorem solo_run {strat : Strategy} {N : Nat} {it : Int} {v : Bool} {s : State}
    {a : Nat} (hs : strat = .TRY_LOCK ∨ strat = .ARBITRATOR) (hN : 2 ≤ N) (ha : a < N)
    (hr : Reachable strat N it v s)
    (hq : OthersSatisfy (fun b bg => neutral strat N b bg.pc) a s) :
    ∃ sched s' ag', run strat N it v sched s = some s' ∧ s'.agents[a]? = some ag' ∧
      ag'.pc = .finished ∧ ∀ b, b ≠ a → s'.agents[b]? = s.agents[b]? := by
  obtain ⟨ag, hag⟩ := agent_of_lt (reachable_core hN hr).len_agents ha
  exact drive a ha (fun ag => ag.pc = .finished) (remaining it)
    (fun b bg => neutral strat N b bg.pc)
    (fun s ag hr hq hag hn => solo_step hs hN ha hr hq hag hn)
    (remaining it ag) s ag hr hq hag le_rfl

theorem quiesce_all {strat : Strategy} {N : Nat} {it : Int} {v : Bool}
    (hs : strat = .TRY_LOCK ∨ strat = .ARBITRATOR) (hN : 2 ≤ N) {s : State}
    (hr : Reachable strat N it v s) (hg : NoGuard s) :
    ∀ k, k ≤ N → ∃ sched s', run strat N it v sched s = some s' ∧ NoGuard s' ∧
      ∀ (b : Nat) (ag : Agent), b < k → s'.agents[b]? = some ag → neutral strat N b ag.pc := by
  intro k
  induction k with
  | zero =>
    intro _
    exact ⟨[], s, rfl, hg, fun b ag hb => absurd hb (Nat.not_lt_zero b)⟩
  | succ k ih =>
    intro hk
    obtain ⟨l1, s1, hrun1, hg1, hn1⟩ := ih (by omega)
    have hr1 := run_reachable l1 hr hrun1
    obtain ⟨l2, s2, ag2, hrun2, hag2, hneu, hoth⟩ :=
      quiesce_one hs hN (by omega : k < N) hr1 (fun b bg _ hbg => hg1 b bg hbg)
    refine ⟨l1 ++ l2, s2, run_append l1 l2 hrun1 hrun2, ?_, ?_⟩
    · intro b bg hbg
      by_cases hbk : b = k
      · subst hbk
        rw [hag2] at hbg
        cases hbg
        exact hneu.2
      · rw [hoth b hbk] at hbg
        exact hg1 b bg hbg
    · intro b bg hb hbg
      by_cases hbk : b = k
      · subst hbk
        rw [hag2] at hbg
        cases hbg
        exact hneu
      · rw [hoth b hbk] at hbg
        exact hn1 b bg (by omega) hbg

theorem quiesce {strat : Strategy} {N : Nat} {it : Int} {v : Bool}
    (hs : strat = .TRY_LOCK ∨ strat = .ARBITRATOR) (hN : 2 ≤ N) {s : State}
    (hr : Reachable strat N it v s) :
    ∃ sched s', run strat N it v sched s = some s' ∧ AllNeutral strat N s' := by
  have hlen := (reachable_core hN hr).len_agents
  -- first empty the guarded section, if an agent is inside
  have hfirst : ∃ sched s', run strat N it v sched s = some s' ∧ NoGuard s' := by
    by_cases hex : ∃ g, InGuard s g
    · obtain ⟨g, hgin⟩ := hex
      have hgN : g < N := by
        obtain ⟨ag, hag, _⟩ := hgin
        rw [← hlen]
        by_contra hc
        rw [List.getElem?_eq_none (by omega)] at hag
        cases hag
      have hq : OthersSatisfy (fun _ bg => in_guard bg.pc = false) g s := by
        intro b bg hb hbg
        cases hin : in_guard bg.pc
        · rfl
        · exact absurd (retry_guard_unique hs hN hr b g ⟨bg, hbg, hin⟩ hgin) hb
      obtain ⟨l, s1, ag1, hrun, hag1, hneu, hoth⟩ := quiesce_one hs hN hgN hr hq
      refine ⟨l, s1, hrun, ?_⟩
      intro b bg hbg
      by_cases hbg' : b = g
      · subst hbg'
        rw [hag1] at hbg
        cases hbg
        exact hneu.2
      · rw [hoth b hbg'] at hbg
        exact hq b bg hbg' hbg
    · refine ⟨[], s, rfl, ?_⟩
      intro b bg hbg
      cases hin : in_guard bg.pc
      · rfl
      · exact absurd ⟨b, bg, hbg, hin⟩ hex
  obtain ⟨l1, s1, hrun1, hg1⟩ := hfirst
  have hr1 := run_reachable l1 hr hrun1
  obtain ⟨l2, s2, hrun2, _, hn2⟩ := quiesce_all hs hN hr1 hg1 N le_rfl
  have hr2 := run_reachable l2 hr1 hrun2
  refine ⟨l1 ++ l2, s2, run_append l1 l2 hrun1 hrun2, ?_⟩
  intro b bg hbg
  have hb : b < N := by
    rw [← (reachable_core hN hr2).len_agents]
    by_contra hc
    rw [List.getElem?_eq_none (by omega)] at hbg
    cases hbg
  exact hn2 b bg hb hbg

theorem finish_all {strat : Strategy} {N : Nat} {it : Int} {v : Bool}
    (hs : strat = .TRY_LOCK ∨ strat = .ARBITRATOR) (hN : 2 ≤ N) {s : State}
    (hr : Reachable strat N it v s) (hn : AllNeutral strat N s) :
    ∀ k, k ≤ N → ∃ sched s', run strat N it v sched s = some s' ∧ AllNeutral strat N s' ∧
      ∀ b, b < k → ∃ ag, s'.agents[b]? = some ag ∧ ag.pc = .finished := by
  have hfin : ∀ b, neutral strat N b .finished := by
    rcases hs with rfl | rfl <;> exact fun b => ⟨rfl, rfl⟩
  intro k
  induction k with
  | zero =>
    intro _
    exact ⟨[], s, rfl, hn, fun b hb => absurd hb (Nat.not_lt_zero b)⟩
  | succ k ih =>
    intro hk
    obtain ⟨l1, s1, hrun1, hn1, hf1⟩ := ih (by omega)
    have hr1 := run_reachable l1 hr hrun1
    obtain ⟨l2, s2, ag2, hrun2, hag2, hdone, hoth⟩ :=
      solo_run hs hN (by omega : k < N) hr1 (fun b bg _ hbg => hn1 b bg hbg)
    refine ⟨l1 ++ l2, s2, run_append l1 l2 hrun1 hrun2, ?_, ?_⟩
    · intro b bg hbg
      by_cases hbk : b = k
      · subst hbk
        rw [hag2] at hbg
        cases hbg
        rw [hdone]
        exact hfin b
      · rw [hoth b hbk] at hbg
        exact hn1 b bg hbg
    · intro b hb
      by_cases hbk : b = k
      · subst hbk
        exact ⟨ag2, hag2, hdone⟩
      · rw [hoth b hbk]
        exact hf1 b (by omega)

/-- TryLock and Arbitrator: from every reachable state some schedule leads to
a state in which every agent has returned. -/
theorem retry_can_finish {strat : Strategy} {N : Nat} {it : Int} {v : Bool}
    (hs : strat = .TRY_LOCK ∨ strat = .ARBITRATOR) (hN : 2 ≤ N) {s : State}
    (hr : Reachable strat N it v s) :
    ∃ sched s', run strat N it v sched s = some s' ∧ AllFinished N s' := by
  obtain ⟨l1, s1, hrun1, hn1⟩ := quiesce hs hN hr
  have hr1 := run_reachable l1 hr hrun1
  obtain ⟨l2, s2, hrun2, _, hf2⟩ := finish_all hs hN hr1 hn1 N le_rfl
  exact ⟨l1 ++ l2, s2, run_append l1 l2 hrun1 hrun2, hf2⟩

/-- Every strategy but Semaphore: from every reachable state some schedule
leads to a state in which every agent has returned. -/
theorem can_finish_except_semaphore {strat : Strategy} {N : Nat} {it : Int} {v : Bool}
    (hs : strat ≠ .SEMAPHORE) (hN : 2 ≤ N) {s : State} (hr : Reachable strat N it v s) :
    ∃ sched s', run strat N it v sched s = some s' ∧ AllFinished N s' := by
  cases strat
  · exact ordered_can_finish (Or.inl rfl) hN _ s hr le_rfl
  · exact absurd rfl hs
  · exact retry_can_finish (Or.inl rfl) hN hr
  · exact retry_can_finish (Or.inr rfl) hN hr
  · exact ordered_can_finish (Or.inr rfl) hN _ s hr le_rfl

theorem spawn_threads_eq (N : Int) (strat : Strategy) (it : Int) (v : Bool) :
    ∀ (k i : Nat), (N - i).toNat = k →
      spawn_threads N strat it v i =
        (List.range k).map (fun j => (⟨strat, ((i + j : Nat) : Int), it, v⟩ : Thread)) := by
  intro k
  induction k with
  | zero =>
    intro i h
    rw [spawn_threads]
    have : ¬ (i : Int) < N := by omega
    simp [this]
  | succ k ih =>
    intro i h
    rw [spawn_threads]
    have hlt : (i : Int) < N := by omega
    rw [if_pos hlt, ih (i + 1) (by omega), List.range_succ_eq_map]
    simp only [List.map_cons, List.map_map, Nat.add_zero]
    congr 1
    apply List.map_congr_left
    intro j _
    simp only [Function.comp]
    congr 2
    omega

theorem run_simulation_threads_eq (c : SimulationCall) :
    run_simulation_threads c =
      (List.range c.num_philosophers.toNat).map
        (fun (j : Nat) => (⟨c.strategy, (j : Int), c.iterations, c.verbose⟩ : Thread)) := by
  unfold run_simulation_threads
  rw [spawn_threads_eq c.num_philosophers c.strategy c.iterations c.verbose
    c.num_philosophers.toNat 0 (by simp)]
  apply List.map_congr_left
  intro j _
  simp

/-- A thread that has returned stays so. -/
theorem finished_stable {strat : Strategy} {N : Nat} {it : Int} {v : Bool} {s s' : State}
    {id j : Nat} {ag : Agent} (hag : s.agents[j]? = some ag) (hfin : ag.pc = .finished)
    (hstep : step strat N it v s id = some s') : s'.agents[j]? = some ag := by
  by_cases hij : id = j
  · subst hij
    exfalso
    have hcan : can_step strat N it v s id := by simp [can_step, hstep]
    obtain ⟨ag', hag', hne⟩ := can_step_unfinished hcan
    rw [hag] at hag'
    cases hag'
    exact hne hfin
  · unfold step at hstep
    split at hstep
    · obtain ⟨pc', i', hs', _⟩ := exec_targets hstep
      rw [hs', List.getElem?_set_ne hij]
      exact hag
    · cases hstep

/-- Coordinator invariant: the threads already joined have returned, and the
completion line is printed only after the last join. -/
theorem sim_reachable_joined {strat : Strategy} {N : Nat} {it : Int} {v : Bool}
    {s : State} {c : Coordinator} (h : SimReachable strat N it v s c) :
    (∀ j, j < c.joined → ∃ ag, s.agents[j]? = some ag ∧ ag.pc = .finished) ∧
      (c.reported = true → N ≤ c.joined) := by
  induction h with
  | init =>
    exact ⟨fun j hj => absurd hj (Nat.not_lt_zero j), fun h => by cases h⟩
  | agent _ _ hstep ih =>
    refine ⟨fun j hj => ?_, ih.2⟩
    obtain ⟨ag, hag, hfin⟩ := ih.1 j hj
    exact ⟨ag, finished_stable hag hfin hstep, hfin⟩
  | coordinator _ hco ih =>
    rename_i s c c' _
    unfold coordinator_step at hco
    split at hco
    · cases hco
    · split at hco
      · split at hco
        · rename_i ag hag
          split at hco
          · rename_i hfin
            cases hco
            refine ⟨fun j hj => ?_, ?_⟩
            · by_cases hjc : j = c.joined
              · subst hjc
                exact ⟨ag, hag, hfin⟩
              · exact ih.1 j (by simp only at hj; omega)
            · intro h
              have := ih.2 h
              simp only
              omega
          · cases hco
        · cases hco
      · rename_i hnot
        cases hco
        exact ⟨ih.1, fun _ => by simp only; omega⟩

/-- The simulation state in which the coordinator of an empty run has printed
the completion line at once. -/
theorem empty_run_reports (strat : Strategy) (it : Int) (v : Bool) :
    SimReachable strat 0 it v (init strat 0) ⟨0, true⟩ :=
  SimReachable.coordinator SimReachable.init rfl

theorem admitted_counts (max_philosophers : Int) :
    philosopher_counts.filter (fun count => ¬ (count > max_philosophers)) =
      if 20 ≤ max_philosophers then [5, 10, 20]
      else if 10 ≤ max_philosophers then [5, 10]
      else if 5 ≤ max_philosophers then [5]
      else [] := by
  unfold philosopher_counts
  by_cases h20 : 20 ≤ max_philosophers
  · have h1 : ¬ (5 > max_philosophers) := by omega
    have h2 : ¬ (10 > max_philosophers) := by omega
    have h3 : ¬ (20 > max_philosophers) := by omega
    simp [List.filter, h1, h2, h3, h20]
  · by_cases h10 : 10 ≤ max_philosophers
    · have h1 : ¬ (5 > max_philosophers) := by omega
      have h2 : ¬ (10 > max_philosophers) := by omega
      have h3 : 20 > max_philosophers := by omega
      simp [List.filter, h1, h2, h3, h20, h10]
    · by_cases h5 : 5 ≤ max_philosophers
      · have h1 : ¬ (5 > max_philosophers) := by omega
        have h2 : 10 > max_philosophers := by omega
        have h3 : 20 > max_philosophers := by omega
        simp [List.filter, h1, h2, h3, h20, h10, h5]
      · have h1 : 5 > max_philosophers := by omega
        have h2 : 10 > max_philosophers := by omega
        have h3 : 20 > max_philosophers := by omega
        simp [List.filter, h1, h2, h3, h20, h10, h5]

theorem agent_ops_append_self (a : Nat) (evs : List Op) (h : List (Nat × Op)) :
    agent_ops (evs.map (fun op => (a, op)) ++ h) a = evs ++ agent_ops h a := by
  induction evs with
  | nil => rfl
  | cons e es ih =>
    simp only [agent_ops, List.map_cons, List.cons_append, List.filter_cons, decide_True,
      if_true] at ih ⊢
    rw [ih]

theorem agent_ops_append_other {a b : Nat} (hne : b ≠ a) (evs : List Op)
    (h : List (Nat × Op)) :
    agent_ops (evs.map (fun op => (b, op)) ++ h) a = agent_ops h a := by
  induction evs with
  | nil => rfl
  | cons e es ih =>
    simp only [agent_ops, List.map_cons, List.cons_append, List.filter_cons] at ih ⊢
    rw [if_neg (by simpa using hne)]
    exact ih

theorem trace_line_eq (v : Bool) (id i : Nat) (op : Op) (h : List (Nat × Op)) :
    trace_line v id i op h = (trace_ops v i op).map (fun op => (id, op)) ++ h := by
  unfold trace_line trace_ops
  split <;> rfl

theorem exec_outcome {it : Int} {v : Bool} {s s' : State} {id : Nat} {ag : Agent}
    {ins : Instr} (h : exec it v s id ag ins = some s') :
    ∃ ag' evs, (ag', evs) ∈ ins.outcomes it v ag ∧ s'.agents = s.agents.set id ag' ∧
      s'.history = evs.map (fun op => (id, op)) ++ s.history := by
  cases ins <;> simp only [exec] at h
  case loop b e =>
    split at h <;> rename_i hlt <;> cases h
    · exact ⟨_, _, by simp only [Instr.outcomes, if_pos hlt, List.mem_singleton], rfl,
        trace_line_eq _ _ _ _ _⟩
    · exact ⟨_, [], by simp only [Instr.outcomes, if_neg hlt, List.mem_singleton], rfl, rfl⟩
  case lock f n =>
    split at h <;> cases h
    exact ⟨_, _, List.mem_singleton.2 rfl, rfl, rfl⟩
  case try_lock f ok fail =>
    split at h
    · cases h
      exact ⟨_, _, List.mem_cons_self _ _, rfl, rfl⟩
    · cases h
      exact ⟨_, _, List.mem_cons_of_mem _ (List.mem_singleton.2 rfl), rfl, rfl⟩
    · cases h
  case unlock f n =>
    split at h <;> cases h
    exact ⟨_, _, List.mem_singleton.2 rfl, rfl, rfl⟩
  case acquire f n =>
    split at h
    · split at h <;> cases h
      exact ⟨_, _, List.mem_singleton.2 rfl, rfl, rfl⟩
    · cases h
  case release f n =>
    split at h <;> cases h
    exact ⟨_, _, List.mem_singleton.2 rfl, rfl, rfl⟩
  case table_lock n =>
    split at h <;> cases h
    exact ⟨_, _, List.mem_singleton.2 rfl, rfl, rfl⟩
  case table_unlock n =>
    cases h
    exact ⟨_, _, List.mem_singleton.2 rfl, rfl, rfl⟩
  case check l r ok fail =>
    split at h
    · split at h
      · cases h
        exact ⟨_, _, List.mem_cons_self _ _, rfl, rfl⟩
      · cases h
        exact ⟨_, _, List.mem_cons_of_mem _ (List.mem_singleton.2 rfl), rfl, rfl⟩
    · cases h
  case set_available f b n =>
    split at h <;> cases h
    exact ⟨_, _, List.mem_singleton.2 rfl, rfl, rfl⟩
  case eat n =>
    cases h
    exact ⟨_, _, List.mem_singleton.2 rfl, rfl, trace_line_eq _ _ _ _ _⟩
  case sleep n =>
    cases h
    exact ⟨_, [], List.mem_singleton.2 rfl, rfl, rfl⟩
  case incr n =>
    cases h
    exact ⟨_, [], List.mem_singleton.2 rfl, rfl, rfl⟩
  case halt => cases h

theorem step_agent {strat : Strategy} {N : Nat} {it : Int} {v : Bool} {s s' : State}
    {id : Nat} (h : step strat N it v s id = some s') :
    ∃ ag, s.agents[id]? = some ag := by
  unfold step at h
  cases hag : s.agents[id]? with
  | none => rw [hag] at h; cases h
  | some ag => exact ⟨ag, rfl⟩

/-- Local reasoning: a property of the local state of an agent and of the
operations it has logged, established at the start and kept by every outcome
of every instruction of the routine, holds in every reachable state. -/
theorem agent_invariant {strat : Strategy} {N : Nat} {it : Int} {v : Bool}
    (I : Nat → Agent → List Op → Prop)
    (h0 : ∀ a, a < N → I a ⟨.loopHead, 0⟩ [])
    (hstep : ∀ a ag ops ag' evs, a < N → I a ag ops →
      (ag', evs) ∈ (program strat N a ag.pc).outcomes it v ag → I a ag' (evs ++ ops))
    {s : State} (hr : Reachable strat N it v s) :
    ∀ a ag, a < N → s.agents[a]? = some ag → I a ag (agent_ops s.history a) := by
  induction hr with
  | init =>
    intro a ag ha hag
    rw [init_agent hag]
    exact h0 a ha
  | step hr hid hst ih =>
    rename_i s s' id
    intro a ag ha hag
    obtain ⟨agid, hagid⟩ := step_agent hst
    obtain ⟨hex, _⟩ := step_exec hagid hst
    obtain ⟨ag', evs, hmem, hags, hhist⟩ := exec_outcome hex
    have hidlen : id < s.agents.length := by
      by_contra hc
      rw [List.getElem?_eq_none (by omega)] at hagid
      cases hagid
    by_cases hai : a = id
    · subst hai
      rw [hags, List.getElem?_set_self hidlen] at hag
      cases hag
      rw [hhist, agent_ops_append_self]
      exact hstep a agid _ _ _ ha (ih a agid ha hagid) hmem
    · rw [hags, List.getElem?_set_ne (Ne.symm hai)] at hag
      rw [hhist, agent_ops_append_other (Ne.symm hai)]
      exact ih a ag ha hag

theorem try_lock_contended_reachable : Reachable .TRY_LOCK 2 1 false try_lock_contended :=
  run_reachable [0, 0, 1, 1] Reachable.init (by decide)

theorem try_lock_ops {N : Nat} {it : Int} {v : Bool} {s : State}
    (hr : Reachable .TRY_LOCK N it v s) {a : Nat} {ag : Agent} (ha : a < N)
    (hag : s.agents[a]? = some ag) : TryLockOps N a ag (agent_ops s.history a) := by
  refine agent_invariant (fun a ag ops => TryLockOps N a ag ops) ?_ ?_ hr a ag ha hag
  · intro a _
    simp [TryLockOps]
  · intro a ag ops ag' evs _ hI hmem
    obtain ⟨pc, i⟩ := ag
    obtain ⟨h1, h2, h3, h4⟩ := hI
    cases pc <;> simp only [program, philosopher_try_lock, Instr.outcomes, List.mem_cons,
      List.mem_singleton, List.not_mem_nil, or_false, Prod.mk.injEq] at hmem
    case loopHead =>
      split at hmem <;> simp only [List.mem_singleton, Prod.mk.injEq] at hmem <;>
        obtain ⟨rfl, rfl⟩ := hmem <;> simp [TryLockOps]
    case lockFirst =>
      rcases hmem with ⟨rfl, rfl⟩ | ⟨rfl, rfl⟩ <;> simp [TryLockOps]
    case lockSecond =>
      obtain ⟨r, hr⟩ := h1 rfl
      rcases hmem with ⟨rfl, rfl⟩ | ⟨rfl, rfl⟩ <;> simp [TryLockOps, hr]
    case retryUnlock =>
      obtain ⟨r, hr⟩ := h2 rfl
      obtain ⟨rfl, rfl⟩ := hmem
      simp [TryLockOps, hr]
    case retrySleep =>
      obtain ⟨rfl, rfl⟩ := hmem
      simp [TryLockOps]
    case eat =>
      obtain ⟨rfl, rfl⟩ := hmem
      simp [TryLockOps]
    case unlockFirst =>
      obtain ⟨rfl, rfl⟩ := hmem
      simp [TryLockOps]
    case unlockSecond =>
      obtain ⟨rfl, rfl⟩ := hmem
      simp [TryLockOps]
    case loopIncr =>
      obtain ⟨rfl, rfl⟩ := hmem
      simp [TryLockOps]

theorem set_same {α : Type} (l : List α) (i : Nat) (x : α) (h : l[i]? = some x) :
    l.set i x = l := by
  apply List.ext_getElem?
  intro j
  by_cases hj : i = j
  · subst hj
    rw [List.getElem?_set_self', h]
    rfl
  · rw [List.getElem?_set_ne hj]

theorem agent_lt_length {s : State} {a : Nat} {ag : Agent} (hag : s.agents[a]? = some ag) :
    a < s.agents.length := by
  by_contra hc
  rw [List.getElem?_eq_none (by omega)] at hag
  cases hag

theorem not_held_of_empty {strat : Strategy} {N : Nat} {s : State} {a : Nat} {ag : Agent}
    (hinv : CoreInv strat N s) (hag : s.agents[a]? = some ag)
    (h : held strat N a ag.pc = []) (g : Nat) : ¬ s.holds a g := by
  intro hh
  have := ((hinv.hist a g).1 hh)
  rw [heldAt_self hag, h] at this
  cases this

theorem holds_of_held {strat : Strategy} {N : Nat} {s : State} {a : Nat} {ag : Agent}
    (hinv : CoreInv strat N s) (hag : s.agents[a]? = some ag) {g : Nat}
    (h : g ∈ held strat N a ag.pc) : s.holds a g :=
  (hinv.hist a g).2 ((heldAt_self hag g).2 h)

theorem locked_of_held {strat : Strategy} {N : Nat} {s : State} {a : Nat} {ag : Agent}
    (hinv : CoreInv strat N s) (hag : s.agents[a]? = some ag) {g : Nat}
    (h : g ∈ held strat N a ag.pc) (hg : g < N) :
    s.forks[g]? = some (!initial_flag strat) :=
  (hinv.flag g hg).2 ⟨a, (heldAt_self hag g).2 h⟩

theorem arbitrator_entered_reachable :
    Reachable .ARBITRATOR 2 1 false arbitrator_entered :=
  run_reachable [0, 0] Reachable.init (by decide)

theorem trace_ops_is_trace (v : Bool) (i : Nat) (op : Op) (h : op.is_trace = true) :
    ∀ e, e ∈ trace_ops v i op → e.is_trace = true := by
  intro e he
  unfold trace_ops at he
  split at he
  · rw [List.mem_singleton.1 he]
    exact h
  · cases he

theorem run_split {strat : Strategy} {N : Nat} {it : Int} {v : Bool} (l1 l2 : List Nat)
    {s s2 : State} (h : run strat N it v (l1 ++ l2) s = some s2) :
    ∃ s1, run strat N it v l1 s = some s1 ∧ run strat N it v l2 s1 = some s2 := by
  induction l1 generalizing s with
  | nil => exact ⟨s, rfl, h⟩
  | cons id rest ih =>
    simp only [List.cons_append, run] at h ⊢
    split at h
    · rename_i hid
      rw [if_pos hid]
      cases hst : step strat N it v s id with
      | none => rw [hst] at h; cases h
      | some s1 =>
        rw [hst] at h
        exact ih h
    · cases h

theorem pass_in_guard {granted : Bool} {j : Nat} (h : j < pass_length granted) :
    in_guard (pass_pc granted j) = true := by
  cases granted
  · have : j = 0 ∨ j = 1 := by simp [pass_length] at h; omega
    rcases this with rfl | rfl <;> rfl
  · have : j = 0 ∨ j = 1 ∨ j = 2 ∨ j = 3 := by simp [pass_length] at h; omega
    rcases this with rfl | rfl | rfl | rfl <;> rfl

/-- While an agent is inside the guarded section, a step of another agent
changes neither the table nor the guard and logs nothing but a trace line. -/
theorem other_step_in_pass {N : Nat} {it : Int} {v : Bool} {s s1 : State} {a b : Nat}
    (hN : 2 ≤ N) (hr : Reachable .ARBITRATOR N it v s) (hb : b < N) (hba : b ≠ a)
    (hg : InGuard s a) (hst : step .ARBITRATOR N it v s b = some s1) :
    s1.forks = s.forks ∧ s1.table_mutex = true ∧ s1.agents[a]? = s.agents[a]? ∧
      ∃ evs : List Op, s1.history = evs.map (fun op => (b, op)) ++ s.history ∧
        ∀ e, e ∈ evs → e.is_trace = true := by
  have hinv := reachable_arb hN hr
  have htm : s.table_mutex = true := hinv.guard_mutex.2 ⟨a, hg⟩
  obtain ⟨agb, hagb⟩ := step_agent hst
  obtain ⟨hex, _⟩ := step_exec hagb hst
  have hnb : in_guard agb.pc = false := by
    cases hin : in_guard agb.pc with
    | false => rfl
    | true => exact absurd (hinv.guard_unique b a ⟨agb, hagb, hin⟩ hg) hba
  obtain ⟨pc, i⟩ := agb
  simp only at hnb
  have hex' : exec it v s b ⟨pc, i⟩ (philosopher_arbitrator N b pc) = some s1 := hex
  obtain ⟨pc', i', hags, hf, htsame, henter, -, -, -⟩ := arb_step_shape hN hb hex'
  have hpc' : in_guard pc' = false := by
    cases hin : in_guard pc' with
    | false => rfl
    | true =>
      have := (henter hnb hin).1
      rw [htm] at this
      cases this
  refine ⟨hf hnb, ?_, ?_, ?_⟩
  · rw [htsame (by rw [hnb, hpc']), htm]
  · rw [hags, List.getElem?_set_ne hba]
  · obtain ⟨ag', evs, hmem, -, hhist⟩ := exec_outcome hex'
    refine ⟨evs, hhist, ?_⟩
    cases pc <;> simp only [in_guard] at hnb <;>
      simp only [philosopher_arbitrator, Instr.outcomes, List.mem_singleton,
        List.not_mem_nil, Prod.mk.injEq] at hmem
    case loopHead =>
      split at hmem <;> simp only [List.mem_singleton, Prod.mk.injEq] at hmem <;>
        obtain ⟨-, rfl⟩ := hmem
      · exact trace_ops_is_trace _ _ _ rfl
      · intro e he
        cases he
    case guardLock =>
      simp [philosopher_arbitrator, exec, htm] at hex'
    case returnLock =>
      simp [philosopher_arbitrator, exec, htm] at hex'
    case retrySleep =>
      obtain ⟨-, rfl⟩ := hmem
      intro e he
      cases he
    case eat =>
      obtain ⟨-, rfl⟩ := hmem
      exact trace_ops_is_trace _ _ _ rfl
    case loopIncr =>
      obtain ⟨-, rfl⟩ := hmem
      intro e he
      cases he
    all_goals cases hnb

/-- One step of the agent inside its pass: it is enabled, and leads to the next
program point and table of the pass. -/
theorem pass_step {N : Nat} {it : Int} {v : Bool} {s : State} {a i : Nat} {t : List Bool}
    {bl br : Bool} {j : Nat} (hN : 2 ≤ N) (ha : a < N)
    (hl : t[left_fork a]? = some bl) (hrt : t[right_fork N a]? = some br)
    (hj : j < pass_length (bl && br)) (hp : InPass N a i (bl && br) t j s) :
    ∃ s1, step .ARBITRATOR N it v s a = some s1 ∧ InPass N a i (bl && br) t (j + 1) s1 ∧
      (∃ op, s1.history = (a, op) :: s.history) ∧
      (j + 1 = pass_length (bl && br) → s1.table_mutex = false) ∧
      (j + 1 < pass_length (bl && br) → s1.table_mutex = s.table_mutex) := by
  obtain ⟨hag, hf⟩ := hp
  have hlen := agent_lt_length hag
  have hlr := right_fork_ne_left hN ha
  cases hg : (bl && br)
  · rw [hg] at hag hf hj
    have hj' : j = 0 ∨ j = 1 := by simp [pass_length] at hj; omega
    rcases hj' with rfl | rfl
    · simp only [pass_pc, pass_table] at hag hf
      refine ⟨{ s with agents := s.goto a ⟨.guardCheck, i⟩ .guardFail,
                       history := (a, .check (left_fork a) (right_fork N a) false) ::
                         s.history }, ?_, ⟨?_, ?_⟩, ⟨_, rfl⟩, ?_, ?_⟩
      · simp [step, hag, program, philosopher_arbitrator, exec, hf, hl, hrt, hg]
      · simp [State.goto, List.getElem?_set_self hlen, pass_pc]
      · simp [pass_table, hf]
      · simp [pass_length]
      · intro _; rfl
    · simp only [pass_pc, pass_table] at hag hf
      simp only [Bool.false_eq_true, if_false] at hag
      refine ⟨{ s with agents := s.goto a ⟨.guardFail, i⟩ .retrySleep,
                       table_mutex := false,
                       history := (a, .table_unlock) :: s.history }, ?_, ⟨?_, ?_⟩,
        ⟨_, rfl⟩, ?_, ?_⟩
      · simp [step, hag, program, philosopher_arbitrator, exec]
      · simp [State.goto, List.getElem?_set_self hlen, pass_pc]
      · simp [pass_table, hf]
      · intro _; rfl
      · simp [pass_length]
  · rw [hg] at hag hf hj
    have hj' : j = 0 ∨ j = 1 ∨ j = 2 ∨ j = 3 := by simp [pass_length] at hj; omega
    rcases hj' with rfl | rfl | rfl | rfl
    · simp only [pass_pc, pass_table] at hag hf
      refine ⟨{ s with agents := s.goto a ⟨.guardCheck, i⟩ .takeLeft,
                       history := (a, .check (left_fork a) (right_fork N a) true) ::
                         s.history }, ?_, ⟨?_, ?_⟩, ⟨_, rfl⟩, ?_, ?_⟩
      · simp [step, hag, program, philosopher_arbitrator, exec, hf, hl, hrt, hg]
      · simp [State.goto, List.getElem?_set_self hlen, pass_pc]
      · simp [pass_table, hf]
      · simp [pass_length]
      · intro _; rfl
    · simp only [pass_pc, pass_table, if_true] at hag hf
      refine ⟨{ s with agents := s.goto a ⟨.takeLeft, i⟩ .takeRight,
                       forks := s.forks.set (left_fork a) false,
                       history := (a, .set_available (left_fork a) false) ::
                         s.history }, ?_, ⟨?_, ?_⟩, ⟨_, rfl⟩, ?_, ?_⟩
      · simp [step, hag, program, philosopher_arbitrator, exec, hf, hl]
      · simp [State.goto, List.getElem?_set_self hlen, pass_pc]
      · simp [pass_table, hf]
      · simp [pass_length]
      · intro _; rfl
    · simp only [pass_pc, pass_table, if_true] at hag hf
      refine ⟨{ s with agents := s.goto a ⟨.takeRight, i⟩ .guardExit,
                       forks := s.forks.set (right_fork N a) false,
                       history := (a, .set_available (right_fork N a) false) ::
                         s.history }, ?_, ⟨?_, ?_⟩, ⟨_, rfl⟩, ?_, ?_⟩
      · simp [step, hag, program, philosopher_arbitrator, exec, hf,
          List.getElem?_set_ne (Ne.symm hlr), hrt]
      · simp [State.goto, List.getElem?_set_self hlen, pass_pc]
      · simp [pass_table, hf]
      · simp [pass_length]
      · intro _; rfl
    · simp only [pass_pc, pass_table, if_true] at hag hf
      refine ⟨{ s with agents := s.goto a ⟨.guardExit, i⟩ .eat,
                       table_mutex := false,
                       history := (a, .table_unlock) :: s.history }, ?_, ⟨?_, ?_⟩,
        ⟨_, rfl⟩, ?_, ?_⟩
      · simp [step, hag, program, philosopher_arbitrator, exec]
      · simp [State.goto, List.getElem?_set_self hlen, pass_pc]
      · simp [pass_table, hf]
      · intro _; rfl
      · simp [pass_length]

/-- Any interleaving of the steps of a pass with steps of the other agents. -/
theorem pass_run {N : Nat} {it : Int} {v : Bool} {a i : Nat} {t : List Bool}
    {bl br : Bool} (hN : 2 ≤ N) (ha : a < N)
    (hl : t[left_fork a]? = some bl) (hrt : t[right_fork N a]? = some br) :
    ∀ (sched : List Nat) (s s' : State) (j : Nat), Reachable .ARBITRATOR N it v s →
      InPass N a i (bl && br) t j s → j + sched.count a < pass_length (bl && br) →
      run .ARBITRATOR N it v sched s = some s' →
      Reachable .ARBITRATOR N it v s' ∧
      InPass N a i (bl && br) t (j + sched.count a) s' ∧
      ∃ evs, s'.history = evs ++ s.history ∧
        ∀ e, e ∈ evs → e.1 ≠ a → e.2.is_trace = true := by
  intro sched
  induction sched with
  | nil =>
    intro s s' j hr hp _ hrun
    cases hrun
    exact ⟨hr, hp, [], rfl, fun e he => by cases he⟩
  | cons id rest ih =>
    intro s s' j hr hp hj hrun
    simp only [run] at hrun
    split at hrun
    · rename_i hid
      cases hst : step .ARBITRATOR N it v s id with
      | none => rw [hst] at hrun; cases hrun
      | some s1 =>
        rw [hst] at hrun
        have hr1 := Reachable.step hr hid hst
        by_cases hia : id = a
        · subst hia
          simp only [List.count_cons_self] at hj ⊢
          obtain ⟨s1', hst', hp1, ⟨op, hh1⟩, -, -⟩ :=
            @pass_step N it v s id i t bl br j hN ha hl hrt (by omega) hp
          rw [hst] at hst'
          cases hst'
          obtain ⟨hr', hp', evs, hh', hev⟩ := ih s1 s' (j + 1) hr1 hp1 (by omega) hrun
          have hjj : j + (List.count id rest + 1) = j + 1 + List.count id rest := by omega
          refine ⟨hr', by rw [hjj]; exact hp', evs ++ [(id, op)], ?_, ?_⟩
          · rw [hh', hh1]
            simp
          · intro e he hne
            rcases List.mem_append.1 he with h | h
            · exact hev e h hne
            · rw [List.mem_singleton.1 h] at hne
              exact absurd rfl hne
        · have hcount : List.count a (id :: rest) = List.count a rest := by
            rw [List.count_cons_of_ne (fun h => hia h.symm)]
          rw [hcount] at hj ⊢
          have hg : InGuard s a := ⟨_, hp.1, pass_in_guard (by omega)⟩
          obtain ⟨hf1, -, hag1, evs1, hh1, hev1⟩ := other_step_in_pass hN hr hid hia hg hst
          have hp1 : InPass N a i (bl && br) t j s1 := ⟨by rw [hag1]; exact hp.1,
            by rw [hf1]; exact hp.2⟩
          obtain ⟨hr', hp', evs, hh', hev⟩ := ih s1 s' j hr1 hp1 hj hrun
          refine ⟨hr', hp', evs ++ evs1.map (fun op => (id, op)), ?_, ?_⟩
          · rw [hh', hh1]
            simp
          · intro e he hne
            rcases List.mem_append.1 he with h | h
            · exact hev e h hne
            · obtain ⟨op, hop, rfl⟩ := List.mem_map.1 h
              exact hev1 op hop
    · cases hrun

/-- The steps of a pass taken without interruption. -/
theorem pass_solo {N : Nat} {it : Int} {v : Bool} {a i : Nat} {t : List Bool}
    {bl br : Bool} (hN : 2 ≤ N) (ha : a < N)
    (hl : t[left_fork a]? = some bl) (hrt : t[right_fork N a]? = some br) :
    ∀ (n : Nat) (s : State) (j : Nat), InPass N a i (bl && br) t j s →
      j + n ≤ pass_length (bl && br) →
      ∃ s', run .ARBITRATOR N it v (List.replicate n a) s = some s' ∧
        InPass N a i (bl && br) t (j + n) s' := by
  intro n
  induction n with
  | zero =>
    intro s j hp _
    exact ⟨s, rfl, hp⟩
  | succ n ih =>
    intro s j hp hj
    obtain ⟨s1, hst, hp1, -, -, -⟩ :=
      @pass_step N it v s a i t bl br j hN ha hl hrt (by omega) hp
    obtain ⟨s', hrun, hp'⟩ := ih s1 (j + 1) hp1 (by omega)
    refine ⟨s', ?_, ?_⟩
    · simp only [List.replicate_succ, run, ha, if_true, hst]
      exact hrun
    · rw [show j + (n + 1) = j + 1 + n from by omega]
      exact hp'

theorem trace_lines_is_trace (n : Nat) : ∀ op, op ∈ trace_lines n → op.is_trace = true := by
  induction n with
  | zero => intro op h; cases h
  | succ n ih =>
    intro op h
    simp only [trace_lines, List.mem_cons] at h
    rcases h with rfl | rfl | h
    · rfl
    · rfl
    · exact ih op h

theorem semaphore_solo_step {N : Nat} {it : Int} {v : Bool} {s : State} {a : Nat}
    {ag : Agent} (hN : 2 ≤ N) (ha : a < N) (hr : Reachable .SEMAPHORE N it v s)
    (hq : OthersSatisfy (fun b bg => neutral .SEMAPHORE N b bg.pc) a s)
    (hag : s.agents[a]? = some ag) (hne : ¬ ag.pc = .finished) :
    ∃ s' ag', step .SEMAPHORE N it v s a = some s' ∧ s'.agents = s.agents.set a ag' ∧
      remaining it ag' < remaining it ag := by
  have hinv := reachable_core hN hr
  have hlr := right_fork_ne_left hN ha
  have hnf : ∀ ag', ¬ FailedStep s ag (program .SEMAPHORE N a ag.pc) ag' := by
    intro ag'
    rintro (⟨f, ok, fail, he, -, -⟩ | ⟨l, r, ok, fail, bl, br, he, -, -, -, -⟩) <;>
      (revert he; cases ag.pc <;> simp [program, philosopher_semaphore])
  cases hst : step .SEMAPHORE N it v s a with
  | some s' =>
    obtain ⟨h1, h2, _⟩ := step_forward_decreases hag hst hnf
    exact ⟨s', _, rfl, h1, h2⟩
  | none =>
    exfalso
    rcases step_none_cases hN ha hinv.len_forks (reachable_valid hr) hag hst with
      h | ⟨f, nx, h1, _⟩ | ⟨f, nx, h1, hf⟩ | ⟨nx, h1, _⟩
    · exact hne h
    · revert h1
      cases ag.pc <;> simp [program, philosopher_semaphore]
    · have hfN : f < N := program_forks_lt hN ha ag.pc f (by rw [h1]; simp [Instr.forks])
      obtain ⟨c, cg, hcg, hheld⟩ := (hinv.flag f hfN).1 hf
      by_cases hca : c = a
      · subst hca
        rw [hag] at hcg
        cases hcg
        revert h1 hheld
        cases ag.pc <;> simp [program, philosopher_semaphore, held]
        rintro rfl - h
        exact hlr h
      · have := (hq c cg hca hcg).1
        rw [this] at hheld
        cases hheld
    · revert h1
      cases ag.pc <;> simp [program, philosopher_semaphore]

theorem semaphore_solo_run {N : Nat} {it : Int} {v : Bool} {s : State}
    {a : Nat} (hN : 2 ≤ N) (ha : a < N) (hr : Reachable .SEMAPHORE N it v s)
    (hq : OthersSatisfy (fun b bg => neutral .SEMAPHORE N b bg.pc) a s) :
    ∃ sched s' ag', run .SEMAPHORE N it v sched s = some s' ∧ s'.agents[a]? = some ag' ∧
      ag'.pc = .finished ∧ ∀ b, b ≠ a → s'.agents[b]? = s.agents[b]? := by
  obtain ⟨ag, hag⟩ := agent_of_lt (reachable_core hN hr).len_agents ha
  exact drive a ha (fun ag => ag.pc = .finished) (remaining it)
    (fun b bg => neutral .SEMAPHORE N b bg.pc)
    (fun s ag hr hq hag hn => semaphore_solo_step hN ha hr hq hag hn)
    (remaining it ag) s ag hr hq hag le_rfl

theorem finish_all_of_solo {strat : Strategy} {N : Nat} {it : Int} {v : Bool}
    (hsolo : ∀ (s : State) (a : Nat), a < N → Reachable strat N it v s →
      OthersSatisfy (fun b bg => neutral strat N b bg.pc) a s →
      ∃ sched s' ag', run strat N it v sched s = some s' ∧ s'.agents[a]? = some ag' ∧
        ag'.pc = .finished ∧ ∀ b, b ≠ a → s'.agents[b]? = s.agents[b]?)
    {s : State} (hr : Reachable strat N it v s) (hn : AllNeutral strat N s) :
    ∀ k, k ≤ N → ∃ sched s', run strat N it v sched s = some s' ∧ AllNeutral strat N s' ∧
      ∀ b, b < k → ∃ ag, s'.agents[b]? = some ag ∧ ag.pc = .finished := by
  have hfin : ∀ b, neutral strat N b .finished := by
    cases strat <;> exact fun b => ⟨rfl, rfl⟩
  intro k
  induction k with
  | zero =>
    intro _
    exact ⟨[], s, rfl, hn, fun b hb => absurd hb (Nat.not_lt_zero b)⟩
  | succ k ih =>
    intro hk
    obtain ⟨l1, s1, hrun1, hn1, hf1⟩ := ih (by omega)
    have hr1 := run_reachable l1 hr hrun1
    obtain ⟨l2, s2, ag2, hrun2, hag2, hdone, hoth⟩ :=
      hsolo s1 k (by omega) hr1 (fun b bg _ hbg => hn1 b bg hbg)
    refine ⟨l1 ++ l2, s2, run_append l1 l2 hrun1 hrun2, ?_, ?_⟩
    · intro b bg hbg
      by_cases hbk : b = k
      · subst hbk
        rw [hag2] at hbg
        cases hbg
        rw [hdone]
        exact hfin b
      · rw [hoth b hbk] at hbg
        exact hn1 b bg hbg
    · intro b hb
      by_cases hbk : b = k
      · subst hbk
        exact ⟨ag2, hag2, hdone⟩
      · rw [hoth b hbk]
        exact hf1 b (by omega)

theorem init_all_neutral (strat : Strategy) (N : Nat) : AllNeutral strat N (init strat N) := by
  intro b ag hag
  rw [init_agent hag]
  cases strat <;> exact ⟨rfl, rfl⟩

/-- Every strategy: some schedule takes the run from its start to the state in
which every agent has returned. -/
theorem init_can_finish (strat : Strategy) {N : Nat} (it : Int) (v : Bool) (hN : 2 ≤ N) :
    ∃ sched s', run strat N it v sched (init strat N) = some s' ∧ AllFinished N s' := by
  by_cases hs : strat = .SEMAPHORE
  · subst hs
    obtain ⟨sched, s', hrun, -, hf⟩ :=
      finish_all_of_solo (fun s a ha hr hq => semaphore_solo_run hN ha hr hq)
        Reachable.init (init_all_neutral .SEMAPHORE N) N le_rfl
    exact ⟨sched, s', hrun, hf⟩
  · exact can_finish_except_semaphore hs hN Reachable.init

theorem held_finished (strat : Strategy) (N a : Nat) : held strat N a .finished = [] := by
  cases strat <;> rfl

theorem mutex_eating_reachable : Reachable .MUTEX 2 1 false mutex_eating :=
  run_reachable [0, 0, 0] Reachable.init (by decide)

theorem mutex_completed_reachable : Reachable .MUTEX 2 1 false mutex_completed :=
  run_reachable [0, 0, 0, 0, 0, 0, 0, 0, 1, 1, 1, 1, 1, 1, 1, 1] Reachable.init (by decide)

theorem hierarchy_forks_min_max {N id : Nat} (hN : 1 ≤ N) (hid : id < N) :
    hierarchy_forks N id = min_max_forks N id ∧
      hierarchy_forks N id = hierarchy_forks_plain N id := by
  have hr := right_fork_eq N id hid
  unfold hierarchy_forks hierarchy_forks_plain min_max_forks left_fork
  unfold right_fork at hr ⊢
  rw [hr]
  by_cases h : id = N - 1
  · have h1 : id + 1 = N := by omega
    simp only [h, h1, if_true]
    have h2 : N - 1 + 1 = N := by omega
    simp only [h2, if_true]
    by_cases h0 : N - 1 = 0
    · simp [h0]
    · have : ¬ (0 > N - 1) := by omega
      have h3 : N - 1 > 0 := by omega
      simp [this, h3]
  · have h1 : ¬ id + 1 = N := by omega
    have h2 : ¬ id > id + 1 := by omega
    simp [h, h1]

theorem held_eat_forks {strat : Strategy} {N a : Nat} (hN : 2 ≤ N) (ha : a < N) :
    left_fork a ∈ held strat N a .eat ∧ right_fork N a ∈ held strat N a .eat := by
  cases strat
  case RESOURCE_HIERARCHY =>
    have h := (hierarchy_forks_min_max (by omega : 1 ≤ N) ha).1
    have hlr := right_fork_ne_left hN ha
    simp only [held, first_fork, second_fork, h, min_max_forks, List.mem_cons,
      List.mem_singleton, List.not_mem_nil, or_false]
    rcases Nat.lt_or_gt_of_ne hlr with hlt | hgt
    · rw [Nat.min_eq_right (le_of_lt hlt), Nat.max_eq_left (le_of_lt hlt)]
      exact ⟨Or.inr rfl, Or.inl rfl⟩
    · rw [Nat.min_eq_left (le_of_lt hgt), Nat.max_eq_right (le_of_lt hgt)]
      exact ⟨Or.inl rfl, Or.inr rfl⟩
  all_goals simp [held]

theorem eating_held {strat : Strategy} {N : Nat} {s : State} {a : Nat} (hN : 2 ≤ N)
    (ha : a < N) (h : s.eating a = true) :
    HeldAt strat N s a (left_fork a) ∧ HeldAt strat N s a (right_fork N a) := by
  unfold State.eating at h
  cases hag : s.agents[a]? with
  | none => rw [hag] at h; cases h
  | some ag =>
    rw [hag] at h
    have hpc : ag.pc = .eat := by simpa using h
    obtain ⟨h1, h2⟩ := @held_eat_forks strat N a hN ha
    rw [← hpc] at h1 h2
    exact ⟨⟨ag, hag, h1⟩, ⟨ag, hag, h2⟩⟩

theorem eaters_bound {strat : Strategy} {N : Nat} {s : State} (hN : 2 ≤ N)
    (hinv : CoreInv strat N s) :
    2 * ((List.range N).filter (fun a => s.eating a)).length ≤ N := by
  have hmem : ∀ a, a ∈ (List.range N).filter (fun a => s.eating a) →
      a < N ∧ s.eating a = true := by
    intro a h
    obtain ⟨h1, h2⟩ := List.mem_filter.1 h
    exact ⟨List.mem_range.1 h1, h2⟩
  have hnd : ((List.range N).filter (fun a => s.eating a)).Nodup :=
    (List.nodup_range N).filter _
  have hnd2 : (((List.range N).filter (fun a => s.eating a)).map
      (fun a => right_fork N a)).Nodup := by
    refine List.Nodup.map_on ?_ hnd
    intro x hx y hy hxy
    obtain ⟨hxN, hxe⟩ := hmem x hx
    obtain ⟨hyN, hye⟩ := hmem y hy
    have h1 := (@eating_held strat N s x hN hxN hxe).2
    have h2 := (@eating_held strat N s y hN hyN hye).2
    rw [← hxy] at h2
    exact hinv.excl x y _ h1 h2
  have hdis : List.Disjoint ((List.range N).filter (fun a => s.eating a))
      (((List.range N).filter (fun a => s.eating a)).map (fun a => right_fork N a)) := by
    intro x hx hx'
    obtain ⟨y, hy, hyx⟩ := List.mem_map.1 hx'
    obtain ⟨hxN, hxe⟩ := hmem x hx
    obtain ⟨hyN, hye⟩ := hmem y hy
    have h1 := (@eating_held strat N s x hN hxN hxe).1
    have h2 := (@eating_held strat N s y hN hyN hye).2
    rw [hyx] at h2
    have hxy : x = y := hinv.excl x y _ h1 h2
    rw [← hxy] at hyx
    exact right_fork_ne_left hN hxN hyx
  have hall : ((List.range N).filter (fun a => s.eating a) ++
      ((List.range N).filter (fun a => s.eating a)).map (fun a => right_fork N a)) ⊆
      List.range N := by
    intro x hx
    rcases List.mem_append.1 hx with h | h
    · exact List.mem_range.2 (hmem x h).1
    · obtain ⟨y, _, hyx⟩ := List.mem_map.1 h
      rw [← hyx]
      exact List.mem_range.2 (right_fork_lt (by omega) y)
  have hlen := (List.subperm_of_subset (List.nodup_append.2 ⟨hnd, hnd2, hdis⟩) hall).length_le
  simp only [List.length_append, List.length_map, List.length_range] at hlen
  omega

theorem agent_ops_strip (h : List (Nat × Op)) (a : Nat) :
    agent_ops (h.filter (fun e => !e.2.is_trace)) a =
      (agent_ops h a).filter (fun op => !op.is_trace) := by
  unfold agent_ops
  rw [List.filter_map, List.filter_filter, List.filter_filter]
  congr 1
  apply List.filter_congr
  intro x _
  simp [Bool.and_comm]

theorem trace_line_false (id i : Nat) (op : Op) (h : List (Nat × Op)) :
    trace_line false id i op h = h := rfl

theorem trace_line_strip (v : Bool) (id i : Nat) (op : Op) (h : List (Nat × Op))
    (hop : op.is_trace = true) :
    (trace_line v id i op h).filter (fun e => !e.2.is_trace) =
      h.filter (fun e => !e.2.is_trace) := by
  unfold trace_line
  split
  · simp [List.filter_cons, hop]
  · rfl

theorem exec_strip (it : Int) (v : Bool) (s : State) (id : Nat) (ag : Agent) (ins : Instr) :
    (exec it v s id ag ins).map State.strip = exec it false s.strip id ag ins := by
  cases ins <;> simp only [exec, State.strip, State.goto]
  case loop b e =>
    split
    · simp only [Option.map_some', trace_line_false, State.strip]
      rw [trace_line_strip v id ag.i (Op.print_thinking (ag.i + 1)) s.history rfl]
    · simp [State.strip]
  case lock f n =>
    split <;> simp [State.strip, List.filter_cons, Op.is_trace]
  case try_lock f ok fail =>
    split <;> simp [State.strip, List.filter_cons, Op.is_trace]
  case unlock f n =>
    split <;> simp [State.strip, List.filter_cons, Op.is_trace]
  case acquire f n =>
    split
    · split <;> simp [State.strip, List.filter_cons, Op.is_trace]
    · simp
  case release f n =>
    split <;> simp [State.strip, List.filter_cons, Op.is_trace]
  case table_lock n =>
    split <;> simp [State.strip, List.filter_cons, Op.is_trace]
  case table_unlock n =>
    simp [State.strip, List.filter_cons, Op.is_trace]
  case check l r ok fail =>
    split
    · split <;> simp [State.strip, List.filter_cons, Op.is_trace]
    · simp
  case set_available f b n =>
    split <;> simp [State.strip, List.filter_cons, Op.is_trace]
  case eat n =>
    simp only [Option.map_some', trace_line_false, State.strip]
    rw [trace_line_strip v id ag.i (Op.print_eating (ag.i + 1)) s.history rfl]
  case sleep n =>
    simp [State.strip]
  case incr n =>
    simp [State.strip]
  case halt =>
    simp

theorem step_strip (strat : Strategy) (N : Nat) (it : Int) (v : Bool) (s : State) (id : Nat) :
    (step strat N it v s id).map State.strip = step strat N it false s.strip id := by
  unfold step
  have : s.strip.agents = s.agents := rfl
  rw [this]
  cases s.agents[id]? with
  | none => rfl
  | some ag => exact exec_strip it v s id ag _

theorem run_strip (strat : Strategy) (N : Nat) (it : Int) (v : Bool) (sched : List Nat) :
    ∀ s, (run strat N it v sched s).map State.strip = run strat N it false sched s.strip := by
  induction sched with
  | nil => intro s; rfl
  | cons id rest ih =>
    intro s
    simp only [run]
    split
    · have h := step_strip strat N it v s id
      cases hst : step strat N it v s id with
      | none =>
        rw [hst] at h
        simp only [Option.map_none'] at h
        rw [← h]
        rfl
      | some s1 =>
        rw [hst] at h
        simp only [Option.map_some'] at h
        rw [← h]
        exact ih s1
    · rfl

theorem held_between_cycles (strat : Strategy) (N a : Nat) {pc : PC}
    (h : pc = .loopIncr ∨ pc = .loopHead ∨ pc = .finished) : held strat N a pc = [] := by
  rcases h with rfl | rfl | rfl <;> cases strat <;> rfl

theorem round_ops_succ (op : Nat → Op) (k : Nat) :
    round_ops op (k + 1) = (k, op k) :: round_ops op k := by
  unfold round_ops
  rw [List.range_succ, List.map_append, List.reverse_append]
  rfl

theorem run_within_append {strat : Strategy} {N : Nat} {it : Int} {v : Bool}
    {P : State → Prop} (l1 l2 : List Nat) :
    ∀ (s s1 : State), run_within strat N it v P l1 s → run strat N it v l1 s = some s1 →
      run_within strat N it v P l2 s1 → run_within strat N it v P (l1 ++ l2) s := by
  induction l1 with
  | nil =>
    intro s s1 _ hrun h2
    cases hrun
    exact h2
  | cons id rest ih =>
    intro s s1 h1 hrun h2
    obtain ⟨hP, hid, s', hst, hrest⟩ := h1
    simp only [run, hid, if_true, hst] at hrun
    exact ⟨hP, hid, s', hst, ih s' s1 hrest hrun h2⟩

theorem run_within_prefix {strat : Strategy} {N : Nat} {it : Int} {v : Bool}
    {P : State → Prop} (pre suf : List Nat) :
    ∀ s, run_within strat N it v P (pre ++ suf) s →
      ∃ t, run strat N it v pre s = some t ∧ P t := by
  induction pre with
  | nil =>
    intro s h
    refine ⟨s, rfl, ?_⟩
    cases suf with
    | nil => exact h
    | cons id rest => exact h.1
  | cons id rest ih =>
    intro s h
    obtain ⟨_, hid, s', hst, hrest⟩ := h
    obtain ⟨t, hrun, hP⟩ := ih s' hrest
    refine ⟨t, ?_, hP⟩
    simp only [run, hid, if_true, hst]
    exact hrun

theorem live_pcs_of_live {N i : Nat} {H : List (Nat × Op)} {p k : Nat} {s : State}
    (hp : p < 4) (h : LiveState N i H p k s) : LivePCs N s := by
  intro a ha
  refine ⟨_, h.2.2.1 a ha, ?_⟩
  have hp' : p = 0 ∨ p = 1 ∨ p = 2 ∨ p = 3 := by omega
  rcases hp' with rfl | rfl | rfl | rfl <;> by_cases hak : a < k <;> simp [hak, live_pc]

theorem live_step {N : Nat} {it : Int} {v : Bool} {i : Nat} {H : List (Nat × Op)}
    {p k : Nat} {s : State} (hN : 2 ≤ N) (hp : p < 4) (hk : k < N)
    (h : LiveState N i H p k s) :
    ∃ s', step .TRY_LOCK N it v s k = some s' ∧ LiveState N i H p (k + 1) s' := by
  obtain ⟨hla, hlf, hag, hfk, htm, hh⟩ := h
  have hagk : s.agents[k]? = some ⟨live_pc p, i⟩ := by
    have := hag k hk
    simpa using this
  have hklen : k < s.agents.length := by omega
  have hkf : k < s.forks.length := by omega
  have hrN := right_fork_lt (by omega : 0 < N) k
  have hlr := right_fork_ne_left hN hk
  have hagents : ∀ (pc' : PC) (a : Nat), a < N →
      (s.agents.set k ⟨pc', i⟩)[a]? =
        some ⟨if a < k + 1 then (if a = k then pc' else live_pc (p + 1)) else live_pc p, i⟩ := by
    intro pc' a ha
    by_cases hak : a = k
    · subst hak
      simp [List.getElem?_set_self hklen]
    · rw [List.getElem?_set_ne (Ne.symm hak), hag a ha]
      by_cases h1 : a < k
      · have h2 : a < k + 1 := by omega
        simp [h1, h2, hak]
      · have h2 : ¬ a < k + 1 := by omega
        simp [h1, h2]
  have hp' : p = 0 ∨ p = 1 ∨ p = 2 ∨ p = 3 := by omega
  rcases hp' with rfl | rfl | rfl | rfl
  · have hf0 : s.forks[left_fork k]? = some false := by
      have := hfk k hk
      simpa [live_fork] using this
    refine ⟨{ s with agents := s.goto k ⟨.lockFirst, i⟩ .lockSecond,
                     forks := s.forks.set (left_fork k) true,
                     history := (k, .try_lock (left_fork k) true) :: s.history }, ?_, ?_⟩
    · simp [step, hagk, live_pc, program, philosopher_try_lock, exec, hf0]
    · refine ⟨by simp [State.goto, hla], by simp [hlf], ?_, ?_, htm, ?_⟩
      · intro a ha
        simp only [State.goto]
        rw [hagents _ a ha]
        by_cases hak : a = k <;> simp [hak, live_pc]
      · intro f hf
        simp only [left_fork]
        by_cases hfk' : f = k
        · subst hfk'
          simp [List.getElem?_set_self hkf, live_fork]
        · rw [List.getElem?_set_ne (Ne.symm hfk'), hfk f hf]
          simp only [live_fork, Option.some.injEq, decide_eq_decide]
          omega
      · simp [hh, live_log, round_ops_succ]
  · have hf1 : s.forks[right_fork N k]? = some true := by
      have := hfk _ hrN
      simpa [live_fork] using this
    refine ⟨{ s with agents := s.goto k ⟨.lockSecond, i⟩ .retryUnlock,
                     history := (k, .try_lock (right_fork N k) false) :: s.history }, ?_, ?_⟩
    · simp [step, hagk, live_pc, program, philosopher_try_lock, exec, hf1]
    · refine ⟨by simp [State.goto, hla], hlf, ?_, ?_, htm, ?_⟩
      · intro a ha
        simp only [State.goto]
        rw [hagents _ a ha]
        by_cases hak : a = k <;> simp [hak, live_pc]
      · intro f hf
        rw [hfk f hf]
        rfl
      · simp [hh, live_log, round_ops_succ]
  · have hf2 : s.forks[left_fork k]? = some (live_fork 2 k k) := hfk k hk
    refine ⟨{ s with agents := s.goto k ⟨.retryUnlock, i⟩ .retrySleep,
                     forks := s.forks.set (left_fork k) false,
                     history := (k, .unlock (left_fork k)) :: s.history }, ?_, ?_⟩
    · simp [step, hagk, live_pc, program, philosopher_try_lock, exec, hf2]
    · refine ⟨by simp [State.goto, hla], by simp [hlf], ?_, ?_, htm, ?_⟩
      · intro a ha
        simp only [State.goto]
        rw [hagents _ a ha]
        by_cases hak : a = k <;> simp [hak, live_pc]
      · intro f hf
        simp only [left_fork]
        by_cases hfk' : f = k
        · subst hfk'
          simp [List.getElem?_set_self hkf, live_fork]
        · rw [List.getElem?_set_ne (Ne.symm hfk'), hfk f hf]
          simp only [live_fork, Option.some.injEq, decide_eq_decide]
          omega
      · simp [hh, live_log, round_ops_succ]
  · refine ⟨{ s with agents := s.goto k ⟨.retrySleep, i⟩ .lockFirst }, ?_, ?_⟩
    · simp [step, hagk, live_pc, program, philosopher_try_lock, exec]
    · refine ⟨by simp [State.goto, hla], hlf, ?_, ?_, htm, ?_⟩
      · intro a ha
        simp only [State.goto]
        rw [hagents _ a ha]
        by_cases hak : a = k <;> simp [hak, live_pc]
      · intro f hf
        rw [hfk f hf]
        rfl
      · simp [hh, live_log]

theorem live_phase {N : Nat} {it : Int} {v : Bool} {i : Nat} {H : List (Nat × Op)}
    {p : Nat} (hN : 2 ≤ N) (hp : p < 4) :
    ∀ (j : Nat) (s : State), j ≤ N → LiveState N i H p (N - j) s →
      ∃ s', run .TRY_LOCK N it v (List.range' (N - j) j) s = some s' ∧
        LiveState N i H p N s' ∧
        run_within .TRY_LOCK N it v (LivePCs N) (List.range' (N - j) j) s := by
  intro j
  induction j with
  | zero =>
    intro s _ h
    exact ⟨s, rfl, h, live_pcs_of_live hp h⟩
  | succ j ih =>
    intro s hj h
    have hk : N - (j + 1) < N := by omega
    obtain ⟨s1, hst, h1⟩ := @live_step N it v i H p (N - (j + 1)) s hN hp hk h
    have hkk : N - (j + 1) + 1 = N - j := by omega
    rw [hkk] at h1
    obtain ⟨s', hrun, hl, hw⟩ := ih s1 (by omega) h1
    have hr : List.range' (N - (j + 1)) (j + 1) = (N - (j + 1)) :: List.range' (N - j) j := by
      rw [List.range'_succ, hkk]
    rw [hr]
    refine ⟨s', ?_, hl, live_pcs_of_live hp h, hk, s1, hst, hw⟩
    simp only [run, hk, if_true, hst]
    exact hrun

theorem live_phase_all {N : Nat} {it : Int} {v : Bool} {i : Nat} {H : List (Nat × Op)}
    {p : Nat} {s : State} (hN : 2 ≤ N) (hp : p < 4) (h : LiveState N i H p 0 s) :
    ∃ s', run .TRY_LOCK N it v (List.range N) s = some s' ∧ LiveState N i H p N s' ∧
      run_within .TRY_LOCK N it v (LivePCs N) (List.range N) s := by
  have h0 : N - N = 0 := by omega
  have := @live_phase N it v i H p hN hp N s le_rfl (by rw [h0]; exact h)
  rw [h0, ← List.range_eq_range'] at this
  exact this

theorem live_next {N i : Nat} {H : List (Nat × Op)} {p : Nat} {s : State} (hp : p < 3)
    (h : LiveState N i H p N s) : LiveState N i H (p + 1) 0 s := by
  obtain ⟨hla, hlf, hag, hfk, htm, hh⟩ := h
  refine ⟨hla, hlf, ?_, ?_, htm, ?_⟩
  · intro a ha
    rw [hag a ha]
    simp [ha]
  · intro f hf
    rw [hfk f hf]
    have hp' : p = 0 ∨ p = 1 ∨ p = 2 := by omega
    rcases hp' with rfl | rfl | rfl <;> simp [live_fork, hf]
  · rw [hh]
    have hp' : p = 0 ∨ p = 1 ∨ p = 2 := by omega
    rcases hp' with rfl | rfl | rfl <;> simp [live_log, round_ops]

theorem live_round_end {N i : Nat} {H : List (Nat × Op)} {s : State}
    (h : LiveState N i H 3 N s) : LiveState N i (live_log N 3 N ++ H) 0 0 s := by
  obtain ⟨hla, hlf, hag, hfk, htm, hh⟩ := h
  refine ⟨hla, hlf, ?_, ?_, htm, ?_⟩
  · intro a ha
    rw [hag a ha]
    simp [ha, live_pc]
  · intro f hf
    rw [hfk f hf]
    simp [live_fork]
  · rw [hh]
    simp [live_log, round_ops]

theorem live_round {N : Nat} {it : Int} {v : Bool} {i : Nat} {H : List (Nat × Op)}
    {s : State} (hN : 2 ≤ N) (h : LiveState N i H 0 0 s) :
    ∃ s', run .TRY_LOCK N it v (livelock_round N) s = some s' ∧
      LiveState N i (live_log N 3 N ++ H) 0 0 s' ∧
      run_within .TRY_LOCK N it v (LivePCs N) (livelock_round N) s := by
  obtain ⟨s1, hr1, hl1, hw1⟩ := @live_phase_all N it v i H 0 s hN (by omega) h
  obtain ⟨s2, hr2, hl2, hw2⟩ :=
    @live_phase_all N it v i H 1 s1 hN (by omega) (live_next (by omega) hl1)
  obtain ⟨s3, hr3, hl3, hw3⟩ :=
    @live_phase_all N it v i H 2 s2 hN (by omega) (live_next (by omega) hl2)
  obtain ⟨s4, hr4, hl4, hw4⟩ :=
    @live_phase_all N it v i H 3 s3 hN (by omega) (live_next (by omega) hl3)
  refine ⟨s4, ?_, live_round_end hl4, ?_⟩
  · exact run_append _ _ hr1 (run_append _ _ hr2 (run_append _ _ hr3 hr4))
  · exact run_within_append _ _ s s1 hw1 hr1
      (run_within_append _ _ s1 s2 hw2 hr2 (run_within_append _ _ s2 s3 hw3 hr3 hw4))

theorem live_rounds {N : Nat} {it : Int} {v : Bool} {i : Nat} (hN : 2 ≤ N) :
    ∀ (n : Nat) (H : List (Nat × Op)) (s : State), LiveState N i H 0 0 s →
      run_within .TRY_LOCK N it v (LivePCs N)
        (List.replicate n (livelock_round N)).flatten s := by
  intro n
  induction n with
  | zero =>
    intro H s h
    exact live_pcs_of_live (by omega) h
  | succ n ih =>
    intro H s h
    obtain ⟨s', hrun, hl, hw⟩ := @live_round N it v i H s hN h
    rw [List.replicate_succ, List.flatten_cons]
    exact run_within_append _ _ s s' hw hrun (ih _ s' hl)

theorem live_same_state {N i : Nat} {H H' : List (Nat × Op)} {s s' : State}
    (h : LiveState N i H 0 0 s) (h' : LiveState N i H' 0 0 s') :
    s'.agents = s.agents ∧ s'.forks = s.forks ∧ s'.table_mutex = s.table_mutex := by
  obtain ⟨hla, hlf, hag, hfk, htm, -⟩ := h
  obtain ⟨hla', hlf', hag', hfk', htm', -⟩ := h'
  refine ⟨?_, ?_, by rw [htm, htm']⟩
  · apply List.ext_getElem?
    intro a
    by_cases ha : a < N
    · rw [hag a ha, hag' a ha]
    · rw [List.getElem?_eq_none (by omega), List.getElem?_eq_none (by omega)]
  · apply List.ext_getElem?
    intro f
    by_cases hf : f < N
    · rw [hfk f hf, hfk' f hf]
    · rw [List.getElem?_eq_none (by omega), List.getElem?_eq_none (by omega)]

theorem start_init (N : Nat) : StartState N 0 (init .TRY_LOCK N) := by
  refine ⟨by simp [init, start], by simp [init, start, static_forks], ?_, ?_, rfl⟩
  · intro a ha
    simp [init, start, List.getElem?_replicate, ha]
  · intro f hf
    simp [init, start, static_forks, List.getElem?_replicate, hf, initial_flag]

theorem start_step {N : Nat} {it : Int} {v : Bool} {k : Nat} {s : State} (hit : 1 ≤ it)
    (hk : k < N) (h : StartState N k s) :
    ∃ s', step .TRY_LOCK N it v s k = some s' ∧ StartState N (k + 1) s' := by
  obtain ⟨hla, hlf, hag, hfk, htm⟩ := h
  have hagk : s.agents[k]? = some ⟨.loopHead, 0⟩ := by
    have := hag k hk
    simpa using this
  have hklen : k < s.agents.length := by omega
  have hlt : ((0 : Nat) : Int) < it := by omega
  refine ⟨{ s with agents := s.goto k ⟨.loopHead, 0⟩ .lockFirst,
                   history := trace_line v k 0 (.print_thinking (0 + 1)) s.history }, ?_, ?_⟩
  · simp only [step, hagk, program, philosopher_try_lock, exec]
    rw [if_pos hlt]
  · refine ⟨by simp [State.goto, hla], hlf, ?_, hfk, htm⟩
    intro a ha
    simp only [State.goto]
    by_cases hak : a = k
    · subst hak
      simp [List.getElem?_set_self hklen]
    · rw [List.getElem?_set_ne (Ne.symm hak), hag a ha]
      by_cases h1 : a < k
      · have h2 : a < k + 1 := by omega
        simp [h1, h2]
      · have h2 : ¬ a < k + 1 := by omega
        simp [h1, h2]

theorem start_reach {N : Nat} {it : Int} {v : Bool} (hit : 1 ≤ it) :
    ∀ k, k ≤ N → ∃ s, Reachable .TRY_LOCK N it v s ∧ StartState N k s := by
  intro k
  induction k with
  | zero =>
    intro _
    exact ⟨_, Reachable.init, start_init N⟩
  | succ k ih =>
    intro hk
    obtain ⟨s, hr, hs⟩ := ih (by omega)
    obtain ⟨s', hst, hs'⟩ := @start_step N it v k s hit (by omega) hs
    exact ⟨s', Reachable.step hr (by omega) hst, hs'⟩

theorem live_of_start {N : Nat} {s : State} (h : StartState N N s) :
    LiveState N 0 s.history 0 0 s := by
  obtain ⟨hla, hlf, hag, hfk, htm⟩ := h
  refine ⟨hla, hlf, ?_, ?_, htm, ?_⟩
  · intro a ha
    rw [hag a ha]
    simp [ha, live_pc]
  · intro f hf
    rw [hfk f hf]
    simp [live_fork]
  · simp [live_log, round_ops]

theorem live_pcs_safe {N : Nat} {it : Int} {v : Bool} {t : State} (hN : 2 ≤ N)
    (hr : Reachable .TRY_LOCK N it v t) (h : LivePCs N t) :
    ∀ a, a < N → t.eating a = false ∧
      ¬ (t.holds a (left_fork a) ∧ t.holds a (right_fork N a)) := by
  intro a ha
  obtain ⟨ag, hag, hpc⟩ := h a ha
  have hinv := reachable_core hN hr
  have hlr := right_fork_ne_left hN ha
  constructor
  · unfold State.eating
    rw [hag]
    rcases hpc with h | h | h | h <;> simp [h]
  · rintro ⟨-, h2⟩
    have := (hinv.hist a _).1 h2
    rw [heldAt_self hag] at this
    rcases hpc with h | h | h | h <;> rw [h] at this <;>
      simp only [held, List.mem_singleton, List.not_mem_nil] at this
    · exact hlr this
    · exact hlr this

theorem livelock_round_count {N a : Nat} (ha : a < N) : (livelock_round N).count a = 4 := by
  have h1 : (List.range N).count a = 1 :=
    List.count_eq_one_of_mem (List.nodup_range N) (List.mem_range.2 ha)
  simp [livelock_round, List.count_append, h1]

end task3

namespace task2

theorem max_double_large : (2 : Rat) ^ 53 ≤ max_double := by
  unfold max_double
  norm_num

theorem double_le_of_lt {x y : Double} (h : Double.lt x y = true) : Double.le x y = true := by
  rcases x with a | (_ | _) | _ <;> rcases y with b | (_ | _) | _ <;>
    simp_all [Double.lt, Double.le]
  exact le_of_lt h

theorem ne_nan_of_le {x y : Double} (h : Double.le x y = true) :
    x ≠ Double.nan ∧ y ≠ Double.nan := by
  rcases x with a | (_ | _) | _ <;> rcases y with b | (_ | _) | _ <;>
    simp_all [Double.le]

theorem update_max_ne_nan {m : Double} (x : Double) (h : m ≠ Double.nan) :
    update_max m x ≠ Double.nan := by
  unfold update_max
  split
  · rename_i hlt
    exact (ne_nan_of_le (double_le_of_lt hlt)).2
  · exact h

theorem foldl_update_max_ne_nan (l : List Double) (m : Double) (h : m ≠ Double.nan) :
    l.foldl update_max m ≠ Double.nan := by
  induction l generalizing m with
  | nil => exact h
  | cons x xs ih => exact ih _ (update_max_ne_nan x h)

theorem uniform_age_range (raw : Nat) :
    20 ≤ uniform_int 20 65 raw ∧ uniform_int 20 65 raw ≤ 65 := by
  unfold uniform_int
  omega

theorem max_double_pos : (0 : Rat) < max_double := lt_of_lt_of_le (by norm_num) max_double_large

end task2

namespace task1

theorem arrive_inside (n m k : Nat) (hk : k + 1 < n) :
    CustomBarrier.arrive_and_wait
        ⟨(n : Int) - k, n, m, List.replicate k (m : Int)⟩ =
      ⟨(n : Int) - (k + 1 : Nat), n, m, List.replicate (k + 1) (m : Int)⟩ := by
  unfold CustomBarrier.arrive_and_wait
  have h : ¬ ((n : Int) - k - 1 = 0) := by omega
  simp only [h, if_false, List.replicate_succ]
  congr 1
  push_cast
  ring

theorem arrive_last (n m k : Nat) (hk : k + 1 = n) :
    CustomBarrier.arrive_and_wait
        ⟨(n : Int) - k, n, m, List.replicate k (m : Int)⟩ =
      ⟨(n : Int) - (0 : Nat), n, ((m + 1 : Nat) : Int), List.replicate 0 ((m + 1 : Nat) : Int)⟩ := by
  unfold CustomBarrier.arrive_and_wait
  have h : (n : Int) - k - 1 = 0 := by omega
  simp only [h, if_true]
  have hw : List.filter (fun g => decide (¬ g ≠ (m : Int) + 1)) (List.replicate k (m : Int)) =
      List.replicate 0 (((m + 1 : Nat) : Int)) := by
    rw [List.replicate_zero, List.filter_eq_nil_iff]
    intro g hg
    rw [List.eq_of_mem_replicate hg]
    simp
  rw [hw]
  simp

/-- State of the barrier after `m` full rounds and `k < n` further arrivals. -/
theorem arrivals_eq (n : Nat) (hn : 1 ≤ n) :
    ∀ m k, k < n →
      arrivals n (m * n + k) = ⟨(n : Int) - k, n, m, List.replicate k (m : Int)⟩ := by
  have hstep : ∀ j, arrivals n (j + 1) = (arrivals n j).arrive_and_wait := by
    intro j
    unfold arrivals
    rw [Function.iterate_succ_apply']
  have hinner : ∀ m, arrivals n (m * n + 0) = ⟨(n : Int) - (0 : Nat), n, m,
      List.replicate 0 (m : Int)⟩ →
      ∀ k, k < n → arrivals n (m * n + k) = ⟨(n : Int) - k, n, m, List.replicate k (m : Int)⟩ := by
    intro m h0 k
    induction k with
    | zero => intro _; exact h0
    | succ k ih =>
      intro hk
      have hi := ih (by omega)
      rw [← Nat.add_assoc, hstep, hi]
      exact arrive_inside n m k hk
  intro m
  induction m with
  | zero =>
    apply hinner 0
    simp [arrivals, CustomBarrier.new]
  | succ m ih =>
    apply hinner (m + 1)
    have hlast := ih (n - 1) (by omega)
    have hidx : (m + 1) * n + 0 = m * n + (n - 1) + 1 := by
      rw [Nat.succ_mul]
      omega
    rw [hidx, hstep, hlast]
    exact arrive_last n m (n - 1) (by omega)

end task1

/-! ## Claims -/

namespace task3

/-- C1: mutual exclusion.  In every reachable state of a run with at least two
philosophers, under each of the five strategies, at most one agent holds
(for the arbitrator: has been granted and not yet returned) a given fork. -/
theorem mutual_exclusion (strat : Strategy) (N : Nat) (iterations : Int) (verbose : Bool)
    (s : State) (hN : 2 ≤ N) (hr : Reachable strat N iterations verbose s) :
    ∀ i, i < N → ∀ a b, s.holds a i → s.holds b i → a = b := by
  intro i _ a b ha hb
  have hinv := reachable_core hN hr
  exact hinv.excl a b i ((hinv.hist a i).1 ha) ((hinv.hist b i).1 hb)

/-- Instance of `mutual_exclusion` on a contended two-philosopher Mutex run. -/
theorem mutual_exclusion_witness :
    2 ≤ 2 ∧ Reachable .MUTEX 2 1 false mutex_contended ∧
      mutex_contended.holds 0 0 ∧
      ∀ i, i < 2 → ∀ a b, mutex_contended.holds a i → mutex_contended.holds b i → a = b :=
  ⟨by decide, mutex_contended_reachable, rfl,
    mutual_exclusion .MUTEX 2 1 false mutex_contended (by decide) mutex_contended_reachable⟩

/-- C2: deadlock freedom of the Mutex strategy.  For every `N ≥ 2` and every
iteration count, no reachable state has an unfinished agent while every
unfinished agent is blocked on a fork held by another agent; nor is there a
reachable state with an unfinished agent in which no agent can step. -/
theorem mutex_deadlock_free (N : Nat) (iterations : Int) (verbose : Bool) (s : State)
    (hN : 2 ≤ N) (hr : Reachable .MUTEX N iterations verbose s) :
    ¬ WaitDeadlock .MUTEX N s ∧ ¬ Deadlock .MUTEX N iterations verbose s :=
  ordered_deadlock_free (Or.inl rfl) hN hr

/-- Instance of `mutex_deadlock_free`: agent 1 is blocked on fork 0, agent 0 can step. -/
theorem mutex_deadlock_free_witness :
    2 ≤ 2 ∧ Reachable .MUTEX 2 1 false mutex_contended ∧
      blocked_on .MUTEX 2 mutex_contended 1 0 ∧
      ¬ WaitDeadlock .MUTEX 2 mutex_contended ∧
      ¬ Deadlock .MUTEX 2 1 false mutex_contended :=
  ⟨by decide, mutex_contended_reachable,
    ⟨⟨.lockFirst, 0⟩, .lockSecond, rfl, Or.inl rfl, 0, by decide, by decide, rfl⟩,
    mutex_deadlock_free 2 1 false mutex_contended (by decide) mutex_contended_reachable⟩

/-- C3: deadlock freedom of the ResourceHierarchy strategy.  For every `N ≥ 2`
and every iteration count, no reachable state has an unfinished agent while
every unfinished agent is blocked on a fork held by another agent; nor is
there a reachable state with an unfinished agent in which no agent can step. -/
theorem hierarchy_deadlock_free (N : Nat) (iterations : Int) (verbose : Bool) (s : State)
    (hN : 2 ≤ N) (hr : Reachable .RESOURCE_HIERARCHY N iterations verbose s) :
    ¬ WaitDeadlock .RESOURCE_HIERARCHY N s ∧
      ¬ Deadlock .RESOURCE_HIERARCHY N iterations verbose s :=
  ordered_deadlock_free (Or.inr rfl) hN hr

/-- Instance of `hierarchy_deadlock_free` with the ring-closing agent holding fork 0. -/
theorem hierarchy_deadlock_free_witness :
    2 ≤ 2 ∧ Reachable .RESOURCE_HIERARCHY 2 1 false hierarchy_closing ∧
      hierarchy_closing.holds 1 0 ∧
      ¬ WaitDeadlock .RESOURCE_HIERARCHY 2 hierarchy_closing ∧
      ¬ Deadlock .RESOURCE_HIERARCHY 2 1 false hierarchy_closing :=
  ⟨by decide, hierarchy_closing_reachable, rfl,
    hierarchy_deadlock_free 2 1 false hierarchy_closing (by decide)
      hierarchy_closing_reachable⟩

/-- C4, as stated, fails: a two-philosopher Semaphore run with one iteration
reaches a state in which both agents are unfinished and neither can step. -/
theorem semaphore_can_hang :
    Reachable .SEMAPHORE 2 1 false semaphore_deadlocked ∧
      Deadlock .SEMAPHORE 2 1 false semaphore_deadlocked := by
  refine ⟨semaphore_deadlocked_reachable, ⟨0, by decide, ⟨.lockSecond, 0⟩, rfl, by decide⟩, ?_⟩
  intro a ha
  have h : a = 0 ∨ a = 1 := by omega
  rcases h with rfl | rfl <;> simp [can_step] <;> rfl

/-- C4, amended: for Mutex, TryLock, Arbitrator and ResourceHierarchy and every
`N` in `{2, 5, 10, 20}`, a run has no reachable state in which some agent is
unfinished and no agent can step, and from every reachable state some schedule
leads to a state in which all agents have returned (reached their join point). -/
theorem no_hang_except_semaphore (strat : Strategy) (N : Nat) (iterations : Int)
    (verbose : Bool) (s : State) (hs : strat ≠ .SEMAPHORE)
    (hN : N = 2 ∨ N = 5 ∨ N = 10 ∨ N = 20)
    (hr : Reachable strat N iterations verbose s) :
    ¬ Deadlock strat N iterations verbose s ∧
      ∃ sched s', run strat N iterations verbose sched s = some s' ∧ AllFinished N s' := by
  have hN2 : 2 ≤ N := by omega
  refine ⟨?_, can_finish_except_semaphore hs hN2 hr⟩
  intro hd
  exact progress_no_deadlock (progress_except_semaphore hs hN2 hr hd.1) hd

/-- Instance of `no_hang_except_semaphore`: agent 1 waits for the table guard
while agent 0 is inside the guarded section. -/
theorem no_hang_except_semaphore_witness :
    Strategy.ARBITRATOR ≠ Strategy.SEMAPHORE ∧
      ((2 : Nat) = 2 ∨ (2 : Nat) = 5 ∨ (2 : Nat) = 10 ∨ (2 : Nat) = 20) ∧
      Reachable .ARBITRATOR 2 1 false arbitrator_guarded ∧
      step .ARBITRATOR 2 1 false arbitrator_guarded 1 = none ∧
      (¬ Deadlock .ARBITRATOR 2 1 false arbitrator_guarded ∧
        ∃ sched s', run .ARBITRATOR 2 1 false sched arbitrator_guarded = some s' ∧
          AllFinished 2 s') :=
  ⟨by decide, by decide, arbitrator_guarded_reachable, by decide,
    no_hang_except_semaphore .ARBITRATOR 2 1 false arbitrator_guarded (by decide)
      (by decide) arbitrator_guarded_reachable⟩

/-- C5: circular wait of the Semaphore strategy.  For every `N ≥ 2` and
`iterations ≥ 1` a state is reachable in which every agent holds its left fork
and is blocked acquiring its right fork, which its neighbour holds; in that
state no agent can step, so every non-empty schedule from it fails. -/
theorem semaphore_deadlock_reachable (N : Nat) (iterations : Int) (verbose : Bool)
    (hN : 2 ≤ N) (hit : 1 ≤ iterations) :
    ∃ s, Reachable .SEMAPHORE N iterations verbose s ∧
      (∀ a, a < N → s.holds a (left_fork a) ∧
        blocked_on .SEMAPHORE N s a (right_fork N a) ∧
        ¬ can_step .SEMAPHORE N iterations verbose s a) ∧
      WaitDeadlock .SEMAPHORE N s ∧
      Deadlock .SEMAPHORE N iterations verbose s ∧
      ∀ id rest, run .SEMAPHORE N iterations verbose (id :: rest) s = none := by
  obtain ⟨s, hr, hall⟩ := semaphore_circular_wait (v := verbose) hN hit
  have hstuck : ∀ a, a < N → step .SEMAPHORE N iterations verbose s a = none :=
    fun a ha => (hall a ha).2.2.2
  have hcant : ∀ a, a < N → ¬ can_step .SEMAPHORE N iterations verbose s a := by
    intro a ha hc
    unfold can_step at hc
    rw [hstuck a ha] at hc
    cases hc
  have hblocked : ∀ a, a < N → blocked_on .SEMAPHORE N s a (right_fork N a) := by
    intro a ha
    obtain ⟨_, ⟨ag, hag, hprog⟩, _, _⟩ := hall a ha
    have hr' : right_fork N a < N := right_fork_lt (by omega) a
    exact ⟨ag, .eat, hag, Or.inr hprog, right_fork N a, hr', right_fork_ne_left hN ha,
      (hall _ hr').1⟩
  have hun : ∃ a, a < N ∧ s.unfinished a := by
    obtain ⟨_, ⟨ag, hag, hprog⟩, _, _⟩ := hall 0 (by omega)
    refine ⟨0, by omega, ag, hag, ?_⟩
    intro hp
    rw [hp] at hprog
    simp [program, philosopher_semaphore] at hprog
  exact ⟨s, hr, fun a ha => ⟨(hall a ha).1, hblocked a ha, hcant a ha⟩,
    ⟨hun, fun a ha _ => ⟨_, hblocked a ha⟩⟩, ⟨hun, hcant⟩, run_stuck hstuck⟩

/-- Instance of `semaphore_deadlock_reachable` for two philosophers and one iteration. -/
theorem semaphore_deadlock_reachable_witness :
    2 ≤ 2 ∧ (1 : Int) ≤ 1 ∧
    ∃ s, Reachable .SEMAPHORE 2 1 false s ∧
      (∀ a, a < 2 → s.holds a (left_fork a) ∧
        blocked_on .SEMAPHORE 2 s a (right_fork 2 a) ∧
        ¬ can_step .SEMAPHORE 2 1 false s a) ∧
      WaitDeadlock .SEMAPHORE 2 s ∧
      Deadlock .SEMAPHORE 2 1 false s ∧
      ∀ id rest, run .SEMAPHORE 2 1 false (id :: rest) s = none :=
  ⟨by decide, by decide, semaphore_deadlock_reachable 2 1 false (by decide) (by decide)⟩

/-- C6 fails on the code: the static fork vector is constructed by the first
run only.  After a five-philosopher Mutex run, the ten-philosopher Mutex run
of the benchmark sweep starts ten agents on the five-entry vector; agent 8
indexes outside it at its first lock (`forks[8]`), agent 4 at its second
(`forks[5]`). -/
theorem static_forks_not_resized :
    (start (some (static_forks none .MUTEX 5)) .MUTEX 10).agents.length = 10 ∧
      (start (some (static_forks none .MUTEX 5)) .MUTEX 10).forks.length = 5 ∧
      (start (some (static_forks none .MUTEX 5)) .MUTEX 10).forks[left_fork 8]? = none ∧
      (start (some (static_forks none .MUTEX 5)) .MUTEX 10).forks[right_fork 10 4]? = none ∧
      (run .MUTEX 10 10 false [8]
        (start (some (static_forks none .MUTEX 5)) .MUTEX 10)).isSome = true ∧
      run .MUTEX 10 10 false [8, 8]
        (start (some (static_forks none .MUTEX 5)) .MUTEX 10) = none ∧
      (run .MUTEX 10 10 false [4, 4]
        (start (some (static_forks none .MUTEX 5)) .MUTEX 10)).isSome = true ∧
      run .MUTEX 10 10 false [4, 4, 4]
        (start (some (static_forks none .MUTEX 5)) .MUTEX 10) = none := by
  decide

/-- C7: fork indices of an agent.  For `N ≥ 1` and `0 ≤ id < N` the left index
is `id`, the right index is `(id + 1) mod N`, both lie in `[0, N)`, they differ
when `N ≥ 2` and coincide at `0` when `N = 1`. -/
theorem fork_indices (N id : Int) (hN : 1 ≤ N) (h0 : 0 ≤ id) (hid : id < N) :
    left_fork_int id = id ∧ right_fork_int N id = (id + 1) % N ∧
      (0 ≤ left_fork_int id ∧ left_fork_int id < N) ∧
      (0 ≤ right_fork_int N id ∧ right_fork_int N id < N) ∧
      (2 ≤ N → left_fork_int id ≠ right_fork_int N id) ∧
      (N = 1 → left_fork_int id = 0 ∧ right_fork_int N id = 0) := by
  have hr : right_fork_int N id = (id + 1) % N := by
    unfold right_fork_int
    exact Int.tmod_eq_emod (by omega) (by omega)
  have hcases : (id + 1) % N = if id + 1 = N then 0 else id + 1 := by
    split
    · rename_i h; rw [h, Int.emod_self]
    · exact Int.emod_eq_of_lt (by omega) (by omega)
  rw [hr, hcases]
  unfold left_fork_int
  refine ⟨rfl, rfl, ⟨h0, hid⟩, ?_, ?_, ?_⟩
  · split <;> omega
  · intro h2; split <;> omega
  · intro h1; split <;> omega

/-- Instance of `fork_indices` at the wrap-around agent of a ring of five. -/
theorem fork_indices_witness :
    (1 : Int) ≤ 5 ∧ (0 : Int) ≤ 4 ∧ (4 : Int) < 5 ∧
      (left_fork_int 4 = 4 ∧ right_fork_int 5 4 = (4 + 1) % 5 ∧
      (0 ≤ left_fork_int 4 ∧ left_fork_int 4 < 5) ∧
      (0 ≤ right_fork_int 5 4 ∧ right_fork_int 5 4 < 5) ∧
      ((2 : Int) ≤ 5 → left_fork_int 4 ≠ right_fork_int 5 4) ∧
      ((5 : Int) = 1 → left_fork_int 4 = 0 ∧ right_fork_int 5 4 = 0)) :=
  ⟨by decide, by decide, by decide, fork_indices 5 4 (by decide) (by decide) (by decide)⟩

/-- C8: parity invariant of the Mutex strategy.  Whenever an agent of a
reachable state requests a fork with `lock`, an even-id agent either requests
its left fork with empty hands or requests its right fork while holding its
left fork; an odd-id agent either requests its right fork with empty hands or
requests its left fork while holding its right fork. -/
theorem mutex_parity_order (N : Nat) (iterations : Int) (verbose : Bool) (s : State)
    (a : Nat) (ag : Agent) (f : Nat) (nx : PC) (hN : 2 ≤ N)
    (hr : Reachable .MUTEX N iterations verbose s) (ha : a < N)
    (hag : s.agents[a]? = some ag) (hreq : philosopher_mutex N a ag.pc = .lock f nx) :
    (a % 2 = 0 →
      (f = left_fork a ∧ ∀ g, ¬ s.holds a g) ∨
      (f = right_fork N a ∧ s.holds a (left_fork a) ∧ ¬ s.holds a (right_fork N a))) ∧
    (a % 2 = 1 →
      (f = right_fork N a ∧ ∀ g, ¬ s.holds a g) ∨
      (f = left_fork a ∧ s.holds a (right_fork N a) ∧ ¬ s.holds a (left_fork a))) := by
  have h := request_order (Or.inl rfl) hN hr ha hag hreq
  constructor
  · intro hp
    simpa only [acq_first, acq_second, hp, if_true] using h
  · intro hp
    have hp' : ¬ a % 2 = 0 := by omega
    simpa only [acq_first, acq_second, hp', if_false] using h

/-- Instance of `mutex_parity_order`: odd agent 1 requests its right fork 0 with
empty hands. -/
theorem mutex_parity_order_witness :
    2 ≤ 2 ∧ Reachable .MUTEX 2 1 false mutex_contended ∧ 1 < 2 ∧
      mutex_contended.agents[1]? = some ⟨.lockFirst, 0⟩ ∧
      philosopher_mutex 2 1 .lockFirst = .lock 0 .lockSecond ∧
      ((1 % 2 = 0 →
        (0 = left_fork 1 ∧ ∀ g, ¬ mutex_contended.holds 1 g) ∨
        (0 = right_fork 2 1 ∧ mutex_contended.holds 1 (left_fork 1) ∧
          ¬ mutex_contended.holds 1 (right_fork 2 1))) ∧
      (1 % 2 = 1 →
        (0 = right_fork 2 1 ∧ ∀ g, ¬ mutex_contended.holds 1 g) ∨
        (0 = left_fork 1 ∧ mutex_contended.holds 1 (right_fork 2 1) ∧
          ¬ mutex_contended.holds 1 (left_fork 1)))) :=
  ⟨by decide, mutex_contended_reachable, by decide, rfl, rfl,
    mutex_parity_order 2 1 false mutex_contended 1 ⟨.lockFirst, 0⟩ 0 .lockSecond (by decide)
      mutex_contended_reachable (by decide) rfl rfl⟩

/-- C10, as stated, fails: in a two-philosopher Mutex run agent 0 locks fork 0,
then fork 1, and releases fork 0 first, although fork 1 was taken last. -/
theorem mutex_release_not_reversed :
    Reachable .MUTEX 2 1 false mutex_releasing ∧
      step .MUTEX 2 1 false mutex_releasing 0 = some mutex_released_one ∧
      mutex_releasing.holds 0 0 ∧ mutex_releasing.holds 0 1 ∧
      last_taken mutex_releasing.history 0 = some 1 ∧
      ¬ mutex_released_one.holds 0 0 ∧ mutex_released_one.holds 0 1 ∧
      ¬ ReleasesReverse .MUTEX 2 1 false 0 := by
  refine ⟨mutex_releasing_reachable, by decide, rfl, rfl, rfl, by decide, rfl, ?_⟩
  intro h
  have h1 := h mutex_releasing mutex_released_one 0 1 mutex_releasing_reachable
    (by decide) (by decide) rfl rfl (by decide)
  revert h1
  decide

/-- C10, amended: a ResourceHierarchy agent and an odd-id Mutex agent give
their two forks back in the reverse order of acquisition; an even-id Mutex
agent and a TryLock agent give them back in the order of acquisition (left,
then right). -/
theorem release_order_by_strategy (N : Nat) (iterations : Int) (verbose : Bool) (a : Nat)
    (hN : 2 ≤ N) :
    ReleasesReverse .RESOURCE_HIERARCHY N iterations verbose a ∧
      (a % 2 = 1 → ReleasesReverse .MUTEX N iterations verbose a) ∧
      (a % 2 = 0 → ReleasesInOrder .MUTEX N iterations verbose a) ∧
      ReleasesInOrder .TRY_LOCK N iterations verbose a := by
  refine ⟨?_, ?_, ?_, ?_⟩
  · intro s s' f g hr hstep hfg hf hg hf'
    obtain ⟨h1, h2, _⟩ := release_order (by decide) hN hr hstep hfg hf hg hf'
    rw [h2, h1]
    rfl
  · intro hp s s' f g hr hstep hfg hf hg hf'
    obtain ⟨h1, h2, _⟩ := release_order (by decide) hN hr hstep hfg hf hg hf'
    have hp' : ¬ a % 2 = 0 := by omega
    rw [h2, h1]
    simp [acq_second, release_first, hp']
  · intro hp s s' f g hr hstep hfg hf hg hf'
    obtain ⟨h1, h2, h3⟩ := release_order (by decide) hN hr hstep hfg hf hg hf'
    rw [h2]
    rcases h3 with ⟨_, h4⟩ | ⟨h4, h5⟩
    · rw [h4]
    · exfalso
      apply hfg
      rw [h5, h1]
      simp [acq_first, release_first, hp]
  · intro s s' f g hr hstep hfg hf hg hf'
    obtain ⟨h1, h2, h3⟩ := release_order (by decide) hN hr hstep hfg hf hg hf'
    rw [h2]
    rcases h3 with ⟨_, h4⟩ | ⟨h4, h5⟩
    · rw [h4]
    · exfalso
      apply hfg
      rw [h5, h1]
      simp [acq_first, release_first]

/-- Instance of `release_order_by_strategy` for agent 1 of a ring of two, with a
reachable state in which it holds both forks and took fork 1 last. -/
theorem release_order_by_strategy_witness :
    2 ≤ 2 ∧
      Reachable .RESOURCE_HIERARCHY 2 1 false hierarchy_releasing ∧
      hierarchy_releasing.holds 1 0 ∧ hierarchy_releasing.holds 1 1 ∧
      last_taken hierarchy_releasing.history 1 = some 1 ∧
      (ReleasesReverse .RESOURCE_HIERARCHY 2 1 false 1 ∧
      (1 % 2 = 1 → ReleasesReverse .MUTEX 2 1 false 1) ∧
      (1 % 2 = 0 → ReleasesInOrder .MUTEX 2 1 false 1) ∧
      ReleasesInOrder .TRY_LOCK 2 1 false 1) :=
  ⟨by decide, hierarchy_releasing_reachable, rfl, rfl, rfl,
    release_order_by_strategy 2 1 false 1 (by decide)⟩

/-- C14: coordinator spawn set.  `run_simulation` starts one thread for each
id `0, 1, ..., N-1` (none when `N ≤ 0`), each id once, every thread running the
routine of the object's strategy with the same iteration count and verbosity;
in every interleaving of the threads and the coordinator the completion line
is printed only when all threads have returned. -/
theorem run_simulation_spawn_set (c : SimulationCall) :
    run_simulation_threads c =
        (List.range c.num_philosophers.toNat).map
          (fun (j : Nat) => (⟨c.strategy, (j : Int), c.iterations, c.verbose⟩ : Thread)) ∧
      (run_simulation_threads c).length = c.num_philosophers.toNat ∧
      ((run_simulation_threads c).map Thread.id).Nodup ∧
      (∀ t, t ∈ run_simulation_threads c →
        t.routine = c.strategy ∧ t.iterations = c.iterations ∧ t.verbose = c.verbose ∧
        0 ≤ t.id ∧ t.id < c.num_philosophers) ∧
      (∀ i : Int, 0 ≤ i → i < c.num_philosophers →
        ∃ t, t ∈ run_simulation_threads c ∧ t.id = i) ∧
      ∀ (s : State) (co : Coordinator),
        SimReachable c.strategy c.num_philosophers.toNat c.iterations c.verbose s co →
        co.reported = true → AllFinished c.num_philosophers.toNat s := by
  have heq := run_simulation_threads_eq c
  refine ⟨heq, ?_, ?_, ?_, ?_, ?_⟩
  · rw [heq]; simp
  · rw [heq, List.map_map]
    have : (Thread.id ∘ fun (j : Nat) =>
        (⟨c.strategy, (j : Int), c.iterations, c.verbose⟩ : Thread)) = fun (j : Nat) => (j : Int) := by
      funext j; rfl
    rw [this]
    exact (List.nodup_range _).map (fun a b h => by exact_mod_cast h)
  · intro t ht
    rw [heq] at ht
    simp only [List.mem_map, List.mem_range] at ht
    obtain ⟨j, hj, rfl⟩ := ht
    refine ⟨rfl, rfl, rfl, by simp, ?_⟩
    simp only
    omega
  · intro i h0 hi
    rw [heq]
    refine ⟨⟨c.strategy, i, c.iterations, c.verbose⟩, ?_, rfl⟩
    simp only [List.mem_map, List.mem_range]
    exact ⟨i.toNat, by omega, by simp [Int.toNat_of_nonneg h0]⟩
  · intro s co hr hrep a ha
    obtain ⟨h1, h2⟩ := sim_reachable_joined hr
    exact h1 a (lt_of_lt_of_le ha (h2 hrep))

/-- C17, as stated, fails: a simulation constructed with one philosopher is
not rejected; `run_simulation` starts the agent with id 0. -/
theorem single_philosopher_not_rejected :
    run_simulation_threads ⟨1, .TRY_LOCK, 1, true⟩ = [⟨.TRY_LOCK, 0, 1, true⟩] ∧
      run_simulation_threads ⟨1, .TRY_LOCK, 1, true⟩ ≠ [] := by
  have h : run_simulation_threads ⟨1, .TRY_LOCK, 1, true⟩ = [⟨.TRY_LOCK, 0, 1, true⟩] := by
    rw [run_simulation_threads_eq]
    decide
  exact ⟨h, by rw [h]; decide⟩

/-- C17, amended: the core rejects no philosopher count.  `run_simulation`
starts `max(N, 0)` agents: the agent with id 0 when `N = 1`, and none when
`N ≤ 0`, in which case the completion line is printed at once.  The menu never
hands the core a count below 2: it replaces such a count by 2. -/
theorem small_count_not_rejected (c : SimulationCall) :
    (run_simulation_threads c).length = c.num_philosophers.toNat ∧
      (c.num_philosophers = 1 →
        run_simulation_threads c = [⟨c.strategy, 0, c.iterations, c.verbose⟩]) ∧
      (c.num_philosophers ≤ 0 → run_simulation_threads c = [] ∧
        SimReachable c.strategy c.num_philosophers.toNat c.iterations c.verbose
          (init c.strategy c.num_philosophers.toNat) ⟨0, true⟩) ∧
      ∀ num_philosophers iterations strategy_choice : Int,
        2 ≤ (run_philosophers_simulation num_philosophers iterations
          strategy_choice).num_philosophers ∧
        (num_philosophers < 2 →
          (run_philosophers_simulation num_philosophers iterations
            strategy_choice).num_philosophers = 2) := by
  have heq := run_simulation_threads_eq c
  refine ⟨by rw [heq]; simp, ?_, ?_, ?_⟩
  · intro h
    rw [heq, h]
    rfl
  · intro h
    have h0 : c.num_philosophers.toNat = 0 := by omega
    rw [heq, h0]
    exact ⟨rfl, empty_run_reports _ _ _⟩
  · intro n it sc
    simp only [run_philosophers_simulation, clamp_philosophers]
    constructor
    · split_ifs <;> omega
    · intro h
      split_ifs <;> omega

/-- C18, as stated, fails: with the strategy selector 7 the menu runs a
simulation, under the Mutex strategy. -/
theorem unknown_strategy_runs_mutex :
    run_philosophers 1 5 10 7 0 = [⟨5, .MUTEX, 10, true⟩] ∧
      run_philosophers 1 5 10 7 0 ≠ [] := by
  decide

/-- C18, amended: a strategy selector outside `1..5` is not rejected; the menu
falls back to Mutex and runs the simulation with it. -/
theorem unknown_strategy_defaults (num_philosophers iterations strategy_choice
    benchmark_iterations : Int) (h : strategy_choice < 1 ∨ 5 < strategy_choice) :
    select_strategy strategy_choice = .MUTEX ∧
      run_philosophers 1 num_philosophers iterations strategy_choice benchmark_iterations =
        [⟨clamp_philosophers num_philosophers, .MUTEX, clamp_iterations iterations, true⟩] := by
  have hs : select_strategy strategy_choice = .MUTEX := by
    unfold select_strategy
    split_ifs <;> first | rfl | omega
  refine ⟨hs, ?_⟩
  simp [run_philosophers, run_philosophers_simulation, hs]

/-- Instance of `unknown_strategy_defaults` for the selector 7. -/
theorem unknown_strategy_defaults_witness :
    ((7 : Int) < 1 ∨ (5 : Int) < 7) ∧
      (select_strategy 7 = .MUTEX ∧
      run_philosophers 1 5 10 7 0 =
        [⟨clamp_philosophers 5, .MUTEX, clamp_iterations 10, true⟩]) :=
  ⟨by decide, unknown_strategy_defaults 5 10 7 0 (by decide)⟩

/-- C19: the menu hands the core validated parameters.  For every three
integers entered in simulation mode, the simulation that is run has a
philosopher count in `[2, 20]`, an iteration count in `[1, 100]`, a strategy
among the five, with the selectors 1 to 5 mapped to Mutex, Semaphore, TryLock,
Arbitrator and ResourceHierarchy; inputs already in range are passed unchanged. -/
theorem menu_parameters_validated (num_philosophers iterations strategy_choice
    benchmark_iterations : Int) :
    run_philosophers 1 num_philosophers iterations strategy_choice benchmark_iterations =
        [run_philosophers_simulation num_philosophers iterations strategy_choice] ∧
      (2 ≤ (run_philosophers_simulation num_philosophers iterations
          strategy_choice).num_philosophers ∧
        (run_philosophers_simulation num_philosophers iterations
          strategy_choice).num_philosophers ≤ 20) ∧
      (1 ≤ (run_philosophers_simulation num_philosophers iterations
          strategy_choice).iterations ∧
        (run_philosophers_simulation num_philosophers iterations
          strategy_choice).iterations ≤ 100) ∧
      (run_philosophers_simulation num_philosophers iterations
          strategy_choice).strategy ∈ strategies ∧
      (strategy_choice = 1 → (run_philosophers_simulation num_philosophers iterations
          strategy_choice).strategy = .MUTEX) ∧
      (strategy_choice = 2 → (run_philosophers_simulation num_philosophers iterations
          strategy_choice).strategy = .SEMAPHORE) ∧
      (strategy_choice = 3 → (run_philosophers_simulation num_philosophers iterations
          strategy_choice).strategy = .TRY_LOCK) ∧
      (strategy_choice = 4 → (run_philosophers_simulation num_philosophers iterations
          strategy_choice).strategy = .ARBITRATOR) ∧
      (strategy_choice = 5 → (run_philosophers_simulation num_philosophers iterations
          strategy_choice).strategy = .RESOURCE_HIERARCHY) ∧
      (2 ≤ num_philosophers → num_philosophers ≤ 20 →
        (run_philosophers_simulation num_philosophers iterations
          strategy_choice).num_philosophers = num_philosophers) ∧
      (1 ≤ iterations → iterations ≤ 100 →
        (run_philosophers_simulation num_philosophers iterations
          strategy_choice).iterations = iterations) := by
  refine ⟨by simp [run_philosophers], ?_⟩
  simp only [run_philosophers_simulation, clamp_philosophers, clamp_iterations]
  refine ⟨?_, ?_, ?_, ?_, ?_, ?_, ?_, ?_, ?_, ?_⟩
  · constructor <;> split_ifs <;> omega
  · constructor <;> split_ifs <;> omega
  · unfold select_strategy strategies
    split_ifs <;> simp
  · rintro rfl; rfl
  · rintro rfl; rfl
  · rintro rfl; rfl
  · rintro rfl; rfl
  · rintro rfl; rfl
  · intro h1 h2
    split_ifs <;> omega
  · intro h1 h2
    split_ifs <;> omega

/-- C20: binary-signal semantics.  A default-constructed `BinarySemaphore` is
available; `acquire` completes exactly when the semaphore is available and
leaves it unavailable; `release` leaves it available whatever it was, so two
releases equal one, and after two releases only one of two acquires completes. -/
theorem binary_semaphore_semantics :
    BinarySemaphore.new.available = true ∧
      (∀ b b' : BinarySemaphore, b.acquire = some b' →
        b.available = true ∧ b'.available = false) ∧
      (∀ b : BinarySemaphore, b.available = true → b.acquire = some ⟨false⟩) ∧
      (∀ b : BinarySemaphore, b.available = false → b.acquire = none) ∧
      (∀ b : BinarySemaphore, b.release.available = true) ∧
      (∀ b : BinarySemaphore, b.release.release = b.release) ∧
      (∀ b : BinarySemaphore, ∃ b1, b.release.release.acquire = some b1 ∧
        b1.acquire = none) := by
  refine ⟨rfl, ?_, ?_, ?_, ?_, ?_, ?_⟩
  · intro b b' h
    unfold BinarySemaphore.acquire at h
    split at h
    · rename_i hb
      cases h
      exact ⟨hb, rfl⟩
    · cases h
  · intro b h
    simp [BinarySemaphore.acquire, h]
  · intro b h
    simp [BinarySemaphore.acquire, h]
  · intro b; rfl
  · intro b; rfl
  · intro b
    exact ⟨⟨false⟩, rfl, rfl⟩

/-- C11: TryLock never holds one fork across a backoff.  For an agent `a` of a
TryLock run, in every reachable state:
in its retry sleep it holds no fork, and its last operations are either the
failed `try_lock` of its left fork or the successful `try_lock` of the left
fork, the failed `try_lock` of the right fork and the `unlock` of the left fork;
a failing first `try_lock` changes no fork and leads to the retry sleep;
a first `try_lock` that succeeds followed by a failing second one and the
`unlock` leave every fork as before the attempt, and under any interleaving the
only fork the attempt changes is the left one, locked by `a` from the first
`try_lock` to the `unlock`; the agent eats only after both `try_lock`s have
succeeded, and then holds both forks. -/
theorem try_lock_backoff_holds_nothing (N : Nat) (it : Int) (v : Bool) (s : State)
    (a : Nat) (ag : Agent) (hN : 2 ≤ N) (hr : Reachable .TRY_LOCK N it v s) (ha : a < N)
    (hag : s.agents[a]? = some ag) :
    (ag.pc = .retrySleep →
      (∀ g, ¬ s.holds a g) ∧
      ((∃ r, agent_ops s.history a = .try_lock (left_fork a) false :: r) ∨
        ∃ r, agent_ops s.history a = .unlock (left_fork a) ::
          .try_lock (right_fork N a) false :: .try_lock (left_fork a) true :: r)) ∧
    (ag.pc = .lockFirst → s.forks[left_fork a]? = some true →
      ∃ s', step .TRY_LOCK N it v s a = some s' ∧ s'.forks = s.forks ∧
        s'.agents[a]? = some ⟨.retrySleep, ag.i⟩) ∧
    (ag.pc = .lockFirst → s.forks[left_fork a]? = some false →
      s.forks[right_fork N a]? = some true →
      ∃ s', run .TRY_LOCK N it v [a, a, a] s = some s' ∧ s'.forks = s.forks ∧
        s'.agents[a]? = some ⟨.retrySleep, ag.i⟩ ∧ ∀ g, ¬ s'.holds a g) ∧
    (ag.pc = .lockSecond →
      s.forks[left_fork a]? = some true ∧ s.holds a (left_fork a) ∧
      ¬ s.holds a (right_fork N a) ∧
      (s.forks[right_fork N a]? = some true →
        ∃ s', step .TRY_LOCK N it v s a = some s' ∧ s'.forks = s.forks ∧
          s'.agents[a]? = some ⟨.retryUnlock, ag.i⟩)) ∧
    (ag.pc = .retryUnlock →
      s.forks[left_fork a]? = some true ∧ s.holds a (left_fork a) ∧
      ¬ s.holds a (right_fork N a) ∧
      ∃ s', step .TRY_LOCK N it v s a = some s' ∧
        s'.forks = s.forks.set (left_fork a) false ∧
        s'.agents[a]? = some ⟨.retrySleep, ag.i⟩ ∧ ∀ g, ¬ s'.holds a g) ∧
    (ag.pc = .eat →
      s.holds a (left_fork a) ∧ s.holds a (right_fork N a) ∧
      ∃ r, agent_ops s.history a =
        .try_lock (right_fork N a) true :: .try_lock (left_fork a) true :: r) := by
  have hinv := reachable_core hN hr
  have hops := try_lock_ops hr ha hag
  have hlen := agent_lt_length hag
  have hlr := right_fork_ne_left hN ha
  have hrl : right_fork N a < N := right_fork_lt (by omega) a
  obtain ⟨pc, i⟩ := ag
  -- the step out of the retry unlock, used twice
  have hunlock : ∀ t : State, Reachable .TRY_LOCK N it v t →
      t.agents[a]? = some ⟨.retryUnlock, i⟩ →
      t.forks[left_fork a]? = some true ∧ t.holds a (left_fork a) ∧
      ¬ t.holds a (right_fork N a) ∧
      ∃ t', step .TRY_LOCK N it v t a = some t' ∧
        t'.forks = t.forks.set (left_fork a) false ∧
        t'.agents[a]? = some ⟨.retrySleep, i⟩ ∧ ∀ g, ¬ t'.holds a g := by
    intro t ht hta
    have htinv := reachable_core hN ht
    have hheld : left_fork a ∈ held .TRY_LOCK N a (Agent.mk .retryUnlock i).pc := by
      simp [held]
    have hl : t.forks[left_fork a]? = some true :=
      (htinv.flag _ ha).2 ⟨a, (heldAt_self hta _).2 hheld⟩
    refine ⟨hl, holds_of_held htinv hta hheld, ?_, ?_⟩
    · intro hh
      have := (htinv.hist a _).1 hh
      rw [heldAt_self hta] at this
      simp only [held, List.mem_singleton] at this
      exact hlr this
    · have hst : step .TRY_LOCK N it v t a = some
          { t with agents := t.goto a ⟨.retryUnlock, i⟩ .retrySleep,
                   forks := t.forks.set (left_fork a) false,
                   history := (a, .unlock (left_fork a)) :: t.history } := by
        simp [step, hta, program, philosopher_try_lock, exec, hl]
      refine ⟨_, hst, rfl, ?_, ?_⟩
      · simp [State.goto, List.getElem?_set_self (agent_lt_length hta)]
      · have ht' := Reachable.step ht ha hst
        intro g
        refine @not_held_of_empty .TRY_LOCK N _ a ⟨.retrySleep, i⟩ (reachable_core hN ht') ?_ rfl g
        simp [State.goto, List.getElem?_set_self (agent_lt_length hta)]
  refine ⟨?_, ?_, ?_, ?_, ?_, ?_⟩
  · intro hpc
    simp only at hpc
    subst hpc
    exact ⟨not_held_of_empty hinv hag rfl, hops.2.2.1 rfl⟩
  · intro hpc hl
    simp only at hpc
    subst hpc
    refine ⟨{ s with agents := s.goto a ⟨.lockFirst, i⟩ .retrySleep,
                     history := (a, .try_lock (left_fork a) false) :: s.history }, ?_, rfl, ?_⟩
    · simp [step, hag, program, philosopher_try_lock, exec, hl]
    · simp [State.goto, List.getElem?_set_self hlen]
  · intro hpc hl hrt
    simp only at hpc
    subst hpc
    -- first step: the left fork is locked
    have hst1 : step .TRY_LOCK N it v s a = some
        { s with agents := s.goto a ⟨.lockFirst, i⟩ .lockSecond,
                 forks := s.forks.set (left_fork a) true,
                 history := (a, .try_lock (left_fork a) true) :: s.history } := by
      simp [step, hag, program, philosopher_try_lock, exec, hl]
    have hr1 := Reachable.step hr ha hst1
    -- second step: the right fork is found locked
    have hst2 : step .TRY_LOCK N it v
        { s with agents := s.goto a ⟨.lockFirst, i⟩ .lockSecond,
                 forks := s.forks.set (left_fork a) true,
                 history := (a, .try_lock (left_fork a) true) :: s.history } a = some
        { s with agents := (s.goto a ⟨.lockFirst, i⟩ .lockSecond).set a ⟨.retryUnlock, i⟩,
                 forks := s.forks.set (left_fork a) true,
                 history := (a, .try_lock (right_fork N a) false) ::
                   (a, .try_lock (left_fork a) true) :: s.history } := by
      simp [step, State.goto, List.getElem?_set_self hlen, program, philosopher_try_lock,
        exec, List.getElem?_set_ne (Ne.symm hlr), hrt]
    have hr2 := Reachable.step hr1 ha hst2
    obtain ⟨_, _, _, t', hst3, hf3, hag3, hno3⟩ := hunlock _ hr2
      (by simp [State.goto, List.getElem?_set_self, hlen])
    refine ⟨t', ?_, ?_, hag3, hno3⟩
    · simp only [run, ha, if_true, hst1, hst2, hst3]
    · rw [hf3]
      simp only [List.set_set]
      exact set_same _ _ _ hl
  · intro hpc
    simp only at hpc
    subst hpc
    have hheld : left_fork a ∈ held .TRY_LOCK N a (Agent.mk .lockSecond i).pc := by
      simp [held]
    refine ⟨(hinv.flag _ ha).2 ⟨a, (heldAt_self hag _).2 hheld⟩,
      holds_of_held hinv hag hheld, ?_, ?_⟩
    · intro hh
      have := (hinv.hist a _).1 hh
      rw [heldAt_self hag] at this
      simp only [held, List.mem_singleton] at this
      exact hlr this
    · intro hrt
      refine ⟨{ s with agents := s.goto a ⟨.lockSecond, i⟩ .retryUnlock,
                       history := (a, .try_lock (right_fork N a) false) :: s.history },
        ?_, rfl, ?_⟩
      · simp [step, hag, program, philosopher_try_lock, exec, hrt]
      · simp [State.goto, List.getElem?_set_self hlen]
  · intro hpc
    simp only at hpc
    subst hpc
    exact hunlock s hr hag
  · intro hpc
    simp only at hpc
    subst hpc
    refine ⟨holds_of_held hinv hag (by simp [held]), holds_of_held hinv hag (by simp [held]),
      hops.2.2.2 rfl⟩

/-- Instance of `try_lock_backoff_holds_nothing`: agent 0 of a two-philosopher
run after the schedule `[0, 0, 1, 1]`, with its left fork in hand while agent 1
has locked fork 1. -/
theorem try_lock_backoff_holds_nothing_witness :
    2 ≤ 2 ∧ Reachable .TRY_LOCK 2 1 false try_lock_contended ∧ 0 < 2 ∧
      try_lock_contended.agents[0]? = some ⟨.lockSecond, 0⟩ ∧
      (try_lock_contended.forks[left_fork 0]? = some true ∧
      try_lock_contended.holds 0 (left_fork 0) ∧
      ¬ try_lock_contended.holds 0 (right_fork 2 0) ∧
      (try_lock_contended.forks[right_fork 2 0]? = some true →
        ∃ s', step .TRY_LOCK 2 1 false try_lock_contended 0 = some s' ∧
          s'.forks = try_lock_contended.forks ∧
          s'.agents[0]? = some ⟨.retryUnlock, 0⟩)) :=
  ⟨by decide, try_lock_contended_reachable, by decide, rfl,
    (try_lock_backoff_holds_nothing 2 1 false try_lock_contended 0 ⟨.lockSecond, 0⟩
      (by decide) try_lock_contended_reachable (by decide) rfl).2.2.2.1 rfl⟩

/-- C12: the Arbitrator check-and-take is atomic and all-or-nothing.  Let agent
`a` stand at the test inside the guarded section, with `bl` and `br` the table
entries of its left and right fork on entry.  The pass (test, the two writes if
granted, guard exit) can always be completed, and for every interleaving of it
with steps of the other agents: the agent goes on to eat exactly when both
entries were true and to the retry sleep otherwise; when granted the table is
the entry table with exactly those two entries set to false; when not granted
the table is the entry table; the guard is free afterwards; and the other
agents have logged nothing but trace lines meanwhile, so none of their table
accesses or guard operations falls between the test and the update. -/
theorem arbitrator_check_and_take_atomic (N : Nat) (it : Int) (v : Bool) (s : State)
    (a i : Nat) (hN : 2 ≤ N) (hr : Reachable .ARBITRATOR N it v s) (ha : a < N)
    (hag : s.agents[a]? = some ⟨.guardCheck, i⟩) :
    ∃ bl br, s.forks[left_fork a]? = some bl ∧ s.forks[right_fork N a]? = some br ∧
      (∃ s', run .ARBITRATOR N it v (List.replicate (if bl && br then 4 else 2) a) s =
        some s') ∧
      ∀ sched s', run .ARBITRATOR N it v (sched ++ [a]) s = some s' →
        sched.count a + 1 = (if bl && br then 4 else 2) →
        s'.agents[a]? = some ⟨if bl && br then .eat else .retrySleep, i⟩ ∧
        s'.forks = (if bl && br then
            (s.forks.set (left_fork a) false).set (right_fork N a) false
          else s.forks) ∧
        (∀ f, f ≠ left_fork a → f ≠ right_fork N a → s'.forks[f]? = s.forks[f]?) ∧
        ((bl && br) = true →
          s'.forks[left_fork a]? = some false ∧ s'.forks[right_fork N a]? = some false) ∧
        s'.table_mutex = false ∧
        ∃ evs, s'.history = evs ++ s.history ∧
          ∀ e, e ∈ evs → e.1 ≠ a → e.2.is_trace = true := by
  have hinv := reachable_core hN hr
  have hrN : right_fork N a < N := right_fork_lt (by omega) a
  have hlr := right_fork_ne_left hN ha
  have hlN : left_fork a < s.forks.length := by rw [hinv.len_forks]; exact ha
  have hrN' : right_fork N a < s.forks.length := by rw [hinv.len_forks]; exact hrN
  have hl : s.forks[left_fork a]? = some (s.forks.get ⟨left_fork a, hlN⟩) :=
    List.getElem?_eq_getElem hlN
  have hrt : s.forks[right_fork N a]? = some (s.forks.get ⟨right_fork N a, hrN'⟩) :=
    List.getElem?_eq_getElem hrN'
  generalize s.forks.get ⟨left_fork a, hlN⟩ = bl at hl
  generalize s.forks.get ⟨right_fork N a, hrN'⟩ = br at hrt
  have hp0 : InPass N a i (bl && br) s.forks 0 s := ⟨hag, rfl⟩
  have hlen : pass_length (bl && br) = if bl && br then 4 else 2 := rfl
  refine ⟨bl, br, hl, hrt, ?_, ?_⟩
  · obtain ⟨s', hrun, -⟩ :=
      @pass_solo N it v a i s.forks bl br hN ha hl hrt (pass_length (bl && br)) s 0 hp0
        (by omega)
    rw [← hlen]
    exact ⟨s', hrun⟩
  · intro sched s' hrun hcount
    rw [← hlen] at hcount
    obtain ⟨s1, hrun1, hrun2⟩ := run_split sched [a] hrun
    obtain ⟨hr1, hp1, evs, hh1, hev⟩ :=
      @pass_run N it v a i s.forks bl br hN ha hl hrt sched s s1 0 hr hp0 (by omega) hrun1
    obtain ⟨s2, hst, hp2, ⟨op, hh2⟩, htm, -⟩ :=
      @pass_step N it v s1 a i s.forks bl br (0 + sched.count a) hN ha hl hrt (by omega) hp1
    simp only [run, ha, if_true, hst] at hrun2
    cases hrun2
    obtain ⟨hag2, hf2⟩ := hp2
    have hfinal : s'.forks = (if bl && br then
        (s.forks.set (left_fork a) false).set (right_fork N a) false else s.forks) := by
      rw [hf2]
      cases hg : (bl && br)
      · rw [hg] at hcount
        have : 0 + sched.count a + 1 = 2 := by simp [pass_length] at hcount; omega
        rw [this]
        simp [pass_table]
      · rw [hg] at hcount
        have : 0 + sched.count a + 1 = 4 := by simp [pass_length] at hcount; omega
        rw [this]
        simp [pass_table]
    refine ⟨?_, hfinal, ?_, ?_, htm (by omega),
      ⟨(a, op) :: evs, by rw [hh2, hh1]; rfl, ?_⟩⟩
    · rw [hag2]
      cases hg : (bl && br)
      · rw [hg] at hcount
        have : 0 + sched.count a + 1 = 2 := by simp [pass_length] at hcount; omega
        rw [this]
        simp [pass_pc]
      · rw [hg] at hcount
        have : 0 + sched.count a + 1 = 4 := by simp [pass_length] at hcount; omega
        rw [this]
        simp [pass_pc]
    · intro f hfl hfr
      rw [hfinal]
      split
      · rw [List.getElem?_set_ne (Ne.symm hfr), List.getElem?_set_ne (Ne.symm hfl)]
      · rfl
    · intro hg
      rw [hfinal, if_pos hg]
      constructor
      · rw [List.getElem?_set_ne hlr, List.getElem?_set_self hlN]
      · rw [List.getElem?_set_self (by rw [List.length_set]; exact hrN')]
    · intro e he hne
      rcases List.mem_cons.1 he with h | h
      · rw [h] at hne
        exact absurd rfl hne
      · exact hev e h hne

/-- Instance of `arbitrator_check_and_take_atomic`: agent 0 of a
two-philosopher run, just after it has locked the table guard. -/
theorem arbitrator_check_and_take_atomic_witness :
    2 ≤ 2 ∧ Reachable .ARBITRATOR 2 1 false arbitrator_entered ∧ 0 < 2 ∧
      arbitrator_entered.agents[0]? = some ⟨.guardCheck, 0⟩ ∧
      ∃ bl br, arbitrator_entered.forks[left_fork 0]? = some bl ∧
        arbitrator_entered.forks[right_fork 2 0]? = some br ∧
        (∃ s', run .ARBITRATOR 2 1 false (List.replicate (if bl && br then 4 else 2) 0)
          arbitrator_entered = some s') ∧
        ∀ sched s', run .ARBITRATOR 2 1 false (sched ++ [0]) arbitrator_entered = some s' →
          sched.count 0 + 1 = (if bl && br then 4 else 2) →
          s'.agents[0]? = some ⟨if bl && br then .eat else .retrySleep, 0⟩ ∧
          s'.forks = (if bl && br then
              (arbitrator_entered.forks.set (left_fork 0) false).set (right_fork 2 0) false
            else arbitrator_entered.forks) ∧
          (∀ f, f ≠ left_fork 0 → f ≠ right_fork 2 0 →
            s'.forks[f]? = arbitrator_entered.forks[f]?) ∧
          ((bl && br) = true →
            s'.forks[left_fork 0]? = some false ∧ s'.forks[right_fork 2 0]? = some false) ∧
          s'.table_mutex = false ∧
          ∃ evs, s'.history = evs ++ arbitrator_entered.history ∧
            ∀ e, e ∈ evs → e.1 ≠ 0 → e.2.is_trace = true :=
  ⟨by decide, arbitrator_entered_reachable, by decide, rfl,
    arbitrator_check_and_take_atomic 2 1 false arbitrator_entered 0 0 (by decide)
      arbitrator_entered_reachable (by decide) rfl⟩

/-- C21: the ResourceHierarchy ordering equals plain min/max ordering.  For
every `N ≥ 1` and every `id < N`, the pair `(first_fork, second_fork)` computed
by `philosopher_resource_hierarchy` is `(min left right, max left right)` with
`left = id` and `right = (id + 1) % N`; it is also what the general branch and
the swap compute without the special case; so the two forks locked are the
agent's own adjacent forks, the smaller index first. -/
theorem hierarchy_ordering_is_min_max (N id : Nat) (hN : 1 ≤ N) (hid : id < N) :
    (first_fork N id, second_fork N id) =
        (min (left_fork id) (right_fork N id), max (left_fork id) (right_fork N id)) ∧
      hierarchy_forks N id = min_max_forks N id ∧
      hierarchy_forks N id = hierarchy_forks_plain N id ∧
      ((first_fork N id = left_fork id ∧ second_fork N id = right_fork N id) ∨
        (first_fork N id = right_fork N id ∧ second_fork N id = left_fork id)) ∧
      philosopher_resource_hierarchy N id .lockFirst =
        .lock (min (left_fork id) (right_fork N id)) .lockSecond ∧
      philosopher_resource_hierarchy N id .lockSecond =
        .lock (max (left_fork id) (right_fork N id)) .eat := by
  obtain ⟨h1, h2⟩ := hierarchy_forks_min_max hN hid
  have hf : first_fork N id = min (left_fork id) (right_fork N id) := by
    unfold first_fork
    rw [h1]
    rfl
  have hs : second_fork N id = max (left_fork id) (right_fork N id) := by
    unfold second_fork
    rw [h1]
    rfl
  refine ⟨by rw [hf, hs], h1, h2, ?_, ?_, ?_⟩
  · rw [hf, hs]
    rcases Nat.le_total (left_fork id) (right_fork N id) with h | h
    · left
      exact ⟨Nat.min_eq_left h, Nat.max_eq_right h⟩
    · right
      exact ⟨Nat.min_eq_right h, Nat.max_eq_left h⟩
  · simp only [philosopher_resource_hierarchy, hf]
  · simp only [philosopher_resource_hierarchy, hs]

/-- Instance of `hierarchy_ordering_is_min_max`: the last of five
philosophers, for whom the special case applies. -/
theorem hierarchy_ordering_is_min_max_witness :
    1 ≤ 5 ∧ 4 < 5 ∧ (first_fork 5 4, second_fork 5 4) = (0, 4) ∧
      (first_fork 5 4, second_fork 5 4) =
        (min (left_fork 4) (right_fork 5 4), max (left_fork 4) (right_fork 5 4)) :=
  ⟨by decide, by decide, by decide,
    (hierarchy_ordering_is_min_max 5 4 (by decide) (by decide)).1⟩

/-- C23: verbosity does not affect synchronization.  For every strategy, `N`,
iteration count and schedule (the same interleaving, hence the same outcomes of
all lock attempts), the verbose run and the non-verbose run from the start
either both block or reach states that differ only by the trace lines in the
log: same program points and loop variables, same forks, same guard, and for
every agent the same sequence of synchronisation operations. -/
theorem verbosity_does_not_affect_synchronization (strat : Strategy) (N : Nat) (it : Int)
    (sched : List Nat) :
    (run strat N it true sched (init strat N)).map State.strip =
        run strat N it false sched (init strat N) ∧
      (∀ s, run strat N it true sched (init strat N) = some s →
        ∃ s', run strat N it false sched (init strat N) = some s' ∧
          s'.agents = s.agents ∧ s'.forks = s.forks ∧ s'.table_mutex = s.table_mutex ∧
          s'.history = s.history.filter (fun e => !e.2.is_trace) ∧
          ∀ a, agent_ops s'.history a =
            (agent_ops s.history a).filter (fun op => !op.is_trace)) ∧
      (∀ s', run strat N it false sched (init strat N) = some s' →
        ∃ s, run strat N it true sched (init strat N) = some s ∧ s.strip = s') ∧
      (run strat N it true sched (init strat N) = none ↔
        run strat N it false sched (init strat N) = none) := by
  have h := run_strip strat N it true sched (init strat N)
  have hinit : (init strat N).strip = init strat N := rfl
  rw [hinit] at h
  refine ⟨h, ?_, ?_, ?_⟩
  · intro s hs
    rw [hs] at h
    refine ⟨s.strip, h.symm, rfl, rfl, rfl, rfl, fun a => agent_ops_strip s.history a⟩
  · intro s' hs'
    rw [hs'] at h
    cases hrun : run strat N it true sched (init strat N) with
    | none => rw [hrun] at h; cases h
    | some s =>
      rw [hrun] at h
      exact ⟨s, rfl, by simpa using h⟩
  · rw [← h]
    cases run strat N it true sched (init strat N) <;> simp

/-- C24: all forks are free after a completed run.  For every strategy and
`N ≥ 2`, in every state of a run started with all forks free in which all `N`
agents have returned, every fork has the value it was constructed with (every
mutex unlocked, every semaphore available, every table entry true), no agent
holds a fork, and the table guard of the Arbitrator is free; in every reachable
state an agent between two dining cycles (at the increment, at the loop test or
returned) holds no fork; and a completed run exists. -/
theorem forks_free_after_run (strat : Strategy) (N : Nat) (it : Int) (v : Bool) (s : State)
    (hN : 2 ≤ N) (hr : Reachable strat N it v s) :
    (AllFinished N s →
      s.forks = List.replicate N (initial_flag strat) ∧
      (∀ a f, ¬ s.holds a f) ∧
      (strat = .MUTEX ∨ strat = .TRY_LOCK ∨ strat = .RESOURCE_HIERARCHY →
        ∀ f, f < N → s.forks[f]? = some false) ∧
      (strat = .SEMAPHORE ∨ strat = .ARBITRATOR → ∀ f, f < N → s.forks[f]? = some true) ∧
      (strat = .ARBITRATOR → s.table_mutex = false)) ∧
    (∀ a ag, s.agents[a]? = some ag →
      ag.pc = .loopIncr ∨ ag.pc = .loopHead ∨ ag.pc = .finished → ∀ g, ¬ s.holds a g) ∧
    ∃ sched s', run strat N it v sched (init strat N) = some s' ∧ AllFinished N s' := by
  have hinv := reachable_core hN hr
  refine ⟨?_, ?_, init_can_finish strat it v hN⟩
  · intro hfin
    have hnone : ∀ a f, ¬ HeldAt strat N s a f := by
      rintro a f ⟨ag, hag, hmem⟩
      have haN : a < N := by
        by_contra hc
        rw [List.getElem?_eq_none (by rw [hinv.len_agents]; omega)] at hag
        cases hag
      obtain ⟨ag', hag', hpc⟩ := hfin a haN
      rw [hag] at hag'
      cases hag'
      rw [hpc, held_finished] at hmem
      cases hmem
    have hflag : ∀ f, f < N → s.forks[f]? = some (initial_flag strat) := by
      intro f hf
      have hlt : f < s.forks.length := by rw [hinv.len_forks]; exact hf
      have hsome : s.forks[f]? = some (s.forks.get ⟨f, hlt⟩) := List.getElem?_eq_getElem hlt
      generalize s.forks.get ⟨f, hlt⟩ = b at hsome
      by_cases hb : b = initial_flag strat
      · rw [hsome, hb]
      · exfalso
        have hb' : b = !initial_flag strat := by
          cases b <;> cases h0 : initial_flag strat <;> simp [h0] at hb ⊢
        rw [hb'] at hsome
        obtain ⟨a, ha⟩ := (hinv.flag f hf).1 hsome
        exact hnone a f ha
    refine ⟨?_, ?_, ?_, ?_, ?_⟩
    · apply List.ext_getElem?
      intro f
      by_cases hf : f < N
      · rw [hflag f hf, List.getElem?_replicate]
        simp [hf]
      · rw [List.getElem?_eq_none (by rw [hinv.len_forks]; omega),
          List.getElem?_eq_none (by rw [List.length_replicate]; omega)]
    · intro a f hh
      exact hnone a f ((hinv.hist a f).1 hh)
    · intro hs f hf
      rw [hflag f hf]
      rcases hs with rfl | rfl | rfl <;> rfl
    · intro hs f hf
      rw [hflag f hf]
      rcases hs with rfl | rfl <;> rfl
    · intro hs
      subst hs
      have harb := reachable_arb hN hr
      cases htm : s.table_mutex with
      | false => rfl
      | true =>
        obtain ⟨a, ag, hag, hin⟩ := harb.guard_mutex.1 htm
        have haN : a < N := by
          by_contra hc
          rw [List.getElem?_eq_none (by rw [hinv.len_agents]; omega)] at hag
          cases hag
        obtain ⟨ag', hag', hpc⟩ := hfin a haN
        rw [hag] at hag'
        cases hag'
        rw [hpc] at hin
        cases hin
  · intro a ag hag hpc g
    exact not_held_of_empty hinv hag (held_between_cycles strat N a hpc) g

/-- Instance of `forks_free_after_run`: the completed two-philosopher Mutex
run with one iteration. -/
theorem forks_free_after_run_witness :
    2 ≤ 2 ∧ Reachable .MUTEX 2 1 false mutex_completed ∧ AllFinished 2 mutex_completed ∧
      mutex_completed.forks = List.replicate 2 (initial_flag .MUTEX) ∧
      ∀ a f, ¬ mutex_completed.holds a f :=
  ⟨by decide, mutex_completed_reachable,
    fun a ha => by
      have h : a = 0 ∨ a = 1 := by omega
      rcases h with rfl | rfl
      · exact ⟨_, rfl, rfl⟩
      · exact ⟨_, rfl, rfl⟩,
    ((forks_free_after_run .MUTEX 2 1 false mutex_completed (by decide)
      mutex_completed_reachable).1 (fun a ha => by
        have h : a = 0 ∨ a = 1 := by omega
        rcases h with rfl | rfl
        · exact ⟨_, rfl, rfl⟩
        · exact ⟨_, rfl, rfl⟩)).1,
    ((forks_free_after_run .MUTEX 2 1 false mutex_completed (by decide)
      mutex_completed_reachable).1 (fun a ha => by
        have h : a = 0 ∨ a = 1 := by omega
        rcases h with rfl | rfl
        · exact ⟨_, rfl, rfl⟩
        · exact ⟨_, rfl, rfl⟩)).2.1⟩

/-- C25: neighbours never eat together.  For every strategy and `N ≥ 2`, in
every reachable state no agent and its right neighbour `(id + 1) % N` are both
at the eat sleep, and the number of agents at the eat sleep is at most
`N / 2`. -/
theorem neighbours_never_eat_together (strat : Strategy) (N : Nat) (it : Int) (v : Bool)
    (s : State) (hN : 2 ≤ N) (hr : Reachable strat N it v s) :
    (∀ a, a < N → ¬ (s.eating a = true ∧ s.eating ((a + 1) % N) = true)) ∧
      ((List.range N).filter (fun a => s.eating a)).length ≤ N / 2 := by
  have hinv := reachable_core hN hr
  constructor
  · rintro a ha ⟨h1, h2⟩
    have hb : (a + 1) % N < N := Nat.mod_lt _ (by omega)
    have e1 := (@eating_held strat N s a hN ha h1).2
    have e2 := (@eating_held strat N s ((a + 1) % N) hN hb h2).1
    have hab : a = (a + 1) % N := hinv.excl a _ _ e1 e2
    exact right_fork_ne_left hN ha hab.symm
  · have := @eaters_bound strat N s hN hinv
    omega

/-- Instance of `neighbours_never_eat_together`: while agent 0 of a
two-philosopher Mutex run eats, agent 1 does not. -/
theorem neighbours_never_eat_together_witness :
    2 ≤ 2 ∧ Reachable .MUTEX 2 1 false mutex_eating ∧ mutex_eating.eating 0 = true ∧
      (∀ a, a < 2 → ¬ (mutex_eating.eating a = true ∧
        mutex_eating.eating ((a + 1) % 2) = true)) ∧
      ((List.range 2).filter (fun a => mutex_eating.eating a)).length ≤ 2 / 2 :=
  ⟨by decide, mutex_eating_reachable, rfl,
    neighbours_never_eat_together .MUTEX 2 1 false mutex_eating (by decide)
      mutex_eating_reachable⟩

/-- C22: TryLock admits a livelock.  For every `N ≥ 2` and every iteration
count `k ≥ 1` there is a reachable state (every agent before its first
`try_lock`, all forks free) from which one round of the schedule
`0 .. N-1, 0 .. N-1, 0 .. N-1, 0 .. N-1` runs: every agent takes four steps (it
locks its left fork, fails `try_lock` on its right fork, unlocks the left fork,
sleeps), and the round ends in a state with the same program points, loop
variables, forks and guard, only the log having grown by these operations; the
round can be repeated any number of times, and in no state passed does an
agent eat or hold both its forks. -/
theorem try_lock_livelock (N : Nat) (it : Int) (v : Bool) (hN : 2 ≤ N) (hit : 1 ≤ it) :
    ∃ s, Reachable .TRY_LOCK N it v s ∧
      livelock_round N ≠ [] ∧ (∀ a, a < N → (livelock_round N).count a = 4) ∧
      (∃ s', run .TRY_LOCK N it v (livelock_round N) s = some s' ∧
        s'.agents = s.agents ∧ s'.forks = s.forks ∧ s'.table_mutex = s.table_mutex ∧
        s'.history =
          round_ops (fun a => .unlock (left_fork a)) N ++
            (round_ops (fun a => .try_lock (right_fork N a) false) N ++
              round_ops (fun a => .try_lock (left_fork a) true) N) ++ s.history) ∧
      ∀ n pre suf, (List.replicate n (livelock_round N)).flatten = pre ++ suf →
        ∃ t, run .TRY_LOCK N it v pre s = some t ∧
          ∀ a, a < N → t.eating a = false ∧
            ¬ (t.holds a (left_fork a) ∧ t.holds a (right_fork N a)) := by
  obtain ⟨s, hr, hs⟩ := @start_reach N it v hit N le_rfl
  have hl := live_of_start hs
  obtain ⟨s', hrun, hl', -⟩ := @live_round N it v 0 s.history s hN hl
  obtain ⟨e1, e2, e3⟩ := live_same_state hl hl'
  refine ⟨s, hr, ?_, fun a ha => livelock_round_count ha, ⟨s', hrun, e1, e2, e3, ?_⟩, ?_⟩
  · intro hnil
    have := @livelock_round_count N 0 (by omega)
    rw [hnil] at this
    simp at this
  · rw [hl'.2.2.2.2.2]
    simp [live_log, round_ops]
  · intro n pre suf hsplit
    have hw := @live_rounds N it v 0 hN n s.history s hl
    rw [hsplit] at hw
    obtain ⟨t, ht, hP⟩ := run_within_prefix pre suf s hw
    exact ⟨t, ht, live_pcs_safe hN (run_reachable pre hr ht) hP⟩

/-- Instance of `try_lock_livelock` for two philosophers and one iteration. -/
theorem try_lock_livelock_witness :
    2 ≤ 2 ∧ (1 : Int) ≤ 1 ∧
      ∃ s, Reachable .TRY_LOCK 2 1 false s ∧
        livelock_round 2 ≠ [] ∧ (∀ a, a < 2 → (livelock_round 2).count a = 4) ∧
        (∃ s', run .TRY_LOCK 2 1 false (livelock_round 2) s = some s' ∧
          s'.agents = s.agents ∧ s'.forks = s.forks ∧ s'.table_mutex = s.table_mutex ∧
          s'.history =
            round_ops (fun a => .unlock (left_fork a)) 2 ++
              (round_ops (fun a => .try_lock (right_fork 2 a) false) 2 ++
                round_ops (fun a => .try_lock (left_fork a) true) 2) ++ s.history) ∧
        ∀ n pre suf, (List.replicate n (livelock_round 2)).flatten = pre ++ suf →
          ∃ t, run .TRY_LOCK 2 1 false pre s = some t ∧
            ∀ a, a < 2 → t.eating a = false ∧
              ¬ (t.holds a (left_fork a) ∧ t.holds a (right_fork 2 a)) :=
  ⟨by decide, by decide, try_lock_livelock 2 1 false (by decide) (by decide)⟩

end task3

namespace task2

/-- C29: `generate_employees(count, target)` returns, whatever the random
generator yields, a list of `max count 0` employees, so exactly `count` when
`count ≥ 0`, every one with an age in `[20, 65]`, and when `count ≥ 1` one of
them has the target position. -/
theorem generate_employees_shape (count : Int) (target_position : String)
    (draws : Nat → Draw) :
    (generate_employees count target_position draws).length = count.toNat ∧
      (0 ≤ count →
        ((generate_employees count target_position draws).length : Int) = count) ∧
      (∀ e, e ∈ generate_employees count target_position draws → 20 ≤ e.age ∧ e.age ≤ 65) ∧
      (1 ≤ count →
        ∃ e, e ∈ generate_employees count target_position draws ∧
          e.position = target_position) := by
  have hbase : ∀ e, e ∈ (List.range count.toNat).map
      (fun i => generate_employee target_position (draws i)) → 20 ≤ e.age ∧ e.age ≤ 65 := by
    intro e he
    obtain ⟨i, -, rfl⟩ := List.mem_map.1 he
    exact uniform_age_range _
  have hlen : (generate_employees count target_position draws).length = count.toNat := by
    unfold generate_employees
    simp only
    split
    · cases hl : (List.range count.toNat).map
          (fun i => generate_employee target_position (draws i)) with
      | nil =>
        have := congrArg List.length hl
        rw [List.length_map, List.length_range] at this
        rw [this]
      | cons e es =>
        have := congrArg List.length hl
        rw [List.length_map, List.length_range] at this
        rw [this]
        rfl
    · simp
  refine ⟨hlen, ?_, ?_, ?_⟩
  · intro h
    rw [hlen]
    omega
  · intro e he
    unfold generate_employees at he
    simp only at he
    split at he
    · cases hl : (List.range count.toNat).map
          (fun i => generate_employee target_position (draws i)) with
      | nil =>
        rw [hl] at he
        cases he
      | cons x xs =>
        rw [hl] at he hbase
        simp only [List.mem_cons] at he
        rcases he with rfl | he
        · exact hbase x (List.mem_cons_self _ _)
        · exact hbase e (List.mem_cons_of_mem _ he)
    · exact hbase e he
  · intro h
    unfold generate_employees
    simp only
    split
    · cases hl : (List.range count.toNat).map
          (fun i => generate_employee target_position (draws i)) with
      | nil =>
        have := congrArg List.length hl
        simp at this
        omega
      | cons x xs =>
        exact ⟨_, List.mem_cons_self _ _, rfl⟩
    · rename_i hcond
      have hany : ((List.range count.toNat).map
          (fun i => generate_employee target_position (draws i))).any
          (fun emp => decide (emp.position = target_position)) = true := by
        have hne : ((List.range count.toNat).map
            (fun i => generate_employee target_position (draws i))).isEmpty = false := by
          cases hl : (List.range count.toNat).map
              (fun i => generate_employee target_position (draws i)) with
          | nil =>
            have := congrArg List.length hl
            simp at this
            omega
          | cons x xs => rfl
        cases hb : ((List.range count.toNat).map
            (fun i => generate_employee target_position (draws i))).any
            (fun emp => decide (emp.position = target_position)) with
        | true => rfl
        | false =>
          rw [hb, hne] at hcond
          simp at hcond
      obtain ⟨e, he, hp⟩ := List.any_eq_true.1 hany
      exact ⟨e, he, by simpa using hp⟩

end task2

namespace task1

/-- C30: generation invariant of `CustomBarrier`.  For a barrier constructed
with `total = n ≥ 1`, after `m` full rounds and `k < n` further arrivals: the
counter is `n - k`, so in `[1, n]`; the generation is `m`; exactly the `k`
threads that arrived in this round are blocked, each with the captured
generation `m`.  The next arrival, when it is not the `n`-th of its round,
leaves the generation unchanged and blocks the caller; when it is the `n`-th,
it increments the generation by one, resets the counter to `n` and leaves no
thread blocked; so after `m * n` arrivals the generation is `m`. -/
theorem barrier_generation_invariant (n : Nat) (hn : 1 ≤ n) (m k : Nat) (hk : k < n) :
    (1 ≤ (arrivals n (m * n + k)).count ∧ (arrivals n (m * n + k)).count ≤ n) ∧
      (arrivals n (m * n + k)).count = (n : Int) - k ∧
      (arrivals n (m * n + k)).total = n ∧
      (arrivals n (m * n + k)).generation = m ∧
      (arrivals n (m * n + k)).waiting = List.replicate k (m : Int) ∧
      (k + 1 < n →
        (arrivals n (m * n + k)).arrive_and_wait.generation =
          (arrivals n (m * n + k)).generation ∧
        (arrivals n (m * n + k)).arrive_and_wait.waiting =
          (arrivals n (m * n + k)).generation :: (arrivals n (m * n + k)).waiting ∧
        (arrivals n (m * n + k)).arrive_and_wait.count =
          (arrivals n (m * n + k)).count - 1) ∧
      (k + 1 = n →
        (arrivals n (m * n + k)).arrive_and_wait.generation =
          (arrivals n (m * n + k)).generation + 1 ∧
        (arrivals n (m * n + k)).arrive_and_wait.count = n ∧
        (arrivals n (m * n + k)).waiting.length = n - 1 ∧
        (∀ g, g ∈ (arrivals n (m * n + k)).waiting →
          g ≠ (arrivals n (m * n + k)).arrive_and_wait.generation) ∧
        (arrivals n (m * n + k)).arrive_and_wait.waiting = []) ∧
      (arrivals n (m * n)).generation = m ∧
      (arrivals n (m * n)).waiting = [] := by
  have h := arrivals_eq n hn m k hk
  have h0 := arrivals_eq n hn m 0 (by omega)
  rw [Nat.add_zero] at h0
  rw [h, h0]
  refine ⟨⟨by simp only; omega, by simp only; omega⟩, rfl, rfl, rfl, rfl, ?_, ?_, rfl, rfl⟩
  · intro hk1
    rw [arrive_inside n m k hk1]
    refine ⟨rfl, rfl, ?_⟩
    simp only
    push_cast
    ring
  · intro hk1
    rw [arrive_last n m k hk1]
    refine ⟨by simp, by simp, by simp; omega, ?_, rfl⟩
    intro g hg
    rw [List.eq_of_mem_replicate hg]
    simp

/-- Instance of `barrier_generation_invariant`: a barrier for three threads,
after one full round and two further arrivals. -/
theorem barrier_generation_invariant_witness :
    1 ≤ 3 ∧ 2 < 3 ∧ arrivals 3 5 = ⟨1, 3, 1, [1, 1]⟩ ∧
      (arrivals 3 6).generation = 2 ∧
      (arrivals ((3 : Nat) : Int) (1 * 3 + 2)).generation = ((1 : Nat) : Int) :=
  ⟨by decide, by decide, by decide, by decide,
    (barrier_generation_invariant 3 (by decide) 1 2 (by decide)).2.2.2.1⟩

end task1

